import Mathlib

/-!
Recipient expansion sessions of smtpd (`smtpd/lka_session.c`).

A shallow embedding of `lka_session.c` and a verification of its expansion
session and of its format expander.

Conventions of the embedding.

* A C string is the list of its characters before the terminating NUL.
* `ssize_t` offsets are integers; no offset of the source leaves the range
  of the machine type, so no reduction modulo a word size is needed.
* A function of the source that reports failure by returning `0` keeps that
  return value in the model when `0` can also be a length
  (`lka_expand_format`), and returns `none` when every successful return is
  positive (`lka_expand_token`).
* `fatalx`, a dereference of a NULL pointer and an exhausted recursion budget
  are the three faults of `Fault`; stateful functions return `Except Fault`.
* Constants, types and functions that `lka_session.c` uses and `smtpd.h`,
  `expand.c`, `ruleset.c`, `aliases.c`, `forward.c`, `table.c` declare are
  parameters: sizes and constants are arguments or fields of `env`, the
  collaborating functions are fields of `env`.
* Members of a C union are kept as separate fields; the source reads only
  the member that matches the tag it has just tested or written.
-/

namespace LkaSession

/-! ## C library -/

/-- The NUL character that terminates a C string. -/
def NUL : Char := Char.ofNat 0

/-- Function `tolower(3)` in the C locale. -/
def tolower (c : Char) : Char :=
  if 65 ≤ c.toNat ∧ c.toNat ≤ 90 then Char.ofNat (c.toNat + 32) else c

/-- Function `isspace(3)` in the C locale. -/
def isspace (c : Char) : Bool :=
  c.toNat = 32 || (9 ≤ c.toNat && c.toNat ≤ 13)

/-- Function `isdigit(3)`. -/
def isdigit (c : Char) : Bool :=
  48 ≤ c.toNat && c.toNat ≤ 57

/-- Contents of `dst` after `strlcpy(dst, src, size)`. -/
def strlcpy (dst src : List Char) (size : Nat) : List Char :=
  if size = 0 then dst else src.take (size - 1)

/-- Contents of `dst` after `strlcat(dst, src, size)`. -/
def strlcat (dst src : List Char) (size : Nat) : List Char :=
  if size ≤ dst.length then dst else dst ++ src.take (size - 1 - dst.length)

/-- Index of the first occurrence of `c` in `s`: `strchr(s, c) - s`, or
`none` when `strchr` returns NULL. -/
def strchr : List Char → Char → Option Nat
  | [], _ => none
  | x :: xs, c => if x = c then some 0 else (strchr xs c).map (· + 1)

/-- Test `strcasecmp(a, b) == 0`. -/
def strcasecmp_eq (a b : List Char) : Bool :=
  a.map tolower == b.map tolower

/-- Value of a string of decimal digits, most significant first. -/
def digits_value (s : List Char) : Nat :=
  s.foldl (fun acc c => acc * 10 + (c.toNat - 48)) 0

/-- Function `strtonum(numstr, minval, maxval, &errstr)` of OpenBSD: the
result and the new value of `errstr` (`none` for NULL). The text is read as
`strtoll` reads it in base 10: leading white space, an optional sign, at
least one digit, and nothing after the digits. -/
def strtonum (numstr : List Char) (minval maxval : Int) : Int × Option String :=
  if minval > maxval then (0, some "invalid")
  else
    let s := numstr.dropWhile isspace
    let neg := s.head? = some '-'
    let body := if s.head? = some '-' ∨ s.head? = some '+' then s.tail else s
    if body = [] ∨ ¬ body.all isdigit = true then (0, some "invalid")
    else
      let ll : Int := if neg then - (digits_value body : Int) else (digits_value body : Int)
      if ll < minval then (0, some "too small")
      else if ll > maxval then (0, some "too large")
      else (ll, none)

/-! ## Data model (the declarations of `smtpd.h` that the source uses) -/

/-- Type `enum expand_type`. -/
inductive expand_type where
  | EXPAND_OTHER
  | EXPAND_USERNAME
  | EXPAND_FILENAME
  | EXPAND_FILTER
  | EXPAND_INCLUDE
  | EXPAND_ADDRESS
  deriving DecidableEq, Repr

/-- Type `enum action_type`: the values the source names, and `A_OTHER` for
any value it does not name (the `default` of the switch of `lka_submit`). -/
inductive action_type where
  | A_RELAY
  | A_RELAYVIA
  | A_MBOX
  | A_MAILDIR
  | A_FILENAME
  | A_MDA
  | A_OTHER
  deriving DecidableEq, Repr

/-- Decision of a rule: `R_REJECT`, or any other value (`R_OTHER`). -/
inductive decision where
  | R_REJECT
  | R_OTHER
  deriving DecidableEq, Repr

/-- Condition type of a rule: `COND_VDOM`, or any other value
(`COND_OTHER`). -/
inductive cond_type where
  | COND_VDOM
  | COND_OTHER
  deriving DecidableEq, Repr

/-- Delivery type of an envelope: `D_MDA`, `D_MTA`, or any other value
(`D_OTHER`). -/
inductive delivery_type where
  | D_OTHER
  | D_MDA
  | D_MTA
  deriving DecidableEq, Repr

/-- Type `struct mailaddr`. -/
structure mailaddr where
  user : List Char
  domain : List Char
  deriving DecidableEq, Repr

/-- User information as `<getpwnam>` returns it (`struct table_userinfo`):
the two members the source reads. -/
structure userinfo where
  username : List Char
  directory : List Char
  deriving DecidableEq, Repr

/-- Member `agent.mda` of an envelope. -/
structure delivery_mda where
  method : action_type
  user : userinfo
  buffer : List Char
  deriving DecidableEq, Repr

/-- Member `agent.mta` of an envelope; a relay host is kept as its text. -/
structure delivery_mta where
  relay : List Char
  deriving DecidableEq, Repr

/-- Type `struct envelope`: the members the source reads or writes. -/
structure envelope where
  id : Nat
  sender : mailaddr
  rcpt : mailaddr
  dest : mailaddr
  flags : Nat
  expire : Nat
  type : delivery_type
  mda : delivery_mda
  mta : delivery_mta
  deriving DecidableEq, Repr

/-! ## Format expander -/

/-- Constant `MAXTOKENLEN`. -/
def MAXTOKENLEN : Nat := 128

/-- Contents of `tmp` after `snprintf(tmp, size, "%s@%s", a, b)`. -/
def snprintf_addr (size : Nat) (a b : List Char) : List Char :=
  (a ++ '@' :: b).take (size - 1)

/-- The if-chain of `lka_expand_token` that maps the token name to the
string it stands for (lines 505-541); `none` is its final `return 0`. The
three `snprintf` results are at least 1, so their `<= 0` tests never fire. -/
def token_string (EXPAND_BUFFER : Nat) (ep : envelope) (rtoken : List Char) :
    Option (List Char) :=
  if strcasecmp_eq "sender".toList rtoken then
    some (snprintf_addr EXPAND_BUFFER ep.sender.user ep.sender.domain)
  else if strcasecmp_eq "dest".toList rtoken then
    some (snprintf_addr EXPAND_BUFFER ep.dest.user ep.dest.domain)
  else if strcasecmp_eq "rcpt".toList rtoken then
    some (snprintf_addr EXPAND_BUFFER ep.rcpt.user ep.rcpt.domain)
  else if strcasecmp_eq "sender.user".toList rtoken then some ep.sender.user
  else if strcasecmp_eq "sender.domain".toList rtoken then some ep.sender.domain
  else if strcasecmp_eq "user.username".toList rtoken then some ep.mda.user.username
  else if strcasecmp_eq "user.directory".toList rtoken then some ep.mda.user.directory
  else if strcasecmp_eq "dest.user".toList rtoken then some ep.dest.user
  else if strcasecmp_eq "dest.domain".toList rtoken then some ep.dest.domain
  else if strcasecmp_eq "rcpt.user".toList rtoken then some ep.rcpt.user
  else if strcasecmp_eq "rcpt.domain".toList rtoken then some ep.rcpt.domain
  else none

/-- The token names of `lka_expand_token`. -/
def token_names : List (List Char) :=
  ["sender".toList, "dest".toList, "rcpt".toList, "sender.user".toList,
   "sender.domain".toList, "user.username".toList, "user.directory".toList,
   "dest.user".toList, "dest.domain".toList, "rcpt.user".toList, "rcpt.domain".toList]

/-- The bracket parser of `lka_expand_token` (lines 471-503): the token name
left in `rtoken` and the offsets `begoff`, `endoff`; `none` is `return 0`. -/
def token_offsets (EXPAND_BUFFER : Nat) (rtoken : List Char) :
    Option (List Char × Int × Int) :=
  match strchr rtoken '[', strchr rtoken ']' with
  | some lbracket, some rbracket =>
    if rbracket < lbracket ∨ rbracket - lbracket ≤ 1 then none
    else
      let content := (rtoken.drop (lbracket + 1)).take (rbracket - lbracket - 1)
      let name := rtoken.take lbracket
      match strchr content ':' with
      | none =>
        let r := strtonum content (-EXPAND_BUFFER) EXPAND_BUFFER
        if r.2 ≠ none then none else some (name, r.1, r.1)
      | some sep =>
        let r1 : Int × Option String :=
          if sep ≠ 0 then strtonum (content.take sep) (-EXPAND_BUFFER) EXPAND_BUFFER
          else (0, none)
        let r2 : Int × Option String :=
          if content.drop (sep + 1) ≠ [] then
            if r1.2 = none then
              strtonum (content.drop (sep + 1)) (-EXPAND_BUFFER) EXPAND_BUFFER
            else (EXPAND_BUFFER, r1.2)
          else (EXPAND_BUFFER, r1.2)
        if r2.2 ≠ none then none else some (name, r1.1, r2.1)
  | _, _ => some (rtoken, 0, EXPAND_BUFFER)

/-- The offset arithmetic of `lka_expand_token` (lines 543-577) on the
string `string`, with `len` the size of the destination: the bytes copied
to `dest`; `none` is `return 0`. The value returned by the source is the
length of the copied bytes. -/
def token_substring (len : Nat) (string : List Char) (begoff endoff : Int) :
    Option (List Char) :=
  let i : Int := string.length
  if i = 0 then none
  else if begoff ≥ i then none
  else
    let endoff := if endoff ≥ i then i - 1 else endoff
    let begoff := if begoff < 0 then begoff + i else begoff
    let endoff := if endoff < 0 then endoff + (i - 1) else endoff
    if begoff < 0 ∨ endoff < 0 ∨ endoff < begoff then none
    else
      let endoff := endoff + 1
      let i := endoff - begoff
      if i.toNat + 1 ≥ len then none
      else some ((string.drop begoff.toNat).take i.toNat)

/-- Function `lka_expand_token(dest, len, token, ep)`: the bytes copied to
`dest`, whose number is the value returned; `none` is `return 0`. -/
def lka_expand_token (EXPAND_BUFFER : Nat) (len : Nat) (token : List Char)
    (ep : envelope) : Option (List Char) :=
  if token.length ≥ MAXTOKENLEN then none
  else
    match token_offsets EXPAND_BUFFER token with
    | none => none
    | some (rtoken, begoff, endoff) =>
      match token_string EXPAND_BUFFER ep rtoken with
      | none => none
      | some string => token_substring len string begoff endoff

/-- Function `lowercase(buf, s, len)` of `util.c`, on a string `s`:
`none` is its return 0, otherwise the lower-cased copy. -/
def lowercase (s : List Char) (len : Nat) : Option (List Char) :=
  if len = 0 then none
  else if s.length ≥ len then none
  else some (s.map tolower)

/-- `*(p)` for a pointer into a string: the NUL once the string is over. -/
def peek (p : List Char) : Char := p.headD NUL

/-- The body of the expansion loop of `lka_expand_format` (lines 615-649)
with `pbuf` at the character `c` followed by `rest`: the new `pbuf` and the
bytes written at `ptmp`, whose number is `tmpret`; `none` is a `return 0`.
`exptok` holds the `exptoklen` bytes that `lka_expand_token` copied; they
are taken to be followed by a NUL when `lowercase` reads them. The source
copies them to `tmpbuf` without testing that they fit; when they do not,
the write runs past `tmpbuf` (undefined behaviour, outside this model) and
the function returns 0 at the next test of `ret`. -/
def lka_expand_format_step (EXPAND_BUFFER : Nat) (ep : envelope) (c : Char)
    (rest : List Char) : Option (List Char × List Char) :=
  if c = '%' ∧ peek rest = '%' then some (rest.tail, [c])
  else if c ≠ '%' ∨ peek rest ≠ '{' then some (rest, [c])
  else if peek rest ≠ '{' then none
  else
    match strchr rest '}' with
    | none => none
    | some ebuf =>
      if ebuf ≥ MAXTOKENLEN then none
      else
        let token := (rest.take ebuf).drop 1
        match lka_expand_token EXPAND_BUFFER EXPAND_BUFFER token ep with
        | none => none
        | some exptok =>
          match lowercase exptok EXPAND_BUFFER with
          | none => none
          | some low => some (rest.drop (ebuf + 1), low)

/-- The expansion loop of `lka_expand_format` (lines 613-650), started with
`pbuf`, `ret` and the text written to `tmpbuf` so far. `none` is a
`return 0` inside the loop, otherwise the values of `ret` and `tmpbuf` when
the loop condition fails. Every iteration consumes at least one character
of `pbuf`, so a budget of `pbuf.length` iterations is never exhausted. -/
def lka_expand_format_loop (EXPAND_BUFFER : Nat) (ep : envelope) :
    Nat → List Char → Nat → List Char → Option (Nat × List Char)
  | fuel, pbuf, ret, tmpbuf =>
    match pbuf with
    | [] => some (ret, tmpbuf)
    | c :: rest =>
      if ¬ ret < EXPAND_BUFFER then some (ret, tmpbuf)
      else
        match fuel with
        | 0 => none
        | fuel + 1 =>
          match lka_expand_format_step EXPAND_BUFFER ep c rest with
          | none => none
          | some (pbuf, written) =>
            lka_expand_format_loop EXPAND_BUFFER ep fuel pbuf (ret + written.length)
              (tmpbuf ++ written)

/-- Function `lka_expand_format(buf, len, ep)`: the value returned and the
contents of `buf` afterwards. `none` is the `fatalx` of a destination
smaller than the scratch buffer. -/
def lka_expand_format (EXPAND_BUFFER : Nat) (buf : List Char) (len : Nat)
    (ep : envelope) : Option (Nat × List Char) :=
  if len < EXPAND_BUFFER then none
  else
    let home : Option (Nat × List Char × List Char) :=
      if buf.take 2 = ['~', '/'] then
        let tmpret := ep.mda.user.directory.length + 1
        if tmpret ≥ EXPAND_BUFFER then none
        else some (tmpret, (ep.mda.user.directory ++ ['/']).take (EXPAND_BUFFER - 1),
          buf.drop 2)
      else some (0, [], buf)
    match home with
    | none => some (0, buf)
    | some (ret, tmpbuf, pbuf) =>
      match lka_expand_format_loop EXPAND_BUFFER ep pbuf.length pbuf ret tmpbuf with
      | none => some (0, buf)
      | some (ret, tmpbuf) =>
        if ret ≥ EXPAND_BUFFER then some (0, buf)
        else if tmpbuf.length ≥ len then some (0, strlcpy buf tmpbuf len)
        else some (tmpbuf.length, strlcpy buf tmpbuf len)

/-! ## Rules, expansion nodes and sessions -/

/-- A table handle (`struct table *`). -/
abbrev table := Nat

/-- Type `struct rule`: the members the source reads. Member `r_value` is a
union of `buffer` and `relayhost`. -/
structure rule where
  r_decision : decision
  r_action : action_type
  r_condition_c_type : cond_type
  r_atable : Option table
  r_value_buffer : List Char
  r_value_relayhost : List Char
  r_as : Option mailaddr
  r_qexpire : Nat
  deriving DecidableEq, Repr

/-- Member `u` of `struct expandnode`, a union of a user name, a buffer and
a mail address. -/
structure expand_u where
  user : List Char
  buffer : List Char
  mailaddr : mailaddr
  deriving DecidableEq, Repr

/-- The members of `struct expandnode` other than the parent link; member
`alias` is `alias_` here. -/
structure xnode where
  type : expand_type
  sameuser : Nat
  alias_ : Nat
  rule : Option rule
  depth : Nat
  u : expand_u
  deriving DecidableEq, Repr

/-- Type `struct expandnode`: a node without parent (`parent == NULL`) or a
node with the node its `parent` points to. -/
inductive expandnode where
  | root (n : xnode)
  | child (n : xnode) (parent : expandnode)
  deriving DecidableEq, Repr

/-- The members of a node other than the parent link. -/
def expandnode.n : expandnode → xnode
  | .root n => n
  | .child n _ => n

/-- Member `parent` of a node. -/
def expandnode.parent : expandnode → Option expandnode
  | .root _ => none
  | .child _ p => some p

/-- Member `type` of a node. -/
def expandnode.type (xn : expandnode) : expand_type := xn.n.type

/-- Member `depth` of a node. -/
def expandnode.depth (xn : expandnode) : Nat := xn.n.depth

/-- Member `rule` of a node. -/
def expandnode.rule (xn : expandnode) : Option rule := xn.n.rule

/-- Member `u` of a node. -/
def expandnode.u (xn : expandnode) : expand_u := xn.n.u

/-- Type `struct expand`. Member `queue` points to the `nodes` of the
session, so the pending queue of the session is kept here; member `alias`
is `alias_` here. -/
structure expand where
  tree : List expandnode
  queue : List expandnode
  alias_ : Nat
  rule : Option rule
  parent : Option expandnode
  deriving DecidableEq, Repr

/-- Type `struct submit_status`. -/
structure submit_status where
  id : Nat
  code : Nat
  envelope : envelope
  deriving DecidableEq, Repr

/-- Type `struct forward_req` as the helper sends it back. -/
structure forward_req where
  id : Nat
  as_user : List Char
  status : Nat
  deriving DecidableEq, Repr

/-- Type `struct lka_session`. Its member `nodes` is `expand.queue`. -/
structure lka_session where
  id : Nat
  deliverylist : List envelope
  expand : expand
  flags : Nat
  ss : submit_status
  envelope : envelope
  rule : Option rule
  node : Option expandnode
  deriving DecidableEq, Repr

/-- Member `nodes` of a session. -/
def lka_session.nodes (lks : lka_session) : List expandnode := lks.expand.queue

/-- The processes a message is composed for. -/
inductive proc where
  | PROC_MFA
  | PROC_QUEUE
  | PROC_PARENT
  deriving DecidableEq, Repr

/-- A message handed to `imsg_compose_event`, with its payload. The
forward request carries the two members the source sets. -/
inductive imsg where
  | IMSG_LKA_RCPT (ss : submit_status)
  | IMSG_QUEUE_SUBMIT_ENVELOPE (ep : envelope)
  | IMSG_QUEUE_COMMIT_ENVELOPES (ep : envelope)
  | IMSG_PARENT_FORWARD_OPEN (id : Nat) (as_user : List Char)
  deriving DecidableEq, Repr

/-- One call of `imsg_compose_event`: the process and the message. -/
structure imsg_event where
  dest : proc
  msg : imsg
  deriving DecidableEq, Repr

/-- The ways a call can end the process or leave the model. -/
inductive Fault where
  | fatalx
  | null_deref
  | out_of_fuel
  deriving DecidableEq, Repr

/-- What surrounds `lka_session.c`: the constants of `smtpd.h` and of the
system headers, and the functions of the other files of smtpd. A function
that changes the expansion through its `struct expand *` argument returns
the new expansion. -/
structure env where
  EXPAND_BUFFER : Nat
  DF_INTERNAL : Nat
  EAGAIN : Nat
  SMTPD_USER : List Char
  sizeof_as_user : Nat
  sizeof_mda_username : Nat
  sizeof_mda_buffer : Nat
  sizeof_sender_user : Nat
  sizeof_sender_domain : Nat
  sizeof_node_user : Nat
  generate_uid : Nat
  ruleset_match : envelope → Option rule × Nat
  aliases_virtual_get : Option table → expand → mailaddr → Int × expand
  aliases_get : Option table → expand → List Char → Int × expand
  forwards_get : Int → expand → Int × expand
  table_findbyname : List Char → Option table
  table_lookup : Option table → List Char → Int × Option userinfo
  expand_insert : expand → xnode → expand

/-- Constant `EXPAND_DEPTH`. -/
def EXPAND_DEPTH : Nat := 10

/-- Flag `F_ERROR`. -/
def F_ERROR : Nat := 0x01

/-- Flag `F_WAITING`. -/
def F_WAITING : Nat := 0x02

/-- The bits of `~m` for a 32-bit `int`. -/
def bitnot (m : Nat) : Nat := 0xFFFFFFFF - m

/-- Reading through a pointer that may be NULL. -/
def deref {α : Type} : Option α → Except Fault α
  | none => .error Fault.null_deref
  | some a => .ok a

/-- Function `xlowercase(buf, s, len)` of `util.c`: `fatalx` when
`lowercase` fails. -/
def xlowercase (s : List Char) (len : Nat) : Except Fault (List Char) :=
  match lowercase s len with
  | none => .error Fault.fatalx
  | some r => .ok r

/-- Function `mailaddr_to_username(maddr, dst, len)`: the contents of
`dst`. -/
def mailaddr_to_username (maddr : mailaddr) (len : Nat) : Except Fault (List Char) :=
  match xlowercase maddr.user len with
  | .error f => .error f
  | .ok dst =>
    match strchr dst '+' with
    | some tag => .ok (dst.take tag)
    | none => .ok dst

/-- Function `mailaddr_tag(maddr)`: `none` is NULL. -/
def mailaddr_tag (maddr : mailaddr) : Option (List Char) :=
  match strchr maddr.user '+' with
  | some tag => some ((maddr.user.drop (tag + 1)).dropWhile (fun c => c = '.'))
  | none => none

/-- The loop of `lka_find_ancestor` on a node that is not NULL. -/
def find_ancestor : expandnode → expand_type → Option expandnode
  | .root n, type => if n.type ≠ type then none else some (.root n)
  | .child n p, type => if n.type ≠ type then find_ancestor p type else some (.child n p)

/-- Function `lka_find_ancestor(xn, type)`. -/
def lka_find_ancestor (xn : Option expandnode) (type : expand_type) :
    Except Fault expandnode :=
  match xn with
  | none => .error Fault.fatalx
  | some x =>
    match find_ancestor x type with
    | none => .error Fault.fatalx
    | some a => .ok a

/-- Setting `F_ERROR` and the reply code: the two assignments
`lks->flags |= F_ERROR` and `lks->ss.code = code`, in either order. -/
def set_error (lks : lka_session) (code : Nat) : lka_session :=
  { lks with flags := lks.flags ||| F_ERROR, ss := { lks.ss with code := code } }

/-- The body of `lka_submit(lks, rule, xn)` up to its last line: the
envelope `ep` it has built when it reaches `TAILQ_INSERT_TAIL`, or `none`
when it frees `ep` and returns after setting `F_ERROR` and code 451. -/
def lka_submit_envelope (e : env) (lks : lka_session) (rule : Option rule)
    (xn : Option expandnode) : Except Fault (Option envelope) :=
  match rule with
  | none => .error Fault.null_deref
  | some rule =>
    let ep : envelope := { lks.envelope with expire := rule.r_qexpire }
    match rule.r_action with
    | .A_RELAY | .A_RELAYVIA =>
      match xn with
      | none => .error Fault.null_deref
      | some xn =>
        if xn.type ≠ expand_type.EXPAND_ADDRESS then .error Fault.fatalx
        else
          let ep : envelope := { ep with
            type := delivery_type.D_MTA, dest := xn.u.mailaddr,
            mta := { relay := rule.r_value_relayhost } }
          let ep : envelope :=
            match rule.r_as with
            | some r_as =>
              if r_as.user ≠ [] then
                { ep with sender := { ep.sender with
                    user := strlcpy ep.sender.user r_as.user e.sizeof_sender_user } }
              else ep
            | none => ep
          let ep : envelope :=
            match rule.r_as with
            | some r_as =>
              if r_as.domain ≠ [] then
                { ep with sender := { ep.sender with
                    domain := strlcpy ep.sender.domain r_as.domain e.sizeof_sender_domain } }
              else ep
            | none => ep
          .ok (some ep)
    | .A_MBOX | .A_MAILDIR | .A_FILENAME | .A_MDA =>
      match lka_find_ancestor xn expand_type.EXPAND_ADDRESS, xn with
      | .error f, _ => .error f
      | .ok _, none => .error Fault.fatalx
      | .ok anc, some xn =>
        let ep : envelope := { ep with type := delivery_type.D_MDA, dest := anc.u.mailaddr }
        let username : Except Fault (List Char) :=
          if (xn.type = expand_type.EXPAND_FILTER ∨ xn.type = expand_type.EXPAND_FILENAME)
              ∧ xn.n.alias_ ≠ 0 then
            .ok (strlcpy ep.mda.user.username e.SMTPD_USER e.sizeof_mda_username)
          else
            match lka_find_ancestor (some xn) expand_type.EXPAND_USERNAME with
            | .error f => .error f
            | .ok xn2 => .ok (strlcpy ep.mda.user.username xn2.u.user e.sizeof_mda_username)
        match username with
        | .error f => .error f
        | .ok username =>
          let r := e.table_lookup (e.table_findbyname "<getpwnam>".toList) username
          if r.1 ≤ 0 then .ok none
          else
            match r.2 with
            | none => .error Fault.null_deref
            | some tu =>
              let ep : envelope := { ep with mda := { ep.mda with user := tu } }
              let filled : Except Fault envelope :=
                if xn.type = expand_type.EXPAND_FILENAME then
                  .ok { ep with mda := { ep.mda with
                    method := action_type.A_FILENAME,
                    buffer := strlcpy ep.mda.buffer xn.u.buffer e.sizeof_mda_buffer } }
                else if xn.type = expand_type.EXPAND_FILTER then
                  .ok { ep with mda := { ep.mda with
                    method := action_type.A_MDA,
                    buffer := strlcpy ep.mda.buffer xn.u.buffer e.sizeof_mda_buffer } }
                else if xn.type = expand_type.EXPAND_USERNAME then
                  let buffer := strlcpy ep.mda.buffer rule.r_value_buffer e.sizeof_mda_buffer
                  let buffer :=
                    match mailaddr_tag ep.dest with
                    | some tag =>
                      if rule.r_action = action_type.A_MAILDIR ∧ tag ≠ [] then
                        strlcat (strlcat buffer "/.".toList e.sizeof_mda_buffer) tag
                          e.sizeof_mda_buffer
                      else buffer
                    | none => buffer
                  .ok { ep with mda := { ep.mda with method := rule.r_action, buffer := buffer } }
                else .error Fault.fatalx
              match filled with
              | .error f => .error f
              | .ok ep =>
                match lka_expand_format e.EXPAND_BUFFER ep.mda.buffer e.sizeof_mda_buffer ep with
                | none => .error Fault.fatalx
                | some (ret, buffer) =>
                  if ret = 0 then .ok none
                  else .ok (some { ep with mda := { ep.mda with buffer := buffer } })
    | .A_OTHER => .error Fault.fatalx

/-- Function `lka_submit(lks, rule, xn)`: the session afterwards. -/
def lka_submit (e : env) (lks : lka_session) (rule : Option rule)
    (xn : Option expandnode) : Except Fault lka_session :=
  match lka_submit_envelope e lks rule xn with
  | .error f => .error f
  | .ok none => .ok (set_error lks 451)
  | .ok (some ep) => .ok { lks with deliverylist := lks.deliverylist ++ [ep] }

/-- The three assignments `lks->expand.rule = rule; lks->expand.parent = xn;
lks->expand.alias = a`. -/
def set_expand (lks : lka_session) (rule : Option rule) (xn : Option expandnode)
    (a : Nat) : lka_session :=
  { lks with expand := { lks.expand with rule := rule, parent := xn, alias_ := a } }

/-- Function `lka_expand(lks, rule, xn)`: the session afterwards and the
messages composed. In the address case the members of the local `node` that
the source leaves unset are zero. -/
def lka_expand (e : env) (lks : lka_session) (rule : Option rule) (xn : expandnode) :
    Except Fault (lka_session × List imsg_event) :=
  if xn.depth ≥ EXPAND_DEPTH then
    .ok (set_error lks 530, [])
  else
    match xn.type with
    | .EXPAND_OTHER | .EXPAND_INCLUDE => .error Fault.fatalx
    | .EXPAND_ADDRESS =>
      let ep : envelope := { lks.envelope with dest := xn.u.mailaddr }
      let ep : envelope :=
        if xn.parent ≠ none then { ep with flags := ep.flags ||| e.DF_INTERNAL } else ep
      let m := e.ruleset_match ep
      match m.1 with
      | none => .ok (set_error lks (if m.2 = e.EAGAIN then 451 else 530), [])
      | some rule =>
        if rule.r_decision = decision.R_REJECT then
          .ok (set_error lks (if m.2 = e.EAGAIN then 451 else 530), [])
        else if rule.r_action = action_type.A_RELAY ∨ rule.r_action = action_type.A_RELAYVIA then
          match lka_submit e lks (some rule) (some xn) with
          | .error f => .error f
          | .ok lks => .ok (lks, [])
        else if rule.r_condition_c_type = cond_type.COND_VDOM then
          let lks := set_expand lks (some rule) (some xn) 1
          let r := e.aliases_virtual_get rule.r_atable lks.expand xn.u.mailaddr
          let lks : lka_session := { lks with expand := r.2 }
          if r.1 = -1 then .ok (set_error lks 451, [])
          else if r.1 = 0 then .ok (set_error lks 530, [])
          else .ok (lks, [])
        else
          let lks := set_expand lks (some rule) (some xn) 1
          match mailaddr_to_username xn.u.mailaddr e.sizeof_node_user with
          | .error f => .error f
          | .ok user =>
            let node : xnode :=
              { type := expand_type.EXPAND_USERNAME, sameuser := 0, alias_ := 0, rule := none,
                depth := 0, u := { user := user, buffer := [], mailaddr := ⟨[], []⟩ } }
            .ok ({ lks with expand := e.expand_insert lks.expand node }, [])
    | .EXPAND_USERNAME =>
      if xn.n.sameuser ≠ 0 then
        match lka_submit e lks rule (some xn) with
        | .error f => .error f
        | .ok lks => .ok (lks, [])
      else
        let lks := set_expand lks rule (some xn) 1
        match rule with
        | none => .error Fault.null_deref
        | some r_ =>
          let looked : Int × lka_session :=
            if r_.r_atable ≠ none then
              let r := e.aliases_get r_.r_atable lks.expand xn.u.user
              let lks : lka_session := { lks with expand := r.2 }
              if r.1 = -1 then (r.1, set_error lks 451) else (r.1, lks)
            else (0, lks)
          let lks := looked.2
          if looked.1 ≠ 0 then .ok (lks, [])
          else if xn.u.user.length ≥ e.sizeof_as_user then .ok (set_error lks 530, [])
          else
            let r := e.table_lookup (e.table_findbyname "<getpwnam>".toList) xn.u.user
            if r.1 ≤ 0 then .ok (set_error lks 530, [])
            else
              let lks : lka_session := { lks with rule := rule, node := some xn }
              let as_user := strlcpy [] xn.u.user e.sizeof_as_user
              .ok ({ lks with flags := lks.flags ||| F_WAITING },
                [⟨proc.PROC_PARENT, imsg.IMSG_PARENT_FORWARD_OPEN lks.id as_user⟩])
    | .EXPAND_FILENAME =>
      match lka_submit e lks rule (some xn) with
      | .error f => .error f
      | .ok lks => .ok (lks, [])
    | .EXPAND_FILTER =>
      match lka_submit e lks rule (some xn) with
      | .error f => .error f
      | .ok lks => .ok (lks, [])

/-- What a call of `lka_resume` leaves: the messages it composed, in order,
and the session, which is `none` once the terminal step has removed it from
`sessions` and freed it. -/
structure resumed where
  lks : Option lka_session
  msgs : List imsg_event
  deriving DecidableEq, Repr

/-- The terminal step of `lka_resume`, from the label `error` to the end
(lines 169-194). -/
def lka_resume_end (lks : lka_session) : resumed :=
  if lks.flags &&& F_ERROR ≠ 0 then
    { lks := none, msgs := [⟨proc.PROC_MFA, imsg.IMSG_LKA_RCPT lks.ss⟩] }
  else
    { lks := none,
      msgs := lks.deliverylist.map (fun ep => ⟨proc.PROC_QUEUE, imsg.IMSG_QUEUE_SUBMIT_ENVELOPE ep⟩)
        ++ [⟨proc.PROC_QUEUE, imsg.IMSG_QUEUE_COMMIT_ENVELOPES lks.ss.envelope⟩] }

/-- How the loop of `lka_resume` is left: by the `return` taken when
`F_WAITING` is set, by `goto error`, or because the queue is empty. -/
inductive loop_exit where
  | returned
  | error
  | drained
  deriving DecidableEq, Repr

/-- The loop of `lka_resume` (lines 154-162), with a budget of `fuel`
iterations: how it is left, the session then, and the messages composed. -/
def lka_resume_while (e : env) :
    Nat → lka_session → Except Fault (loop_exit × lka_session × List imsg_event)
  | fuel, lks =>
    match lks.expand.queue with
    | [] => .ok (loop_exit.drained, lks, [])
    | xn :: rest =>
      match fuel with
      | 0 => .error Fault.out_of_fuel
      | fuel + 1 =>
        match lka_expand e { lks with expand := { lks.expand with queue := rest } } xn.rule xn with
        | .error f => .error f
        | .ok (lks, msgs) =>
          if lks.flags &&& F_WAITING ≠ 0 then .ok (loop_exit.returned, lks, msgs)
          else if lks.flags &&& F_ERROR ≠ 0 then .ok (loop_exit.error, lks, msgs)
          else
            match lka_resume_while e fuel lks with
            | .error f => .error f
            | .ok (x, lks, more) => .ok (x, lks, msgs ++ more)

/-- The test of the delivery list that follows the loop (lines 164-168). -/
def lka_resume_reject (lks : lka_session) : lka_session :=
  if lks.deliverylist = [] then { lks with flags := lks.flags ||| F_ERROR } else lks

/-- Function `lka_resume(lks)`, its loop run with a budget of `fuel`
iterations. -/
def lka_resume (e : env) (fuel : Nat) (lks : lka_session) : Except Fault resumed :=
  if lks.flags &&& F_ERROR ≠ 0 then .ok (lka_resume_end lks)
  else
    match lka_resume_while e fuel lks with
    | .error f => .error f
    | .ok (loop_exit.returned, lks, msgs) => .ok { lks := some lks, msgs := msgs }
    | .ok (loop_exit.error, lks, msgs) =>
      .ok { lks := none, msgs := msgs ++ (lka_resume_end lks).msgs }
    | .ok (loop_exit.drained, lks, msgs) =>
      .ok { lks := none, msgs := msgs ++ (lka_resume_end (lka_resume_reject lks)).msgs }

/-- Function `lka_session_forward_reply(fwreq, fd)` on the session that
`tree_xget` finds for `fwreq->id`. -/
def lka_session_forward_reply (e : env) (fuel : Nat) (lks : lka_session)
    (fwreq : forward_req) (fd : Int) : Except Fault resumed :=
  let xn := lks.node
  let rule := lks.rule
  let lks : lka_session := { lks with flags := lks.flags &&& bitnot F_WAITING }
  if fd = -1 ∧ fwreq.status ≠ 0 then
    match lka_submit e lks rule xn with
    | .error f => .error f
    | .ok lks => lka_resume e fuel lks
  else if fd = -1 then
    lka_resume e fuel (set_error lks 530)
  else
    let lks : lka_session :=
      { lks with expand := { lks.expand with rule := rule, parent := xn, alias_ := 0 } }
    let r := e.forwards_get fd lks.expand
    let lks : lka_session := { lks with expand := r.2 }
    if r.1 = 0 then lka_resume e fuel (set_error lks 530)
    else lka_resume e fuel lks

/-- The session that `lka_session(ss)` has built when it calls
`lka_resume` (lines 85-101). -/
def lka_session_init (e : env) (ss : submit_status) : lka_session :=
  let xn : xnode :=
    { type := expand_type.EXPAND_ADDRESS, sameuser := 0, alias_ := 0, rule := none, depth := 0,
      u := { user := [], buffer := [], mailaddr := ss.envelope.dest } }
  let ex : expand := { tree := [], queue := [], alias_ := 0, rule := none, parent := none }
  let lks : lka_session :=
    { id := e.generate_uid, deliverylist := [], expand := ex, flags := 0,
      ss := { ss with code := 250 }, envelope := ss.envelope, rule := none, node := none }
  { lks with expand := e.expand_insert lks.expand xn }

/-- Function `lka_session(ss)`. -/
def lka_session_start (e : env) (fuel : Nat) (ss : submit_status) : Except Fault resumed :=
  lka_resume e fuel (lka_session_init e ss)

/-! ## An example environment -/

/-- Shorthand for the characters of a string literal. -/
def cs (s : String) : List Char := s.toList

/-- An insert for the example environment: insert-if-absent on the type and
the payload, the new node taking its rule, parent and alias flag from the
expansion and its depth from the parent, and joining the pending queue. -/
def ex_expand_insert (ex : expand) (node : xnode) : expand :=
  if ex.tree.any (fun x => decide (x.type = node.type ∧ x.u = node.u)) then ex
  else
    let n : xnode :=
      { node with rule := ex.rule, alias_ := ex.alias_,
                  depth := match ex.parent with
                    | none => 0
                    | some p => p.depth + 1 }
    let xn : expandnode :=
      match ex.parent with
      | none => expandnode.root n
      | some p => expandnode.child n p
    { ex with tree := ex.tree ++ [xn], queue := ex.queue ++ [xn] }

/-- Example rule: deliver to the maildir `~/Maildir`. -/
def ex_rule_maildir : rule :=
  { r_decision := decision.R_OTHER, r_action := action_type.A_MAILDIR,
    r_condition_c_type := cond_type.COND_OTHER, r_atable := none,
    r_value_buffer := cs "~/Maildir", r_value_relayhost := [], r_as := none,
    r_qexpire := 3600 }

/-- Example rule: relay through `mx.example.net`. -/
def ex_rule_relay : rule :=
  { r_decision := decision.R_OTHER, r_action := action_type.A_RELAYVIA,
    r_condition_c_type := cond_type.COND_OTHER, r_atable := none,
    r_value_buffer := [], r_value_relayhost := cs "mx.example.net", r_as := none,
    r_qexpire := 3600 }

/-- Example rule: a virtual domain resolved through alias table 7. -/
def ex_rule_virtual : rule :=
  { r_decision := decision.R_OTHER, r_action := action_type.A_MAILDIR,
    r_condition_c_type := cond_type.COND_VDOM, r_atable := some 7,
    r_value_buffer := cs "~/Maildir", r_value_relayhost := [], r_as := none,
    r_qexpire := 3600 }

/-- The node an alias lookup hands to `expand_insert` for an address. -/
def ex_address_node (user domain : List Char) : xnode :=
  { type := expand_type.EXPAND_ADDRESS, sameuser := 0, alias_ := 0, rule := none, depth := 0,
    u := { user := [], buffer := [], mailaddr := ⟨user, domain⟩ } }

/-- An example environment. The ruleset relays `relay.example`, resolves
`virt.example` through a virtual alias table that maps `loop@virt.example`
to itself and `list@virt.example` to two remote addresses, and delivers
`example.com` to maildirs; `<getpwnam>` knows `bob`; no user has aliases
and forward files hold nothing. -/
def ex_env : env :=
  { EXPAND_BUFFER := 1024
    DF_INTERNAL := 0x01
    EAGAIN := 35
    SMTPD_USER := cs "_smtpd"
    sizeof_as_user := 32
    sizeof_mda_username := 32
    sizeof_mda_buffer := 1024
    sizeof_sender_user := 128
    sizeof_sender_domain := 256
    sizeof_node_user := 128
    generate_uid := 1
    ruleset_match := fun ep =>
      if ep.dest.domain = cs "relay.example" then (some ex_rule_relay, 0)
      else if ep.dest.domain = cs "virt.example" then (some ex_rule_virtual, 0)
      else if ep.dest.domain = cs "example.com" then (some ex_rule_maildir, 0)
      else (none, 0)
    aliases_virtual_get := fun _ ex maddr =>
      if maddr = ⟨cs "loop", cs "virt.example"⟩ then
        (1, ex_expand_insert ex (ex_address_node (cs "loop") (cs "virt.example")))
      else if maddr = ⟨cs "list", cs "virt.example"⟩ then
        (2, ex_expand_insert
              (ex_expand_insert ex (ex_address_node (cs "ann") (cs "relay.example")))
              (ex_address_node (cs "joe") (cs "relay.example")))
      else (0, ex)
    aliases_get := fun _ ex _ => (0, ex)
    forwards_get := fun _ ex => (0, ex)
    table_findbyname := fun _ => some 0
    table_lookup := fun _ key =>
      if key = cs "bob" then (1, some ⟨cs "bob", cs "/home/bob"⟩) else (0, none)
    expand_insert := ex_expand_insert }

/-- An example envelope as the SMTP front-end hands it in. -/
def ex_envelope (user domain : String) : envelope :=
  { id := 42, sender := ⟨cs "gilles", cs "openbsd.org"⟩, rcpt := ⟨cs user, cs domain⟩,
    dest := ⟨cs user, cs domain⟩, flags := 0, expire := 0, type := delivery_type.D_OTHER,
    mda := ⟨action_type.A_OTHER, ⟨[], []⟩, []⟩, mta := ⟨[]⟩ }

/-- An example submit status for a recipient. -/
def ex_ss (user domain : String) : submit_status :=
  { id := 42, code := 0, envelope := ex_envelope user domain }


/-- The envelope the example environment queues for a member of the list
`list@virt.example`. -/
def ex_relayed (user : String) : envelope :=
  { ex_envelope "list" "virt.example" with
    dest := ⟨cs user, cs "relay.example"⟩, expire := 3600, type := delivery_type.D_MTA,
    mta := ⟨cs "mx.example.net"⟩ }

/-- What the session for `list@virt.example` leaves in the example
environment: two envelopes, then the commit. -/
def ex_list_resumed : resumed :=
  { lks := none,
    msgs := [⟨proc.PROC_QUEUE, imsg.IMSG_QUEUE_SUBMIT_ENVELOPE (ex_relayed "ann")⟩,
             ⟨proc.PROC_QUEUE, imsg.IMSG_QUEUE_SUBMIT_ENVELOPE (ex_relayed "joe")⟩,
             ⟨proc.PROC_QUEUE, imsg.IMSG_QUEUE_COMMIT_ENVELOPES (ex_envelope "list" "virt.example")⟩] }

/-- A node of depth 10 as an alias chain of that length leaves it in the
queue. -/
def ex_deep_node : expandnode :=
  expandnode.root
    { type := expand_type.EXPAND_USERNAME, sameuser := 0, alias_ := 1,
      rule := some ex_rule_maildir, depth := 10,
      u := { user := cs "bob", buffer := [], mailaddr := ⟨[], []⟩ } }

/-- A running session of the example environment that has already appended
an envelope and now finds a node of depth 10 at the head of its queue. -/
def ex_deep_session : lka_session :=
  { id := 1, deliverylist := [ex_relayed "ann"],
    expand := { tree := [], queue := [ex_deep_node], alias_ := 1,
                rule := some ex_rule_maildir, parent := none },
    flags := 0, ss := { ex_ss "list" "virt.example" with code := 250 },
    envelope := ex_envelope "list" "virt.example", rule := none, node := none }

/-- The session of the example environment for `bob+work@example.com` once
it waits for the forward file of `bob`. -/
def ex_waiting_session : lka_session :=
  match lka_session_start ex_env 10 (ex_ss "bob+work" "example.com") with
  | .ok { lks := some lks, msgs := _ } => lks
  | _ => lka_session_init ex_env (ex_ss "bob+work" "example.com")
/-! ## The slice of a token, as the specification words it -/

/-- The text of a slice: none, `[N]`, or `[B:E]` where `B` or `E` may be
empty. -/
inductive slice where
  | absent
  | index (n : List Char)
  | range (b e : List Char)
  deriving DecidableEq, Repr

/-- The characters of a slice. -/
def slice.render : slice → List Char
  | .absent => []
  | .index n => '[' :: n ++ [']']
  | .range b e => '[' :: b ++ ':' :: e ++ [']']

/-- An integer of a slice as `strtonum` reads it, `none` when it rejects
the text. -/
def slice_int (EXPAND_BUFFER : Nat) (s : List Char) : Option Int :=
  match strtonum s (-EXPAND_BUFFER) EXPAND_BUFFER with
  | (n, none) => some n
  | (_, some _) => none

/-- The slice integers `begin` and `end`: both `N` for a single index `N`,
and 0 and `EXPAND_BUFFER` for a bound that is absent. -/
def slice.offsets (EXPAND_BUFFER : Nat) : slice → Option (Int × Int)
  | .absent => some (0, EXPAND_BUFFER)
  | .index n => (slice_int EXPAND_BUFFER n).map (fun N => (N, N))
  | .range b e =>
    match (if b = [] then some 0 else slice_int EXPAND_BUFFER b),
          (if e = [] then some (EXPAND_BUFFER : Int) else slice_int EXPAND_BUFFER e) with
    | some B, some E => some (B, E)
    | _, _ => none

/-- The slice rules 1-6 of the specification on a value of length `L`:
the final `begin` and `end`, or `none` when the expansion fails. -/
def spec_slice (L begin_ end_ : Int) : Option (Int × Int) :=
  if L = 0 then none
  else if begin_ ≥ L then none
  else
    let end_ := if end_ ≥ L then L - 1 else end_
    let begin_ := if begin_ < 0 then begin_ + L else begin_
    let end_ := if end_ < 0 then end_ + (L - 1) else end_
    if begin_ < 0 ∨ end_ < 0 ∨ end_ < begin_ then none
    else some (begin_, end_)

/-- The characters `v[B .. E]` of a string, both ends included. -/
def substring (v : List Char) (B E : Int) : List Char :=
  (v.drop B.toNat).take (E - B + 1).toNat

/-- An example envelope on its way to the MDA of `alice`. -/
def ex_alice : envelope :=
  { ex_envelope "alice" "example.com" with
    type := delivery_type.D_MDA,
    mda := ⟨action_type.A_MDA, ⟨cs "alice", cs "/home/alice"⟩, []⟩ }

/-- A slice whose first integer is written with 120 leading zeros:
`[00...01:3]`. -/
def ex_long_slice : slice :=
  slice.range (List.replicate 120 '0' ++ cs "1") (cs "3")

/-- An example envelope whose MDA home directory is 1023 characters long. -/
def ex_long_home : envelope :=
  { ex_alice with mda := ⟨action_type.A_MDA, ⟨cs "alice", List.replicate 1023 'a'⟩, []⟩ }

/-- Property P5 of the specification, as worded: the text emitted for the
slice `[b:e]` of the value `v`, or `none` when the expansion fails. -/
def spec_P5 (v : List Char) (b e : Int) : Option (List Char) :=
  let L : Int := v.length
  let B : Int := max 0 (if b < 0 then b + L else b)
  let E : Int := min (L - 1) (if e < 0 then e + L - 1 else e)
  if 0 ≤ B ∧ B ≤ E ∧ E ≤ L - 1 then some (substring (v.map tolower) B E) else none

/-! ## Templates without slices, as property P4 describes them -/

/-- The table of token names of the specification (section 4.2): what a
name yields in an envelope, the name compared without regard to case. -/
def spec_token_value (ep : envelope) (name : List Char) : Option (List Char) :=
  if strcasecmp_eq "sender".toList name then some (ep.sender.user ++ '@' :: ep.sender.domain)
  else if strcasecmp_eq "dest".toList name then some (ep.dest.user ++ '@' :: ep.dest.domain)
  else if strcasecmp_eq "rcpt".toList name then some (ep.rcpt.user ++ '@' :: ep.rcpt.domain)
  else if strcasecmp_eq "sender.user".toList name then some ep.sender.user
  else if strcasecmp_eq "sender.domain".toList name then some ep.sender.domain
  else if strcasecmp_eq "user.username".toList name then some ep.mda.user.username
  else if strcasecmp_eq "user.directory".toList name then some ep.mda.user.directory
  else if strcasecmp_eq "dest.user".toList name then some ep.dest.user
  else if strcasecmp_eq "dest.domain".toList name then some ep.dest.domain
  else if strcasecmp_eq "rcpt.user".toList name then some ep.rcpt.user
  else if strcasecmp_eq "rcpt.domain".toList name then some ep.rcpt.domain
  else none

/-- A piece of a template: a literal character, the pair `%%`, or a token
`%{NAME}` without slice. -/
inductive item where
  | lit (c : Char)
  | percent
  | token (name : List Char)
  deriving DecidableEq, Repr

/-- The characters of a piece. -/
def item.render : item → List Char
  | .lit c => [c]
  | .percent => ['%', '%']
  | .token name => '%' :: '{' :: (name ++ ['}'])

/-- The template made of the pieces, left to right. -/
def render_items : List item → List Char
  | [] => []
  | i :: rest => i.render ++ render_items rest

/-- A piece is well formed when its literal is not `%` and its name is in
the table. -/
def item.wf (ep : envelope) : item → Prop
  | .lit c => c ≠ '%'
  | .percent => True
  | .token name => spec_token_value ep name ≠ none

/-- What a piece stands for: the literal itself, one `%`, or the whole
value of the name in lower case. -/
def item.expected (ep : envelope) : item → List Char
  | .lit c => [c]
  | .percent => ['%']
  | .token name => ((spec_token_value ep name).getD []).map tolower

/-- What the pieces stand for, left to right. -/
def expected_items (ep : envelope) : List item → List Char
  | [] => []
  | i :: rest => i.expected ep ++ expected_items ep rest

/-- Well-formedness of a piece can be decided. -/
instance item.wf_decidable (ep : envelope) (i : item) : Decidable (i.wf ep) := by
  cases i <;> simp only [item.wf] <;> infer_instance

/-- The literal pieces of a text. -/
def lits (s : String) : List item := s.toList.map item.lit


/-! ## The local branch of `lka_submit`, piece by piece -/

/-- The nodes on the parent chain of a node, the node itself first. -/
def expandnode.chain : expandnode → List expandnode
  | .root n => [.root n]
  | .child n p => .child n p :: p.chain

/-- The name that the local branch of `lka_submit` looks up in
`<getpwnam>` (lines 390-400): `SMTPD_USER` for a Filename or Filter node
with the alias flag, otherwise the user of the nearest Username node, in
both cases as `strlcpy` leaves it in the username buffer; `none` when no
Username node is found. -/
def submit_username (e : env) (lks : lka_session) (xn : expandnode) : Option (List Char) :=
  if (xn.type = expand_type.EXPAND_FILTER ∨ xn.type = expand_type.EXPAND_FILENAME)
      ∧ xn.n.alias_ ≠ 0 then
    some (strlcpy lks.envelope.mda.user.username e.SMTPD_USER e.sizeof_mda_username)
  else
    (find_ancestor xn expand_type.EXPAND_USERNAME).map
      (fun xn2 => strlcpy lks.envelope.mda.user.username xn2.u.user e.sizeof_mda_username)

/-- The envelope that the local branch of `lka_submit` has built when it
calls `lka_expand_format` (lines 365-438), for the Address node `anc` it
found and the user information `tu` it was given; `none` when the node is
not a Filename, Filter or Username node. -/
def submit_filled (e : env) (lks : lka_session) (r : rule) (xn anc : expandnode)
    (tu : userinfo) : Option envelope :=
  let ep : envelope :=
    { lks.envelope with
      expire := r.r_qexpire, type := delivery_type.D_MDA, dest := anc.u.mailaddr,
      mda := { lks.envelope.mda with user := tu } }
  if xn.type = expand_type.EXPAND_FILENAME then
    some { ep with mda := { ep.mda with
      method := action_type.A_FILENAME,
      buffer := strlcpy ep.mda.buffer xn.u.buffer e.sizeof_mda_buffer } }
  else if xn.type = expand_type.EXPAND_FILTER then
    some { ep with mda := { ep.mda with
      method := action_type.A_MDA,
      buffer := strlcpy ep.mda.buffer xn.u.buffer e.sizeof_mda_buffer } }
  else if xn.type = expand_type.EXPAND_USERNAME then
    let buffer := strlcpy ep.mda.buffer r.r_value_buffer e.sizeof_mda_buffer
    let buffer :=
      match mailaddr_tag ep.dest with
      | some tag =>
        if r.r_action = action_type.A_MAILDIR ∧ tag ≠ [] then
          strlcat (strlcat buffer "/.".toList e.sizeof_mda_buffer) tag e.sizeof_mda_buffer
        else buffer
      | none => buffer
    some { ep with mda := { ep.mda with method := r.r_action, buffer := buffer } }
  else none

/-- The local actions of a rule. -/
def local_action (a : action_type) : Prop :=
  a = action_type.A_MBOX ∨ a = action_type.A_MAILDIR ∨ a = action_type.A_FILENAME ∨
    a = action_type.A_MDA

/-- Example rule: relay through `mx.example.net` as `noreply`, the domain
of the sender left alone. -/
def ex_rule_relay_as : rule :=
  { ex_rule_relay with r_as := some ⟨cs "noreply", []⟩ }

/-- An Address node for `ann@relay.example` at the root of a tree. -/
def ex_ann_node : expandnode :=
  expandnode.root (ex_address_node (cs "ann") (cs "relay.example"))

/-- The nearest node of a type on the parent chain of a node, the chain
starting at the node itself. -/
def nearest (xn : expandnode) (t : expand_type) : Option expandnode :=
  xn.chain.find? (fun n => decide (n.type = t))

/-- The name under which a local delivery is made: `SMTPD_USER` for a
Filename or Filter node with the alias flag, otherwise the user of the
nearest Username node. -/
def delivery_name (e : env) (xn : expandnode) : Option (List Char) :=
  if (xn.type = expand_type.EXPAND_FILTER ∨ xn.type = expand_type.EXPAND_FILENAME)
      ∧ xn.n.alias_ ≠ 0 then some e.SMTPD_USER
  else (nearest xn expand_type.EXPAND_USERNAME).map (fun n => n.u.user)

/-- The Address node of `bob+work@example.com` at the root of the tree of
the example session. -/
def ex_bob_address : expandnode :=
  expandnode.root (ex_address_node (cs "bob+work") (cs "example.com"))

/-- The Username node `bob` that the example session derives from
`bob+work@example.com`. -/
def ex_bob_node : expandnode :=
  expandnode.child
    { type := expand_type.EXPAND_USERNAME, sameuser := 0, alias_ := 1,
      rule := some ex_rule_maildir, depth := 1,
      u := { user := cs "bob", buffer := [], mailaddr := ⟨[], []⟩ } }
    ex_bob_address

/-- The envelope that the example session queues for `bob+work@example.com`. -/
def ex_bob_delivery : envelope :=
  { ex_envelope "bob+work" "example.com" with
    expire := 3600, type := delivery_type.D_MDA,
    mda := { method := action_type.A_MAILDIR, user := ⟨cs "bob", cs "/home/bob"⟩,
             buffer := cs "/home/bob/Maildir/.work" } }

/-- The example environment with a `<getpwnam>` table that knows one user,
whose name is 31 letters `a`. -/
def ex_env_long : env :=
  { ex_env with
    table_lookup := fun _ key =>
      if key = List.replicate 31 'a' then (1, some ⟨key, cs "/home/a"⟩) else (0, none) }

/-- A recipient whose local part is 40 letters `a`. -/
def ex_long_rcpt : mailaddr := ⟨List.replicate 40 'a', cs "example.com"⟩

/-- The session of `ex_env_long` for the recipient `ex_long_rcpt`. -/
def ex_long_session : lka_session :=
  lka_session_init ex_env_long
    { id := 42, code := 0,
      envelope := { ex_envelope "" "example.com" with rcpt := ex_long_rcpt, dest := ex_long_rcpt } }

/-- A Username node with the same-user flag for the local part of
`ex_long_rcpt`, under the Address node of that recipient. -/
def ex_long_node : expandnode :=
  expandnode.child
    { type := expand_type.EXPAND_USERNAME, sameuser := 1, alias_ := 0,
      rule := some ex_rule_maildir, depth := 1,
      u := { user := List.replicate 40 'a', buffer := [], mailaddr := ⟨[], []⟩ } }
    (expandnode.root (ex_address_node ex_long_rcpt.user ex_long_rcpt.domain))

/-- The same Username node with the same-user flag clear, as `lka_expand`
meets it before it asks for a forward file. -/
def ex_long_fresh : expandnode :=
  expandnode.child { ex_long_node.n with sameuser := 0 }
    (expandnode.root (ex_address_node ex_long_rcpt.user ex_long_rcpt.domain))

/-! ## The control flow of a session, step by step -/

/-- The places of `lka_session.c` at which a session is observed: `entry`
is the call of `lka_resume` (line 100, line 142), `loop` the test of its
loop (line 154), `expanded` the return of `lka_expand` in the loop (line
157), `waiting` the session left in `sessions` by the `return` of line
159, and `terminal` the label `error` (line 169), after which the session
is torn down. -/
inductive point where
  | entry
  | loop
  | expanded
  | waiting
  | terminal
  deriving DecidableEq, Repr

/-- The session with which `lka_session_forward_reply(fwreq, fd)` calls
`lka_resume` (lines 112-141). -/
def forward_reply_session (e : env) (lks : lka_session) (fwreq : forward_req) (fd : Int) :
    Except Fault lka_session :=
  let xn := lks.node
  let rule := lks.rule
  let lks : lka_session := { lks with flags := lks.flags &&& bitnot F_WAITING }
  if fd = -1 ∧ fwreq.status ≠ 0 then lka_submit e lks rule xn
  else if fd = -1 then .ok (set_error lks 530)
  else
    let lks : lka_session :=
      { lks with expand := { lks.expand with rule := rule, parent := xn, alias_ := 0 } }
    let r := e.forwards_get fd lks.expand
    let lks : lka_session := { lks with expand := r.2 }
    if r.1 = 0 then .ok (set_error lks 530) else .ok lks

/-- One step of a session from a point to the next: the next point, the
session there, and the messages composed on the way. From `entry` it is the
test of line 151, from `loop` the pop of a node and the call of
`lka_expand` or, the queue empty, the test of the delivery list, from
`expanded` the tests of lines 158-161, from `waiting` the arrival of the
reply `(fwreq, fd)` up to the call of `lka_resume`. At `terminal` there is
no next point. -/
def step (e : env) (fwreq : forward_req) (fd : Int) :
    point → lka_session → Except Fault (Option (point × lka_session × List imsg_event))
  | .entry, lks =>
    if lks.flags &&& F_ERROR ≠ 0 then .ok (some (point.terminal, lks, []))
    else .ok (some (point.loop, lks, []))
  | .loop, lks =>
    match lks.expand.queue with
    | [] => .ok (some (point.terminal, lka_resume_reject lks, []))
    | xn :: rest =>
      match lka_expand e { lks with expand := { lks.expand with queue := rest } } xn.rule xn with
      | .error f => .error f
      | .ok (lks, msgs) => .ok (some (point.expanded, lks, msgs))
  | .expanded, lks =>
    if lks.flags &&& F_WAITING ≠ 0 then .ok (some (point.waiting, lks, []))
    else if lks.flags &&& F_ERROR ≠ 0 then .ok (some (point.terminal, lks, []))
    else .ok (some (point.loop, lks, []))
  | .waiting, lks =>
    match forward_reply_session e lks fwreq fd with
    | .error f => .error f
    | .ok lks => .ok (some (point.entry, lks, []))
  | .terminal, _ => .ok none

/-- The states of a session that are reached from a call of `lka_session`
by steps. -/
inductive reach (e : env) : point → lka_session → Prop where
  | init (ss : submit_status) : reach e point.entry (lka_session_init e ss)
  | next (fwreq : forward_req) (fd : Int) (p : point) (lks : lka_session) (p' : point)
      (lks' : lka_session) (msgs : List imsg_event) :
      reach e p lks → step e fwreq fd p lks = .ok (some (p', lks', msgs)) → reach e p' lks'

/-- The point at which the loop of `lka_resume` is left. -/
def loop_exit.point : loop_exit → point
  | .returned => point.waiting
  | .error => point.terminal
  | .drained => point.loop

/-- The Address node of `bob+.work@example.com` at the root of a tree. -/
def ex_dot_address : expandnode :=
  expandnode.root (ex_address_node (cs "bob+.work") (cs "example.com"))

/-- The Username node `bob` derived from `bob+.work@example.com`. -/
def ex_dot_node : expandnode :=
  expandnode.child
    { type := expand_type.EXPAND_USERNAME, sameuser := 0, alias_ := 1,
      rule := some ex_rule_maildir, depth := 1,
      u := { user := cs "bob", buffer := [], mailaddr := ⟨[], []⟩ } }
    ex_dot_address

/-- The session of the example environment for `bob+.work@example.com`. -/
def ex_dot_session : lka_session :=
  lka_session_init ex_env (ex_ss "bob+.work" "example.com")

/-! ## Flag arithmetic -/

theorem or_error_and_error (f : Nat) : (f ||| F_ERROR) &&& F_ERROR ≠ 0 := by
  intro h
  have := congrArg (fun x => Nat.testBit x 0) h
  simp [F_ERROR] at this

theorem or_waiting_and_waiting (f : Nat) : (f ||| F_WAITING) &&& F_WAITING ≠ 0 := by
  intro h
  have := congrArg (fun x => Nat.testBit x 1) h
  have h2 : Nat.testBit 2 1 = true := by decide
  simp [F_WAITING, h2] at this

theorem or_error_and_waiting (f : Nat) : (f ||| F_ERROR) &&& F_WAITING = f &&& F_WAITING := by
  rw [Nat.and_comm, Nat.and_or_distrib_left]
  simp [F_ERROR, F_WAITING, Nat.and_comm]

theorem or_waiting_and_error (f : Nat) : (f ||| F_WAITING) &&& F_ERROR = f &&& F_ERROR := by
  rw [Nat.and_comm, Nat.and_or_distrib_left]
  simp [F_ERROR, F_WAITING, Nat.and_comm]

theorem clear_waiting_and_waiting (f : Nat) : (f &&& bitnot F_WAITING) &&& F_WAITING = 0 := by
  rw [Nat.and_assoc]
  have : bitnot F_WAITING &&& F_WAITING = 0 := by decide
  rw [this]; simp

theorem clear_waiting_and_error (f : Nat) :
    (f &&& bitnot F_WAITING) &&& F_ERROR = f &&& F_ERROR := by
  rw [Nat.and_assoc]
  have : bitnot F_WAITING &&& F_ERROR = F_ERROR := by decide
  rw [this]

/-! ## Frame of `lka_submit` and `lka_expand` -/

/-- A call of `lka_submit` that returns either sets the error with code 451
and changes nothing else, or appends one envelope at the tail of the
delivery list and changes nothing else. -/
theorem lka_submit_cases (e : env) (lks lks' : lka_session) (rule : Option rule)
    (xn : Option expandnode) (h : lka_submit e lks rule xn = .ok lks') :
    lks' = set_error lks 451 ∨
      ∃ ep, lks' = { lks with deliverylist := lks.deliverylist ++ [ep] } := by
  unfold lka_submit at h
  split at h
  · exact absurd h (by simp)
  · left; exact (Except.ok.inj h).symm
  · right; exact ⟨_, (Except.ok.inj h).symm⟩

/-- A call of `lka_expand` that returns leaves the template envelope, the
submit status apart from its code, and the session id as they were, and
only appends to the delivery list. -/
theorem lka_expand_frame (e : env) (lks lks' : lka_session) (rule : Option rule)
    (xn : expandnode) (msgs : List imsg_event)
    (h : lka_expand e lks rule xn = .ok (lks', msgs)) :
    lks'.ss.envelope = lks.ss.envelope ∧ lks'.ss.id = lks.ss.id ∧
      lks'.envelope = lks.envelope ∧ lks'.id = lks.id ∧
      (lks'.deliverylist = lks.deliverylist ∨
        ∃ ep, lks'.deliverylist = lks.deliverylist ++ [ep]) := by
  unfold lka_expand at h
  dsimp only at h
  repeat' split at h
  all_goals (cases h)
  all_goals (try (simp [set_error, set_expand]))
  all_goals
    (rename_i hs
     rcases lka_submit_cases _ _ _ _ _ hs with hc | ⟨ep, hc⟩ <;> subst hc <;>
       simp [set_error, set_expand])

/-- A call of `lka_expand` composes a message only when it sets
`F_WAITING`: the forward-open request. -/
theorem lka_expand_msgs (e : env) (lks lks' : lka_session) (rule : Option rule)
    (xn : expandnode) (msgs : List imsg_event)
    (h : lka_expand e lks rule xn = .ok (lks', msgs)) :
    msgs = [] ∨ (lks'.flags &&& F_WAITING ≠ 0 ∧
      msgs = [⟨proc.PROC_PARENT, imsg.IMSG_PARENT_FORWARD_OPEN lks.id
        (strlcpy [] xn.u.user e.sizeof_as_user)⟩]) := by
  unfold lka_expand at h
  dsimp only at h
  repeat' split at h
  all_goals (cases h)
  all_goals first
    | (left; rfl)
    | (right
       refine ⟨or_waiting_and_waiting _, ?_⟩
       simp [set_error, set_expand])

/-- What the loop of `lka_resume` guarantees when it is left. -/
theorem lka_resume_while_spec (e : env) :
    ∀ (fuel : Nat) (lks lks' : lka_session) (x : loop_exit) (m : List imsg_event),
      lka_resume_while e fuel lks = .ok (x, lks', m) →
      lks'.ss.envelope = lks.ss.envelope ∧
      (∃ appended, lks'.deliverylist = lks.deliverylist ++ appended) ∧
      (x ≠ loop_exit.returned → m = []) ∧
      (x = loop_exit.returned → lks'.flags &&& F_WAITING ≠ 0) ∧
      (x = loop_exit.error → lks'.flags &&& F_ERROR ≠ 0) ∧
      (x = loop_exit.drained → lks'.expand.queue = []) ∧
      (x = loop_exit.drained → lks.flags &&& F_ERROR = 0 → lks'.flags &&& F_ERROR = 0) := by
  intro fuel
  induction fuel with
  | zero =>
    intro lks lks' x m h
    unfold lka_resume_while at h
    split at h
    · cases h
      rename_i hq
      simp [hq]
    · simp at h
  | succ fuel ih =>
    intro lks lks' x m h
    unfold lka_resume_while at h
    split at h
    · cases h
      rename_i hq
      simp [hq]
    · rename_i xn rest hq
      dsimp only at h
      split at h
      · cases h
      · rename_i lks1 msgs hexp
        obtain ⟨f1, -, -, -, f5⟩ := lka_expand_frame _ _ _ _ _ _ hexp
        have hm := lka_expand_msgs _ _ _ _ _ _ hexp
        have hd : ∃ l, lks1.deliverylist = lks.deliverylist ++ l := by
          rcases f5 with f5 | ⟨ep, f5⟩
          · exact ⟨[], by simpa using f5⟩
          · exact ⟨[ep], by simpa using f5⟩
        simp only at f1
        split at h
        · cases h
          rename_i hw
          exact ⟨f1, hd, by simp, fun _ => hw, by simp, by simp, by simp⟩
        · rename_i hw
          have hm0 : msgs = [] := by
            rcases hm with hm | ⟨hm, -⟩
            · exact hm
            · exact absurd hm hw
          split at h
          · cases h
            rename_i he
            exact ⟨f1, hd, fun _ => hm0, by simp, fun _ => he, by simp, by simp⟩
          · rename_i he
            split at h
            · cases h
            · rename_i x2 lks2 more hrec
              cases h
              obtain ⟨g1, ⟨l2, g2⟩, g3, g4, g5, g6, g7⟩ := ih _ _ _ _ hrec
              obtain ⟨l1, hd⟩ := hd
              refine ⟨g1.trans f1, ⟨l1 ++ l2, by rw [g2, hd, List.append_assoc]⟩, ?_, g4, g5, g6, ?_⟩
              · intro hx
                rw [hm0, g3 hx]
                rfl
              · intro hx _
                exact g7 hx (by simpa using he)

/-- A session starts with both flags clear and the reply code 250. -/
theorem lka_session_init_flags (e : env) (ss : submit_status) :
    (lka_session_init e ss).flags = 0 ∧ (lka_session_init e ss).ss.code = 250 ∧
      (lka_session_init e ss).deliverylist = [] :=
  ⟨rfl, rfl, rfl⟩

/-! ## The terminal step -/

/-- C1. Whenever `lka_resume` reaches its terminal step (it returns with the
session freed rather than waiting), the messages it composed are either one
or more `IMSG_QUEUE_SUBMIT_ENVELOPE` followed by exactly one
`IMSG_QUEUE_COMMIT_ENVELOPES` and nothing else, or exactly one
`IMSG_LKA_RCPT` and nothing else. -/
theorem lka_resume_atomic (e : env) (fuel : Nat) (lks : lka_session) (r : resumed)
    (h : lka_resume e fuel lks = .ok r) (hterm : r.lks = none) :
    (∃ eps : List envelope, eps ≠ [] ∧
      r.msgs = eps.map (fun ep => ⟨proc.PROC_QUEUE, imsg.IMSG_QUEUE_SUBMIT_ENVELOPE ep⟩)
        ++ [⟨proc.PROC_QUEUE, imsg.IMSG_QUEUE_COMMIT_ENVELOPES lks.ss.envelope⟩]) ∨
    (∃ ss : submit_status, r.msgs = [⟨proc.PROC_MFA, imsg.IMSG_LKA_RCPT ss⟩]) := by
  unfold lka_resume at h
  split at h
  · rename_i he
    cases h
    right
    exact ⟨lks.ss, by simp [lka_resume_end, he]⟩
  · split at h
    · cases h
    · cases h
      simp at hterm
    · rename_i lks' m hw
      cases h
      obtain ⟨-, -, g3, -, g5, -, -⟩ := lka_resume_while_spec _ _ _ _ _ _ hw
      right
      exact ⟨lks'.ss, by simp [lka_resume_end, g5 rfl, g3 (by simp)]⟩
    · rename_i he _ lks' m hw
      cases h
      obtain ⟨g1, -, g3, -, -, -, g7⟩ := lka_resume_while_spec _ _ _ _ _ _ hw
      have hf : lks'.flags &&& F_ERROR = 0 := g7 rfl (by simpa using he)
      by_cases hd : lks'.deliverylist = []
      · right
        exact ⟨lks'.ss, by
          simp [lka_resume_end, lka_resume_reject, hd, or_error_and_error, g3 (by simp)]⟩
      · left
        exact ⟨lks'.deliverylist, hd, by
          simp [lka_resume_end, lka_resume_reject, hd, hf, g3 (by simp), g1]⟩

/-- Witness of C1: the session for `list@virt.example` in the example
environment ends with two envelopes and the commit. -/
theorem lka_resume_atomic_witness :
    lka_resume ex_env 10 (lka_session_init ex_env (ex_ss "list" "virt.example"))
        = .ok ex_list_resumed ∧
      ex_list_resumed.lks = none ∧
      ((∃ eps : List envelope, eps ≠ [] ∧
        ex_list_resumed.msgs
          = eps.map (fun ep => ⟨proc.PROC_QUEUE, imsg.IMSG_QUEUE_SUBMIT_ENVELOPE ep⟩)
            ++ [⟨proc.PROC_QUEUE, imsg.IMSG_QUEUE_COMMIT_ENVELOPES
                  (lka_session_init ex_env (ex_ss "list" "virt.example")).ss.envelope⟩]) ∨
       (∃ ss : submit_status,
          ex_list_resumed.msgs = [⟨proc.PROC_MFA, imsg.IMSG_LKA_RCPT ss⟩])) :=
  ⟨rfl, rfl,
    lka_resume_atomic ex_env 10 (lka_session_init ex_env (ex_ss "list" "virt.example"))
      ex_list_resumed rfl rfl⟩

/-- C2. When `lka_resume` reaches its terminal step without error (it
composes no `IMSG_LKA_RCPT`), its loop was left with the queue empty, the
delivery list then is the list at entry followed by what was appended since,
every `lka_submit` appending at the tail only, and the messages composed are
the envelopes of that list in list order followed by the commit. -/
theorem lka_resume_commit_order (e : env) (fuel : Nat) (lks : lka_session) (r : resumed)
    (h : lka_resume e fuel lks = .ok r) (hterm : r.lks = none)
    (hok : ∀ ss : submit_status,
      (⟨proc.PROC_MFA, imsg.IMSG_LKA_RCPT ss⟩ : imsg_event) ∉ r.msgs) :
    (∀ (s s' : lka_session) (rule : Option rule) (xn : Option expandnode),
      lka_submit e s rule xn = .ok s' →
        s'.deliverylist = s.deliverylist ∨ ∃ ep, s'.deliverylist = s.deliverylist ++ [ep]) ∧
    ∃ (lks' : lka_session) (m : List imsg_event),
      lka_resume_while e fuel lks = .ok (loop_exit.drained, lks', m) ∧
      (∃ appended, lks'.deliverylist = lks.deliverylist ++ appended) ∧
      r.msgs = lks'.deliverylist.map
          (fun ep => ⟨proc.PROC_QUEUE, imsg.IMSG_QUEUE_SUBMIT_ENVELOPE ep⟩)
        ++ [⟨proc.PROC_QUEUE, imsg.IMSG_QUEUE_COMMIT_ENVELOPES lks.ss.envelope⟩] := by
  refine ⟨?_, ?_⟩
  · intro s s' rule xn hs
    rcases lka_submit_cases _ _ _ _ _ hs with hc | ⟨ep, hc⟩
    · left; rw [hc]; rfl
    · right; exact ⟨ep, by rw [hc]⟩
  · unfold lka_resume at h
    split at h
    · rename_i he
      cases h
      exact absurd (by simp [lka_resume_end, he]) (hok lks.ss)
    · split at h
      · cases h
      · cases h
        simp at hterm
      · rename_i lks' m hw
        cases h
        obtain ⟨-, -, g3, -, g5, -, -⟩ := lka_resume_while_spec _ _ _ _ _ _ hw
        exact absurd (by simp [lka_resume_end, g5 rfl, g3 (by simp)]) (hok lks'.ss)
      · rename_i he _ lks' m hw
        cases h
        obtain ⟨g1, g2, g3, -, -, -, g7⟩ := lka_resume_while_spec _ _ _ _ _ _ hw
        have hf : lks'.flags &&& F_ERROR = 0 := g7 rfl (by simpa using he)
        by_cases hd : lks'.deliverylist = []
        · exact absurd (by
            simp [lka_resume_end, lka_resume_reject, hd, or_error_and_error, g3 (by simp)])
            (hok lks'.ss)
        · exact ⟨lks', m, hw, g2, by
            simp [lka_resume_end, lka_resume_reject, hd, hf, g3 (by simp), g1]⟩

/-- Witness of C2: the session for `list@virt.example` in the example
environment queues `ann` before `joe`, then commits. -/
theorem lka_resume_commit_order_witness :
    lka_resume ex_env 10 (lka_session_init ex_env (ex_ss "list" "virt.example"))
        = .ok ex_list_resumed ∧
      ex_list_resumed.msgs =
        [⟨proc.PROC_QUEUE, imsg.IMSG_QUEUE_SUBMIT_ENVELOPE (ex_relayed "ann")⟩,
         ⟨proc.PROC_QUEUE, imsg.IMSG_QUEUE_SUBMIT_ENVELOPE (ex_relayed "joe")⟩,
         ⟨proc.PROC_QUEUE, imsg.IMSG_QUEUE_COMMIT_ENVELOPES (ex_envelope "list" "virt.example")⟩] ∧
      ∃ (lks' : lka_session) (m : List imsg_event),
        lka_resume_while ex_env 10 (lka_session_init ex_env (ex_ss "list" "virt.example"))
          = .ok (loop_exit.drained, lks', m) ∧
        (∃ appended, lks'.deliverylist
          = (lka_session_init ex_env (ex_ss "list" "virt.example")).deliverylist ++ appended) ∧
        ex_list_resumed.msgs = lks'.deliverylist.map
            (fun ep => ⟨proc.PROC_QUEUE, imsg.IMSG_QUEUE_SUBMIT_ENVELOPE ep⟩)
          ++ [⟨proc.PROC_QUEUE, imsg.IMSG_QUEUE_COMMIT_ENVELOPES
                (lka_session_init ex_env (ex_ss "list" "virt.example")).ss.envelope⟩] :=
  ⟨rfl, rfl,
    (lka_resume_commit_order ex_env 10 (lka_session_init ex_env (ex_ss "list" "virt.example"))
      ex_list_resumed rfl rfl (by intro ss; simp [ex_list_resumed])).2⟩

/-- C8, evaluated. A session whose queue runs empty with no error flagged
and an empty delivery list: in the example environment the virtual alias of
`loop@virt.example` is the address itself, which the tree already holds. The
session ends in error, and the `IMSG_LKA_RCPT` reply carries the code 250
that `lka_session` set, not 530. -/
theorem lka_resume_empty_list_reply_code :
    lka_session_start ex_env 10 (ex_ss "loop" "virt.example")
      = .ok { lks := none,
              msgs := [⟨proc.PROC_MFA,
                imsg.IMSG_LKA_RCPT { ex_ss "loop" "virt.example" with code := 250 }⟩] } :=
  rfl

/-- In general: when the queue is empty, no error is flagged and the
delivery list is empty, `lka_resume` replies with the session's code as it
stands. -/
theorem lka_resume_empty_list (e : env) (fuel : Nat) (lks : lka_session)
    (hq : lks.expand.queue = []) (he : lks.flags &&& F_ERROR = 0)
    (hd : lks.deliverylist = []) :
    lka_resume e fuel lks
      = .ok { lks := none, msgs := [⟨proc.PROC_MFA, imsg.IMSG_LKA_RCPT lks.ss⟩] } := by
  unfold lka_resume lka_resume_while
  cases fuel <;>
    simp [he, hq, hd, lka_resume_reject, lka_resume_end, or_error_and_error]

/-- C9. A node of depth at least `EXPAND_DEPTH` makes `lka_expand` set
`F_ERROR` and code 530 and do nothing else, whatever the node type and
whatever the environment (no collaborator is consulted). When such a node
heads the queue of a running session, the loop of `lka_resume` leaves by
`goto error` and `lka_resume` composes exactly one `IMSG_LKA_RCPT` with code
530, whatever the delivery list holds. -/
theorem lka_expand_too_deep (e : env) (lks : lka_session) (rule : Option rule)
    (xn : expandnode) (rest : List expandnode) (fuel : Nat)
    (hdepth : xn.depth ≥ EXPAND_DEPTH) :
    lka_expand e lks rule xn = .ok (set_error lks 530, []) ∧
    (∀ e' : env, lka_expand e' lks rule xn = lka_expand e lks rule xn) ∧
    (lks.flags &&& F_WAITING = 0 → lks.expand.queue = xn :: rest →
      lka_resume_while e (fuel + 1) lks
        = .ok (loop_exit.error,
            set_error { lks with expand := { lks.expand with queue := rest } } 530, [])) ∧
    (lks.flags &&& F_WAITING = 0 → lks.flags &&& F_ERROR = 0 →
      lks.expand.queue = xn :: rest →
      lka_resume e (fuel + 1) lks
        = .ok { lks := none,
                msgs := [⟨proc.PROC_MFA, imsg.IMSG_LKA_RCPT { lks.ss with code := 530 }⟩] }) := by
  have h1 : ∀ (e' : env) (s : lka_session) (r : Option LkaSession.rule),
      lka_expand e' s r xn = .ok (set_error s 530, []) := by
    intro e' s r
    unfold lka_expand
    simp [hdepth]
  have h3 : lks.flags &&& F_WAITING = 0 → lks.expand.queue = xn :: rest →
      lka_resume_while e (fuel + 1) lks
        = .ok (loop_exit.error,
            set_error { lks with expand := { lks.expand with queue := rest } } 530, []) := by
    intro hw hq
    unfold lka_resume_while
    simp [hq, h1, set_error, or_error_and_waiting, or_error_and_error, hw]
  refine ⟨h1 e lks rule, fun e' => by rw [h1 e', h1 e], h3, ?_⟩
  intro hw he hq
  unfold lka_resume
  simp [he, h3 hw hq, lka_resume_end, set_error, or_error_and_error]

/-- Witness of C9: the example session that holds one envelope and finds a
node of depth 10 replies 530 and queues nothing. -/
theorem lka_expand_too_deep_witness :
    ex_deep_node.depth ≥ EXPAND_DEPTH ∧
    ex_deep_session.flags &&& F_WAITING = 0 ∧ ex_deep_session.flags &&& F_ERROR = 0 ∧
    ex_deep_session.expand.queue = ex_deep_node :: [] ∧
    ex_deep_session.deliverylist ≠ [] ∧
    lka_resume ex_env 1 ex_deep_session
      = .ok { lks := none,
              msgs := [⟨proc.PROC_MFA,
                imsg.IMSG_LKA_RCPT { ex_deep_session.ss with code := 530 }⟩] } :=
  ⟨by decide, by decide, by decide, rfl, by decide,
    (lka_expand_too_deep ex_env ex_deep_session ex_deep_node.rule ex_deep_node [] 0
      (by decide)).2.2.2 (by decide) (by decide) rfl⟩

/-! ## The forward reply -/

/-- C10. `lka_session_forward_reply` clears `F_WAITING` and then resumes the
session after one of three steps. Without a handle and with a true status
it calls `lka_submit` with the recorded rule and node and resumes with the
session that call leaves. Without a handle and with a false status it sets
`F_ERROR` and code 530, and the session ends with the single reply 530 and
no queue message. With a handle it calls `forwards_get` on the expansion
with the recorded rule, the recorded node as parent and the alias flag 0,
and sets `F_ERROR` and code 530 exactly when the result is 0. -/
theorem lka_session_forward_reply_spec (e : env) (fuel : Nat) (lks : lka_session)
    (fwreq : forward_req) (fd : Int) :
    ({ lks with flags := lks.flags &&& bitnot F_WAITING } : lka_session).flags
        &&& F_WAITING = 0 ∧
    (fd = -1 → fwreq.status ≠ 0 →
      lka_session_forward_reply e fuel lks fwreq fd
        = (lka_submit e { lks with flags := lks.flags &&& bitnot F_WAITING } lks.rule lks.node).bind
            (lka_resume e fuel)) ∧
    (fd = -1 → fwreq.status = 0 →
      lka_session_forward_reply e fuel lks fwreq fd
        = lka_resume e fuel
            (set_error { lks with flags := lks.flags &&& bitnot F_WAITING } 530) ∧
      lka_session_forward_reply e fuel lks fwreq fd
        = .ok { lks := none,
                msgs := [⟨proc.PROC_MFA, imsg.IMSG_LKA_RCPT { lks.ss with code := 530 }⟩] }) ∧
    (fd ≠ -1 →
      ∀ (n : Int) (ex : expand),
        e.forwards_get fd { lks.expand with rule := lks.rule, parent := lks.node, alias_ := 0 }
          = (n, ex) →
        (n = 0 →
          lka_session_forward_reply e fuel lks fwreq fd
            = lka_resume e fuel
                (set_error { lks with flags := lks.flags &&& bitnot F_WAITING, expand := ex } 530) ∧
          lka_session_forward_reply e fuel lks fwreq fd
            = .ok { lks := none,
                    msgs := [⟨proc.PROC_MFA, imsg.IMSG_LKA_RCPT { lks.ss with code := 530 }⟩] }) ∧
        (n ≠ 0 →
          lka_session_forward_reply e fuel lks fwreq fd
            = lka_resume e fuel
                { lks with flags := lks.flags &&& bitnot F_WAITING, expand := ex })) := by
  have herr : ∀ s : lka_session, lka_resume e fuel (set_error s 530)
      = .ok { lks := none,
              msgs := [⟨proc.PROC_MFA, imsg.IMSG_LKA_RCPT { s.ss with code := 530 }⟩] } := by
    intro s
    unfold lka_resume
    simp [set_error, or_error_and_error, lka_resume_end]
  refine ⟨clear_waiting_and_waiting _, ?_, ?_, ?_⟩
  · intro hfd hst
    unfold lka_session_forward_reply
    simp only [hfd, hst, ne_eq, not_false_eq_true, and_self, if_true]
    cases lka_submit e { lks with flags := lks.flags &&& bitnot F_WAITING } lks.rule lks.node <;> rfl
  · intro hfd hst
    have h : lka_session_forward_reply e fuel lks fwreq fd
        = lka_resume e fuel
            (set_error { lks with flags := lks.flags &&& bitnot F_WAITING } 530) := by
      unfold lka_session_forward_reply
      simp [hfd, hst]
    exact ⟨h, by rw [h, herr]⟩
  · intro hfd n ex hfw
    constructor
    · intro hn
      have h : lka_session_forward_reply e fuel lks fwreq fd
          = lka_resume e fuel
              (set_error { lks with flags := lks.flags &&& bitnot F_WAITING, expand := ex } 530) := by
        unfold lka_session_forward_reply
        simp [hfd, hfw, hn]
      exact ⟨h, by rw [h, herr]⟩
    · intro hn
      unfold lka_session_forward_reply
      simp [hfd, hfw, hn]

/-- Witness of C10: in the example environment the waiting session for
`bob+work@example.com` is told that `bob` exists and has no forward file; it
submits to `bob` and commits one envelope. With a false status it replies
530, and with a handle whose file holds no alias it replies 530. -/
theorem lka_session_forward_reply_spec_witness :
    ex_waiting_session.flags &&& F_WAITING ≠ 0 ∧
    (∃ ep, lka_session_forward_reply ex_env 10 ex_waiting_session ⟨1, cs "bob", 1⟩ (-1)
      = .ok { lks := none,
              msgs := [⟨proc.PROC_QUEUE, imsg.IMSG_QUEUE_SUBMIT_ENVELOPE ep⟩,
                       ⟨proc.PROC_QUEUE, imsg.IMSG_QUEUE_COMMIT_ENVELOPES
                          (ex_envelope "bob+work" "example.com")⟩] }) ∧
    lka_session_forward_reply ex_env 10 ex_waiting_session ⟨1, cs "bob", 0⟩ (-1)
      = .ok { lks := none,
              msgs := [⟨proc.PROC_MFA,
                imsg.IMSG_LKA_RCPT { ex_waiting_session.ss with code := 530 }⟩] } ∧
    lka_session_forward_reply ex_env 10 ex_waiting_session ⟨1, cs "bob", 1⟩ 5
      = .ok { lks := none,
              msgs := [⟨proc.PROC_MFA,
                imsg.IMSG_LKA_RCPT { ex_waiting_session.ss with code := 530 }⟩] } :=
  ⟨by decide,
   ⟨_, ((lka_session_forward_reply_spec ex_env 10 ex_waiting_session ⟨1, cs "bob", 1⟩ (-1)).2.1
      rfl (by decide)).trans rfl⟩,
   ((lka_session_forward_reply_spec ex_env 10 ex_waiting_session ⟨1, cs "bob", 0⟩ (-1)).2.2.1
      rfl rfl).2,
   (((lka_session_forward_reply_spec ex_env 10 ex_waiting_session ⟨1, cs "bob", 1⟩ 5).2.2.2
      (by decide) 0 _ rfl).1 rfl).2⟩
/-! ## Strings -/

theorem strchr_none_of_not_mem (c : Char) : ∀ s : List Char, c ∉ s → strchr s c = none := by
  intro s
  induction s with
  | nil => intro _; rfl
  | cons x xs ih =>
    intro h
    have hx : x ≠ c := fun hxc => h (by simp [hxc])
    have hxs : c ∉ xs := fun hm => h (by simp [hm])
    simp [strchr, hx, ih hxs]

theorem strchr_append (c : Char) (b : List Char) :
    ∀ a : List Char, c ∉ a → strchr (a ++ c :: b) c = some a.length := by
  intro a
  induction a with
  | nil => intro _; simp [strchr]
  | cons x xs ih =>
    intro h
    have hx : x ≠ c := fun hxc => h (by simp [hxc])
    have hxs : c ∉ xs := fun hm => h (by simp [hm])
    simp [strchr, hx, ih hxs]

/-- What `strtonum` has read when it reports no error: white space, an
optional sign and a non-empty run of digits whose signed value lies in the
range asked for. -/
theorem strtonum_ok (s : List Char) (lo hi v : Int) (h : strtonum s lo hi = (v, none)) :
    ∃ body : List Char, body ≠ [] ∧ body.all isdigit = true ∧ lo ≤ v ∧ v ≤ hi ∧
      ((List.dropWhile isspace s = body ∧ v = digits_value body) ∨
       (List.dropWhile isspace s = '+' :: body ∧ v = digits_value body) ∨
       (List.dropWhile isspace s = '-' :: body ∧ v = - (digits_value body : Int))) := by
  unfold strtonum at h
  rw [if_neg (by intro h0; rw [if_pos h0] at h; simp at h)] at h
  dsimp only at h
  generalize List.dropWhile isspace s = s' at h
  have key : ∀ (body : List Char) (ll : Int),
      (if body = [] ∨ ¬ body.all isdigit = true then ((0 : Int), some "invalid")
       else if ll < lo then (0, some "too small")
       else if ll > hi then (0, some "too large") else (ll, none)) = (v, none) →
      body ≠ [] ∧ body.all isdigit = true ∧ lo ≤ v ∧ v ≤ hi ∧ v = ll := by
    intro body ll hk
    by_cases h1 : body = [] ∨ ¬ body.all isdigit = true
    · rw [if_pos h1] at hk; simp at hk
    · rw [if_neg h1] at hk
      by_cases h2 : ll < lo
      · rw [if_pos h2] at hk; simp at hk
      · rw [if_neg h2] at hk
        by_cases h3 : ll > hi
        · rw [if_pos h3] at hk; simp at hk
        · rw [if_neg h3] at hk
          simp only [Prod.mk.injEq, and_true] at hk
          push_neg at h1
          subst hk
          exact ⟨h1.1, h1.2, not_lt.mp h2, not_lt.mp h3, rfl⟩
  cases s' with
  | nil =>
    have := key [] _ h
    exact absurd rfl this.1
  | cons x xs =>
    by_cases hm : x = '-'
    · subst hm
      have hk := key xs (- (digits_value xs : Int)) (by simpa using h)
      exact ⟨xs, hk.1, hk.2.1, hk.2.2.1, hk.2.2.2.1, Or.inr (Or.inr ⟨rfl, hk.2.2.2.2⟩)⟩
    · by_cases hp : x = '+'
      · subst hp
        have hk := key xs (digits_value xs : Int) (by simpa using h)
        exact ⟨xs, hk.1, hk.2.1, hk.2.2.1, hk.2.2.2.1, Or.inr (Or.inl ⟨rfl, hk.2.2.2.2⟩)⟩
      · have hk := key (x :: xs) (digits_value (x :: xs) : Int) (by simpa [hm, hp] using h)
        exact ⟨x :: xs, hk.1, hk.2.1, hk.2.2.1, hk.2.2.2.1, Or.inl ⟨rfl, hk.2.2.2.2⟩⟩

/-- A text that `strtonum` accepts holds white space, signs and digits
only. -/
theorem strtonum_chars (s : List Char) (lo hi v : Int)
    (h : strtonum s lo hi = (v, none)) :
    ∀ c ∈ s, isspace c = true ∨ c = '-' ∨ c = '+' ∨ isdigit c = true := by
  obtain ⟨body, -, hall, -, -, hs⟩ := strtonum_ok s lo hi v h
  intro c hc
  rw [← List.takeWhile_append_dropWhile isspace s, List.mem_append] at hc
  rcases hc with hc | hc
  · exact Or.inl (List.mem_takeWhile_imp hc)
  · have hd := fun hm => List.all_eq_true.mp hall c hm
    rcases hs with ⟨hs, -⟩ | ⟨hs, -⟩ | ⟨hs, -⟩ <;> rw [hs] at hc
    · exact Or.inr (Or.inr (Or.inr (hd hc)))
    · rcases List.mem_cons.mp hc with hc | hc
      · exact Or.inr (Or.inr (Or.inl hc))
      · exact Or.inr (Or.inr (Or.inr (hd hc)))
    · rcases List.mem_cons.mp hc with hc | hc
      · exact Or.inr (Or.inl hc)
      · exact Or.inr (Or.inr (Or.inr (hd hc)))

/-- A text that `strtonum` accepts holds none of `[`, `]`, `:`, `}`. -/
theorem strtonum_no_special (s : List Char) (lo hi v : Int)
    (h : strtonum s lo hi = (v, none)) :
    '[' ∉ s ∧ ']' ∉ s ∧ ':' ∉ s ∧ '}' ∉ s := by
  have hc := strtonum_chars s lo hi v h
  refine ⟨fun hm => ?_, fun hm => ?_, fun hm => ?_, fun hm => ?_⟩ <;>
    exact absurd (hc _ hm) (by decide)

/-- A text that `strtonum` accepts is not empty. -/
theorem strtonum_ne_nil (s : List Char) (lo hi v : Int)
    (h : strtonum s lo hi = (v, none)) : s ≠ [] := by
  obtain ⟨body, hb, -, -, -, hs⟩ := strtonum_ok s lo hi v h
  intro hs0
  subst hs0
  rcases hs with ⟨hs, -⟩ | ⟨hs, -⟩ | ⟨hs, -⟩
  · exact hb (by simpa using hs.symm)
  · simp at hs
  · simp at hs
theorem ite_some_or {α : Type} {c : Prop} [Decidable c] {a : α} {r : Option α} {v : α}
    (h : (if c then some a else r) = some v) : c ∨ r = some v := by
  by_cases hc : c
  · exact Or.inl hc
  · rw [if_neg hc] at h
    exact Or.inr h

theorem token_string_name (EB : Nat) (ep : envelope) (name v : List Char)
    (h : token_string EB ep name = some v) :
    ∃ key ∈ token_names, strcasecmp_eq key name = true := by
  unfold token_string at h
  rcases ite_some_or h with h1 | h
  · exact ⟨_, by decide, h1⟩
  rcases ite_some_or h with h1 | h
  · exact ⟨_, by decide, h1⟩
  rcases ite_some_or h with h1 | h
  · exact ⟨_, by decide, h1⟩
  rcases ite_some_or h with h1 | h
  · exact ⟨_, by decide, h1⟩
  rcases ite_some_or h with h1 | h
  · exact ⟨_, by decide, h1⟩
  rcases ite_some_or h with h1 | h
  · exact ⟨_, by decide, h1⟩
  rcases ite_some_or h with h1 | h
  · exact ⟨_, by decide, h1⟩
  rcases ite_some_or h with h1 | h
  · exact ⟨_, by decide, h1⟩
  rcases ite_some_or h with h1 | h
  · exact ⟨_, by decide, h1⟩
  rcases ite_some_or h with h1 | h
  · exact ⟨_, by decide, h1⟩
  rcases ite_some_or h with h1 | h
  · exact ⟨_, by decide, h1⟩
  exact absurd h (by simp)

theorem strcasecmp_not_mem (key name : List Char) (hk : strcasecmp_eq key name = true)
    (c : Char) (hc : tolower c = c) (hkc : c ∉ key.map tolower) : c ∉ name := by
  intro hm
  have h1 : key.map tolower = name.map tolower := by simpa [strcasecmp_eq] using hk
  apply hkc
  rw [h1, ← hc]
  exact List.mem_map_of_mem _ hm

/-- A name of the table holds none of `[`, `]`, `}`, `:`. -/
theorem token_name_no_special (EB : Nat) (ep : envelope) (name v : List Char)
    (h : token_string EB ep name = some v) :
    '[' ∉ name ∧ ']' ∉ name ∧ '}' ∉ name := by
  obtain ⟨key, hkey, hk⟩ := token_string_name EB ep name v h
  have hall : ∀ k ∈ token_names, '[' ∉ k.map tolower ∧ ']' ∉ k.map tolower ∧ '}' ∉ k.map tolower := by
    decide
  obtain ⟨h1, h2, h3⟩ := hall key hkey
  exact ⟨strcasecmp_not_mem key name hk _ (by decide) h1,
    strcasecmp_not_mem key name hk _ (by decide) h2,
    strcasecmp_not_mem key name hk _ (by decide) h3⟩
theorem slice_int_some (EB : Nat) (s : List Char) (n : Int) (h : slice_int EB s = some n) :
    strtonum s (-EB) EB = (n, none) := by
  unfold slice_int at h
  split at h
  · rename_i n' heq
    cases h
    exact heq
  · cases h

theorem drop_take_mid (a m r : List Char) (x : Char) (k : Nat) (hk : k = m.length) :
    ((a ++ x :: (m ++ r)).drop (a.length + 1)).take k = m := by
  have e : a ++ x :: (m ++ r) = (a ++ [x]) ++ (m ++ r) := by simp
  rw [e, List.drop_left' (by simp), hk]
  exact List.take_left' rfl

theorem token_offsets_absent (EB : Nat) (name : List Char) (h : '[' ∉ name) :
    token_offsets EB name = some (name, (0 : Int), (EB : Int)) := by
  unfold token_offsets
  rw [strchr_none_of_not_mem _ _ h]

theorem token_offsets_index (EB : Nat) (name n : List Char) (N : Int)
    (h1 : '[' ∉ name) (h2 : ']' ∉ name) (hn : strtonum n (-EB) EB = (N, none)) :
    token_offsets EB (name ++ '[' :: (n ++ [']'])) = some (name, N, N) := by
  obtain ⟨-, n2, n3, -⟩ := strtonum_no_special _ _ _ _ hn
  have hne := strtonum_ne_nil _ _ _ _ hn
  have hl : strchr (name ++ '[' :: (n ++ [']'])) '[' = some name.length :=
    strchr_append _ _ _ h1
  have hr : strchr (name ++ '[' :: (n ++ [']'])) ']' = some (name.length + 1 + n.length) := by
    have := strchr_append ']' [] (name ++ '[' :: n) (by simp [h2, n2])
    simp only [List.append_assoc, List.cons_append, List.length_append, List.length_cons] at this
    rw [this]
    congr 1
    omega
  have hpos : 0 < n.length := List.length_pos.mpr hne
  unfold token_offsets
  rw [hl, hr]
  dsimp only
  rw [if_neg (by omega), drop_take_mid _ _ _ _ _ (by omega), strchr_none_of_not_mem _ _ n3,
    List.take_left' rfl]
  simp [hn]

theorem token_offsets_range (EB : Nat) (name b e : List Char) (B E : Int)
    (h1 : '[' ∉ name) (h2 : ']' ∉ name)
    (hb : (if b = [] then some 0 else slice_int EB b) = some B)
    (he : (if e = [] then some (EB : Int) else slice_int EB e) = some E) :
    token_offsets EB (name ++ '[' :: ((b ++ ':' :: e) ++ [']'])) = some (name, B, E) := by
  have hbs : ']' ∉ b ∧ ':' ∉ b := by
    by_cases hb0 : b = []
    · simp [hb0]
    · rw [if_neg hb0] at hb
      obtain ⟨-, n2, n3, -⟩ := strtonum_no_special _ _ _ _ (slice_int_some _ _ _ hb)
      exact ⟨n2, n3⟩
  have hes : ']' ∉ e := by
    by_cases he0 : e = []
    · simp [he0]
    · rw [if_neg he0] at he
      exact (strtonum_no_special _ _ _ _ (slice_int_some _ _ _ he)).2.1
  have hl : strchr (name ++ '[' :: ((b ++ ':' :: e) ++ [']'])) '[' = some name.length :=
    strchr_append _ _ _ h1
  have hr : strchr (name ++ '[' :: ((b ++ ':' :: e) ++ [']'])) ']'
      = some (name.length + 1 + (b ++ ':' :: e).length) := by
    have := strchr_append ']' [] (name ++ '[' :: (b ++ ':' :: e)) (by simp [h2, hbs.1, hes])
    simp only [List.append_assoc, List.cons_append, List.length_append, List.length_cons] at this
    simp only [List.append_assoc, List.cons_append, List.length_append, List.length_cons]
    rw [this]
    congr 1
    omega
  have hsep : strchr (b ++ ':' :: e) ':' = some b.length := strchr_append _ _ _ hbs.2
  have hd : (b ++ ':' :: e).drop (b.length + 1) = e := by
    have e1 : b ++ ':' :: e = (b ++ [':']) ++ e := by simp
    rw [e1]
    exact List.drop_left' (by simp)
  have hb' : (if b.length ≠ 0 then strtonum b (-↑EB) ↑EB else ((0 : Int), (none : Option String)))
      = (B, none) := by
    by_cases hb0 : b = []
    · subst hb0
      simp at hb
      simp [hb]
    · rw [if_neg hb0] at hb
      rw [if_pos (by simpa using hb0)]
      exact slice_int_some _ _ _ hb
  have he' : (if e ≠ [] then strtonum e (-↑EB) ↑EB else ((EB : Int), (none : Option String)))
      = (E, none) := by
    by_cases he0 : e = []
    · subst he0
      simp at he
      simp [he]
    · rw [if_neg he0] at he
      rw [if_pos he0]
      exact slice_int_some _ _ _ he
  have hlen : 0 < (b ++ ':' :: e).length := by simp
  unfold token_offsets
  rw [hl, hr]
  dsimp only
  rw [if_neg (by omega), drop_take_mid _ _ _ _ _ (by omega), hsep]
  dsimp only
  rw [List.take_left' rfl, List.take_left' rfl, hd, hb']
  simp only [if_true]
  rw [he']
  simp

/-- The bracket parser reads a rendered slice as the specification reads
it. -/
theorem token_offsets_slice (EB : Nat) (name : List Char) (sl : slice) (b e : Int)
    (h1 : '[' ∉ name) (h2 : ']' ∉ name) (hsl : sl.offsets EB = some (b, e)) :
    token_offsets EB (name ++ sl.render) = some (name, b, e) := by
  cases sl with
  | absent =>
    simp only [slice.offsets, Option.some.injEq, Prod.mk.injEq] at hsl
    simp only [slice.render, List.append_nil]
    rw [token_offsets_absent EB name h1, ← hsl.1, ← hsl.2]
  | index n =>
    simp only [slice.offsets, Option.map_eq_some'] at hsl
    obtain ⟨N, hN, hp⟩ := hsl
    cases hp
    have := token_offsets_index EB name n b h1 h2 (slice_int_some _ _ _ hN)
    simpa [slice.render] using this
  | range bs es =>
    simp only [slice.offsets] at hsl
    split at hsl
    · rename_i B E hB hE
      cases hsl
      have := token_offsets_range EB name bs es b e h1 h2 hB hE
      simpa [slice.render] using this
    · cases hsl
/-! ## The token expander -/

/-- The offset arithmetic of the source follows the slice rules of the
specification, and then tests that the substring fits the destination. -/
theorem token_substring_spec (len : Nat) (v : List Char) (b e : Int) :
    token_substring len v b e =
      match spec_slice v.length b e with
      | none => none
      | some (B, E) =>
        if (E - B + 1).toNat + 1 ≥ len then none else some (substring v B E) := by
  unfold token_substring spec_slice
  dsimp only
  by_cases h0 : (v.length : Int) = 0
  · simp only [h0, if_true]
  simp only [h0, if_false]
  by_cases h1 : b ≥ (v.length : Int)
  · simp only [h1, if_true]
  simp only [h1, if_false]
  generalize (if e ≥ (v.length : Int) then (v.length : Int) - 1 else e) = e1
  generalize (if b < 0 then b + (v.length : Int) else b) = b1
  generalize (if e1 < 0 then e1 + ((v.length : Int) - 1) else e1) = e2
  by_cases h3 : b1 < 0 ∨ e2 < 0 ∨ e2 < b1
  · simp only [h3, if_true]
  simp only [h3, if_false]
  have h4 : e2 + 1 - b1 = e2 - b1 + 1 := by ring
  rw [h4]
  rfl

/-- The final offsets of the slice rules lie inside the value. -/
theorem spec_slice_bounds (L b e B E : Int) (h : spec_slice L b e = some (B, E)) :
    0 ≤ B ∧ B ≤ E ∧ E < L := by
  unfold spec_slice at h
  dsimp only at h
  split_ifs at h <;> simp only [Option.some.injEq, Prod.mk.injEq] at h <;>
    obtain ⟨h1, h2⟩ := h <;> subst h1 <;> subst h2 <;> omega

/-- The characters `v[B .. E]`: there are `E - B + 1` of them and the
`k`-th is `v[B + k]`. -/
theorem substring_spec (v : List Char) (B E : Int) (h0 : 0 ≤ B) (h1 : B ≤ E)
    (h2 : E < v.length) :
    (substring v B E).length = (E - B + 1).toNat ∧
      ∀ k : Nat, k < (E - B + 1).toNat → (substring v B E)[k]? = v[B.toNat + k]? := by
  unfold substring
  constructor
  · simp only [List.length_take, List.length_drop]
    omega
  · intro k hk
    rw [List.getElem?_take_of_lt hk, List.getElem?_drop]
/-! ## The expansion loop, one step at a time -/

/-- A character that starts neither `%%` nor `%{` is copied. -/
theorem step_literal (EB : Nat) (ep : envelope) (c : Char) (rest : List Char)
    (h1 : ¬ (c = '%' ∧ peek rest = '%')) (h2 : c ≠ '%' ∨ peek rest ≠ '{') :
    lka_expand_format_step EB ep c rest = some (rest, [c]) := by
  unfold lka_expand_format_step
  rw [if_neg h1, if_pos h2]

/-- The pair `%%` leaves one `%`. -/
theorem step_percent (EB : Nat) (ep : envelope) (rest : List Char) :
    lka_expand_format_step EB ep '%' ('%' :: rest) = some (rest, ['%']) := by
  unfold lka_expand_format_step
  rw [if_pos ⟨rfl, rfl⟩]
  rfl

/-- The step taken at `%{token}`. -/
theorem step_token (EB : Nat) (ep : envelope) (token rest : List Char) (htok : '}' ∉ token) :
    lka_expand_format_step EB ep '%' ('{' :: (token ++ '}' :: rest))
      = if token.length + 1 ≥ MAXTOKENLEN then none
        else
          match lka_expand_token EB EB token ep with
          | none => none
          | some exptok =>
            match lowercase exptok EB with
            | none => none
            | some low => some (rest, low) := by
  have hs : strchr ('{' :: (token ++ '}' :: rest)) '}' = some (token.length + 1) := by
    have := strchr_append '}' rest ('{' :: token) (by simp [htok])
    simpa using this
  have ht : (('{' :: (token ++ '}' :: rest)).take (token.length + 1)).drop 1 = token := by
    simp
  have hd : ('{' :: (token ++ '}' :: rest)).drop (token.length + 1 + 1) = rest := by
    have e : '{' :: (token ++ '}' :: rest) = ('{' :: token ++ ['}']) ++ rest := by simp
    rw [e]
    exact List.drop_left' (by simp)
  have p1 : peek ('{' :: (token ++ '}' :: rest)) = '{' := rfl
  unfold lka_expand_format_step
  rw [p1]
  simp only [show ¬ ('{' = '%') by decide, and_false, if_false, ne_eq, not_true_eq_false,
    or_self, hs]
  simp only [ht, hd]

theorem loop_nil (EB : Nat) (ep : envelope) (fuel ret : Nat) (tmp : List Char) :
    lka_expand_format_loop EB ep fuel [] ret tmp = some (ret, tmp) := by
  rw [lka_expand_format_loop]

theorem loop_full (EB : Nat) (ep : envelope) (fuel ret : Nat) (pbuf tmp : List Char)
    (h : ¬ ret < EB) :
    lka_expand_format_loop EB ep fuel pbuf ret tmp = some (ret, tmp) := by
  cases pbuf with
  | nil => rw [lka_expand_format_loop]
  | cons c rest =>
    rw [lka_expand_format_loop.eq_def]
    simp only [h, not_false_eq_true, if_true]

theorem loop_zero (EB : Nat) (ep : envelope) (ret : Nat) (c : Char) (rest tmp : List Char)
    (hret : ret < EB) :
    lka_expand_format_loop EB ep 0 (c :: rest) ret tmp = none := by
  rw [lka_expand_format_loop]
  simp only [hret, not_true_eq_false, if_false]

/-- One iteration of the loop. -/
theorem loop_step (EB : Nat) (ep : envelope) (fuel ret : Nat) (c : Char)
    (rest tmp : List Char) (hret : ret < EB) :
    lka_expand_format_loop EB ep (fuel + 1) (c :: rest) ret tmp
      = match lka_expand_format_step EB ep c rest with
        | none => none
        | some (pbuf, written) =>
          lka_expand_format_loop EB ep fuel pbuf (ret + written.length) (tmp ++ written) := by
  rw [lka_expand_format_loop]
  simp only [hret, not_true_eq_false, if_false]

/-- The loop keeps `ret` equal to the number of bytes written. -/
theorem loop_lockstep (EB : Nat) (ep : envelope) :
    ∀ (fuel : Nat) (pbuf : List Char) (ret : Nat) (tmp : List Char) (r : Nat) (t : List Char),
      lka_expand_format_loop EB ep fuel pbuf ret tmp = some (r, t) →
      ∃ x, t = tmp ++ x ∧ r = ret + x.length := by
  intro fuel
  induction fuel with
  | zero =>
    intro pbuf ret tmp r t h
    cases pbuf with
    | nil => rw [loop_nil] at h; cases h; exact ⟨[], by simp⟩
    | cons c rest =>
      by_cases hret : ret < EB
      · rw [loop_zero _ _ _ _ _ _ hret] at h
        cases h
      · rw [loop_full _ _ _ _ _ _ hret] at h
        cases h; exact ⟨[], by simp⟩
  | succ fuel ih =>
    intro pbuf ret tmp r t h
    cases pbuf with
    | nil => rw [loop_nil] at h; cases h; exact ⟨[], by simp⟩
    | cons c rest =>
      by_cases hret : ret < EB
      · rw [loop_step _ _ _ _ _ _ _ hret] at h
        split at h
        · cases h
        · rename_i p w _
          obtain ⟨x, hx1, hx2⟩ := ih _ _ _ _ _ h
          exact ⟨w ++ x, by rw [hx1, List.append_assoc], by rw [hx2, List.length_append]; omega⟩
      · rw [loop_full _ _ _ _ _ _ hret] at h
        cases h; exact ⟨[], by simp⟩

/-- The token expander on a rendered token shorter than `MAXTOKENLEN`. -/
theorem lka_expand_token_rendered (EB len : Nat) (ep : envelope) (name : List Char)
    (sl : slice) (v : List Char) (b e : Int)
    (hname : token_string EB ep name = some v)
    (hsl : sl.offsets EB = some (b, e))
    (htok : (name ++ sl.render).length < MAXTOKENLEN) :
    lka_expand_token EB len (name ++ sl.render) ep =
      match spec_slice v.length b e with
      | none => none
      | some (B, E) =>
        if (E - B + 1).toNat + 1 ≥ len then none else some (substring v B E) := by
  obtain ⟨n1, n2, -⟩ := token_name_no_special EB ep name v hname
  unfold lka_expand_token
  rw [if_neg (by omega), token_offsets_slice EB name sl b e n1 n2 hsl]
  dsimp only
  rw [hname]
  exact token_substring_spec len v b e

/-- C3, amended. For a token `NAME[SLICE]` shorter than `MAXTOKENLEN` whose
name is in the table with value `v`, and whose slice integers are `b` and
`e`, `lka_expand_token` applies the slice rules of the specification in
their order and then, when the `E - B + 1` characters and a terminator fit
the destination of size `len`, copies exactly `v[B .. E]`; otherwise it
returns 0. A token of `MAXTOKENLEN` characters or more returns 0. -/
theorem lka_expand_token_slice (EB len : Nat) (ep : envelope) (name : List Char)
    (sl : slice) (v : List Char) (b e : Int)
    (hname : token_string EB ep name = some v)
    (hsl : sl.offsets EB = some (b, e)) :
    ((name ++ sl.render).length < MAXTOKENLEN →
      lka_expand_token EB len (name ++ sl.render) ep =
        match spec_slice v.length b e with
        | none => none
        | some (B, E) =>
          if (E - B + 1).toNat + 1 ≥ len then none else some (substring v B E)) ∧
    ((name ++ sl.render).length ≥ MAXTOKENLEN →
      lka_expand_token EB len (name ++ sl.render) ep = none) ∧
    (∀ B E : Int, spec_slice v.length b e = some (B, E) →
      0 ≤ B ∧ B ≤ E ∧ E < v.length ∧
      (substring v B E).length = (E - B + 1).toNat ∧
      ∀ k : Nat, k < (E - B + 1).toNat → (substring v B E)[k]? = v[B.toNat + k]?) := by
  refine ⟨?_, ?_, ?_⟩
  · intro htok
    exact lka_expand_token_rendered EB len ep name sl v b e hname hsl htok
  · intro htok
    unfold lka_expand_token
    rw [if_pos htok]
  · intro B E hs
    obtain ⟨h0, h1, h2⟩ := spec_slice_bounds _ _ _ _ _ hs
    exact ⟨h0, h1, h2, substring_spec v B E h0 h1 h2⟩

/-- Witness of C3: `dest.user[1:3]` with `dest.user = "alice"` yields
`lic`. -/
theorem lka_expand_token_slice_witness :
    token_string 1024 ex_alice (cs "dest.user") = some (cs "alice") ∧
    (slice.range (cs "1") (cs "3")).offsets 1024 = some (1, 3) ∧
    (cs "dest.user" ++ (slice.range (cs "1") (cs "3")).render) = cs "dest.user[1:3]" ∧
    lka_expand_token 1024 1024 (cs "dest.user[1:3]") ex_alice = some (cs "lic") :=
  ⟨by decide, by decide, by decide,
    ((lka_expand_token_slice 1024 1024 ex_alice (cs "dest.user") (slice.range (cs "1") (cs "3"))
      (cs "alice") 1 3 (by decide) (by decide)).1 (by decide)).trans (by decide)⟩

set_option maxRecDepth 100000 in
/-- C3 as stated fails on two tokens. For `dest.user[00...01:3]`, 134
characters long, with `dest.user = "alice"`, the stated steps end in the
emission of `lic`, and `lka_expand_token` returns 0. For `user.directory`
with a home directory of 1023 characters and a destination of 1024 bytes,
the stated steps end in the emission of all 1023 characters, and
`lka_expand_token` returns 0. -/
theorem lka_expand_token_slice_counterexample :
    (token_string 1024 ex_alice (cs "dest.user") = some (cs "alice") ∧
      ex_long_slice.offsets 1024 = some (1, 3) ∧
      spec_slice 5 1 3 = some (1, 3) ∧
      substring (cs "alice") 1 3 = cs "lic" ∧
      (cs "dest.user" ++ ex_long_slice.render).length = 134 ∧
      lka_expand_token 1024 1024 (cs "dest.user" ++ ex_long_slice.render) ex_alice = none) ∧
    (token_string 1024 ex_long_home (cs "user.directory") = some (List.replicate 1023 'a') ∧
      slice.absent.offsets 1024 = some (0, 1024) ∧
      spec_slice 1023 0 1024 = some (0, 1022) ∧
      lka_expand_token 1024 1024 (cs "user.directory" ++ slice.absent.render) ex_long_home
        = none) := by
  refine ⟨⟨by decide, by decide, by decide, by decide, by decide, by decide⟩,
    rfl, by decide, by decide, ?_⟩
  have h := lka_expand_token_rendered 1024 1024 ex_long_home (cs "user.directory") slice.absent
    (List.replicate 1023 'a') 0 1024 rfl (by decide) (by decide)
  rw [h, List.length_replicate]
  decide
/-! ## One token in a template -/

/-- The slice rules in closed form: `begin` is made relative to the end of
the value when negative and is not clamped, `end` is made relative when
negative and clamped to the last character. -/
theorem spec_slice_closed (L b e : Int) (hL : 0 ≤ L) :
    spec_slice L b e =
      if 0 ≤ (if b < 0 then b + L else b) ∧
          (if b < 0 then b + L else b) ≤ min (L - 1) (if e < 0 then e + L - 1 else e) then
        some ((if b < 0 then b + L else b), min (L - 1) (if e < 0 then e + L - 1 else e))
      else none := by
  unfold spec_slice
  simp only [min_def]
  split_ifs <;> first
    | rfl
    | (exfalso; omega)
    | (simp only [Option.some.injEq, Prod.mk.injEq, true_and]; omega)

/-- What `lka_expand_token` copies is not empty and leaves room for a
terminator in the destination. -/
theorem lka_expand_token_length (EB len : Nat) (token x : List Char) (ep : envelope)
    (h : lka_expand_token EB len token ep = some x) :
    0 < x.length ∧ x.length + 1 < len := by
  unfold lka_expand_token at h
  split at h
  · cases h
  · split at h
    · cases h
    · split at h
      · cases h
      · rename_i v _
        rw [token_substring_spec] at h
        split at h
        · cases h
        · rename_i B E hs
          obtain ⟨h0, h1, h2⟩ := spec_slice_bounds _ _ _ _ _ hs
          split at h
          · cases h
          · rename_i hg
            cases h
            rw [(substring_spec v B E h0 h1 h2).1]
            constructor <;> omega

/-- A template that is one token `%{token}`. -/
theorem lka_expand_format_one_token (EB len : Nat) (ep : envelope) (token : List Char)
    (hlen : EB ≤ len) (h1 : '}' ∉ token) (h2 : token.length + 1 < MAXTOKENLEN) :
    lka_expand_format EB ('%' :: '{' :: (token ++ ['}'])) len ep =
      match lka_expand_token EB EB token ep with
      | none => some (0, '%' :: '{' :: (token ++ ['}']))
      | some x => some (x.length, x.map tolower) := by
  unfold lka_expand_format
  rw [if_neg (by omega)]
  have ht : ('%' :: '{' :: (token ++ ['}'])).take 2 ≠ ['~', '/'] := by simp
  simp only [ht, if_false]
  have hl : ('%' :: '{' :: (token ++ ['}'])).length = (token.length + 2) + 1 := by simp
  rw [hl]
  by_cases hEB : 0 < EB
  · rw [loop_step EB ep _ 0 _ _ [] hEB, step_token EB ep token [] h1, if_neg (by omega)]
    cases hx : lka_expand_token EB EB token ep with
    | none => rfl
    | some x =>
      obtain ⟨hx0, hx1⟩ := lka_expand_token_length EB EB token x ep hx
      have hlow : lowercase x EB = some (x.map tolower) := by
        unfold lowercase
        rw [if_neg (by omega), if_neg (by omega)]
      simp only [hlow, loop_nil, List.nil_append, Nat.zero_add, List.length_map]
      rw [if_neg (by omega), if_neg (by simp; omega)]
      simp only [List.length_map, strlcpy]
      rw [if_neg (by omega), List.take_of_length_le (by simp; omega)]
  · have hEB0 : EB = 0 := by omega
    subst hEB0
    rw [loop_full 0 ep _ 0 _ [] (by omega)]
    cases hx : lka_expand_token 0 0 token ep with
    | none => simp
    | some x =>
      have := lka_expand_token_length 0 0 token x ep hx
      omega

/-- C4, amended. For a value `v` of length `L` and a slice `[b:e]` whose two
integers `strtonum` accepts, in a token of fewer than 127 characters, let
`B = b + L` if `b < 0` and `B = b` otherwise (no clamping at 0), and
`E = min(L - 1, e + L - 1 if e < 0 else e)`. When `0 <= B <= E` and the
`E - B + 1` characters and a terminator fit `EXPAND_BUFFER`, expanding the
template `%{NAME[b:e]}` emits `lower(v)[B .. E]`; otherwise it returns 0. -/
theorem lka_expand_format_slice (EB len : Nat) (ep : envelope) (name bs es v : List Char)
    (b e : Int) (hlen : EB ≤ len)
    (hname : token_string EB ep name = some v)
    (hb : strtonum bs (-EB) EB = (b, none)) (he : strtonum es (-EB) EB = (e, none))
    (htok : (name ++ (slice.range bs es).render).length + 1 < MAXTOKENLEN) :
    lka_expand_format EB ('%' :: '{' :: (name ++ (slice.range bs es).render ++ ['}'])) len ep =
      if 0 ≤ (if b < 0 then b + (v.length : Int) else b) ∧
          (if b < 0 then b + (v.length : Int) else b)
            ≤ min ((v.length : Int) - 1) (if e < 0 then e + (v.length : Int) - 1 else e) ∧
          (min ((v.length : Int) - 1) (if e < 0 then e + (v.length : Int) - 1 else e)
            - (if b < 0 then b + (v.length : Int) else b) + 1).toNat + 1 < EB then
        some ((min ((v.length : Int) - 1) (if e < 0 then e + (v.length : Int) - 1 else e)
                - (if b < 0 then b + (v.length : Int) else b) + 1).toNat,
              substring (v.map tolower) (if b < 0 then b + (v.length : Int) else b)
                (min ((v.length : Int) - 1) (if e < 0 then e + (v.length : Int) - 1 else e)))
      else some (0, '%' :: '{' :: (name ++ (slice.range bs es).render ++ ['}'])) := by
  obtain ⟨-, -, n3⟩ := token_name_no_special EB ep name v hname
  have hbne := strtonum_ne_nil _ _ _ _ hb
  have hene := strtonum_ne_nil _ _ _ _ he
  have hbs := (strtonum_no_special _ _ _ _ hb).2.2.2
  have hes := (strtonum_no_special _ _ _ _ he).2.2.2
  have hsl : (slice.range bs es).offsets EB = some (b, e) := by
    simp [slice.offsets, hbne, hene, slice_int, hb, he]
  have hbr : '}' ∉ name ++ (slice.range bs es).render := by
    simp [slice.render, n3, hbs, hes]
  rw [lka_expand_format_one_token EB len ep _ hlen hbr htok,
    lka_expand_token_rendered EB EB ep name _ v b e hname hsl (by omega),
    spec_slice_closed _ _ _ (by omega)]
  have hE' := min_le_left ((v.length : Int) - 1) (if e < 0 then e + (v.length : Int) - 1 else e)
  generalize (if b < 0 then b + (v.length : Int) else b) = B at *
  generalize min ((v.length : Int) - 1) (if e < 0 then e + (v.length : Int) - 1 else e) = E at *
  by_cases hc : 0 ≤ B ∧ B ≤ E
  · rw [if_pos hc]
    dsimp only
    by_cases hg : (E - B + 1).toNat + 1 < EB
    · rw [if_neg (by omega), if_pos ⟨hc.1, hc.2, hg⟩]
      dsimp only
      rw [(substring_spec v B E hc.1 hc.2 (by omega)).1]
      simp only [substring, List.map_take, List.map_drop]
    · rw [if_pos (by omega), if_neg (by tauto)]
  · rw [if_neg hc, if_neg (by tauto)]

/-- Witness of C4: `%{dest.user[1:3]}` with `dest.user = "alice"` emits
`lic`, and `%{dest.user[-3:-1]}` emits `lic` as well. -/
theorem lka_expand_format_slice_witness :
    token_string 1024 ex_alice (cs "dest.user") = some (cs "alice") ∧
    strtonum (cs "1") (-1024) 1024 = (1, none) ∧ strtonum (cs "3") (-1024) 1024 = (3, none) ∧
    '%' :: '{' :: (cs "dest.user" ++ (slice.range (cs "1") (cs "3")).render ++ ['}'])
      = cs "%{dest.user[1:3]}" ∧
    lka_expand_format 1024
        ('%' :: '{' :: (cs "dest.user" ++ (slice.range (cs "1") (cs "3")).render ++ ['}']))
        1024 ex_alice
      = some (3, cs "lic") :=
  ⟨by decide, by decide, by decide, by decide,
    (lka_expand_format_slice 1024 1024 ex_alice (cs "dest.user") (cs "1") (cs "3") (cs "alice")
      1 3 (by decide) (by decide) (by decide) (by decide) (by decide)).trans (by decide)⟩

/-- C4 as stated fails on the slice `[-10:2]` of `dest.user = "alice"`:
P5 clamps `begin` to 0 and gives `ali`, and `lka_expand_format` returns 0
and leaves the template as it was, because `begin + L = -5` is negative. -/
theorem lka_expand_format_slice_counterexample :
    token_string 1024 ex_alice (cs "dest.user") = some (cs "alice") ∧
    strtonum (cs "-10") (-1024) 1024 = (-10, none) ∧
    strtonum (cs "2") (-1024) 1024 = (2, none) ∧
    spec_P5 (cs "alice") (-10) 2 = some (cs "ali") ∧
    lka_expand_format 1024 (cs "%{dest.user[-10:2]}") 1024 ex_alice
      = some (0, cs "%{dest.user[-10:2]}") := by
  decide

/-- C5, evaluated. A `%` followed by neither `%` nor `{` is copied: the
template `%x` expands to `%x` with return value 2, and `100%`, whose `%` is
the last character, expands to `100%` with return value 4. -/
theorem lka_expand_format_lone_percent :
    lka_expand_format 1024 (cs "%x") 1024 ex_alice = some (2, cs "%x") ∧
    lka_expand_format 1024 (cs "100%") 1024 ex_alice = some (4, cs "100%") := by
  decide

/-- In general, the loop body copies a `%` that is followed by neither `%`
nor `{`; its test for that case (line 629) is never reached. -/
theorem step_lone_percent (EB : Nat) (ep : envelope) (rest : List Char)
    (h1 : peek rest ≠ '%') (h2 : peek rest ≠ '{') :
    lka_expand_format_step EB ep '%' rest = some (rest, ['%']) :=
  step_literal EB ep '%' rest (fun h => h1 h.2) (Or.inr h2)
/-! ## Templates without slices -/

/-- The value the source takes for a name is the value of the table, cut
to `EXPAND_BUFFER - 1` characters for the three compound names. -/
theorem token_string_vs_spec (EB : Nat) (ep : envelope) (name : List Char) :
    (∃ v, spec_token_value ep name = some v ∧
      (token_string EB ep name = some v ∨ token_string EB ep name = some (v.take (EB - 1)))) ∨
    (spec_token_value ep name = none ∧ token_string EB ep name = none) := by
  unfold token_string spec_token_value snprintf_addr
  by_cases c1 : strcasecmp_eq "sender".toList name = true
  · simp only [c1, if_true]; exact Or.inl ⟨_, rfl, Or.inr rfl⟩
  simp only [c1, if_false]
  by_cases c2 : strcasecmp_eq "dest".toList name = true
  · simp only [c2, if_true]; exact Or.inl ⟨_, rfl, Or.inr rfl⟩
  simp only [c2, if_false]
  by_cases c3 : strcasecmp_eq "rcpt".toList name = true
  · simp only [c3, if_true]; exact Or.inl ⟨_, rfl, Or.inr rfl⟩
  simp only [c3, if_false]
  by_cases c4 : strcasecmp_eq "sender.user".toList name = true
  · simp only [c4, if_true]; exact Or.inl ⟨_, rfl, Or.inl rfl⟩
  simp only [c4, if_false]
  by_cases c5 : strcasecmp_eq "sender.domain".toList name = true
  · simp only [c5, if_true]; exact Or.inl ⟨_, rfl, Or.inl rfl⟩
  simp only [c5, if_false]
  by_cases c6 : strcasecmp_eq "user.username".toList name = true
  · simp only [c6, if_true]; exact Or.inl ⟨_, rfl, Or.inl rfl⟩
  simp only [c6, if_false]
  by_cases c7 : strcasecmp_eq "user.directory".toList name = true
  · simp only [c7, if_true]; exact Or.inl ⟨_, rfl, Or.inl rfl⟩
  simp only [c7, if_false]
  by_cases c8 : strcasecmp_eq "dest.user".toList name = true
  · simp only [c8, if_true]; exact Or.inl ⟨_, rfl, Or.inl rfl⟩
  simp only [c8, if_false]
  by_cases c9 : strcasecmp_eq "dest.domain".toList name = true
  · simp only [c9, if_true]; exact Or.inl ⟨_, rfl, Or.inl rfl⟩
  simp only [c9, if_false]
  by_cases c10 : strcasecmp_eq "rcpt.user".toList name = true
  · simp only [c10, if_true]; exact Or.inl ⟨_, rfl, Or.inl rfl⟩
  simp only [c10, if_false]
  by_cases c11 : strcasecmp_eq "rcpt.domain".toList name = true
  · simp only [c11, if_true]; exact Or.inl ⟨_, rfl, Or.inl rfl⟩
  simp only [c11, if_false]
  exact Or.inr ⟨rfl, rfl⟩

/-- A token without slice that expands yields the whole value of its
name. -/
theorem lka_expand_token_whole (EB : Nat) (ep : envelope) (name v x : List Char)
    (hv : spec_token_value ep name = some v)
    (hx : lka_expand_token EB EB name ep = some x) : x = v := by
  obtain ⟨hx0, hx1⟩ := lka_expand_token_length EB EB name x ep hx
  have hlen : name.length < MAXTOKENLEN := by
    by_contra hc
    unfold lka_expand_token at hx
    rw [if_pos (by omega)] at hx
    cases hx
  rcases token_string_vs_spec EB ep name with ⟨v0, hv0, hts⟩ | ⟨hnone, -⟩
  swap
  · rw [hnone] at hv; cases hv
  rw [hv] at hv0
  cases hv0
  have key : ∀ v' : List Char, token_string EB ep name = some v' → x = v' := by
    intro v' hts'
    have h := lka_expand_token_rendered EB EB ep name slice.absent v' 0 EB hts' rfl
      (by simpa [slice.render] using hlen)
    simp only [slice.render, List.append_nil] at h
    rw [hx, spec_slice_closed _ _ _ (by omega)] at h
    simp only [lt_irrefl, if_false, show ¬ ((EB : Int) < 0) by omega] at h
    have hE := min_le_left ((v'.length : Int) - 1) (EB : Int)
    have hE2 := min_choice ((v'.length : Int) - 1) (EB : Int)
    generalize min ((v'.length : Int) - 1) (EB : Int) = E at *
    split_ifs at h with hc
    · dsimp only at h
      split_ifs at h with hg
      simp only [Option.some.injEq] at h
      have hl := (substring_spec v' 0 E (le_refl 0) hc.2 (by omega)).1
      rw [← h] at hl
      have hEL : E = (v'.length : Int) - 1 := by
        rcases hE2 with hE2 | hE2
        · exact hE2
        · omega
      rw [h, hEL]
      unfold substring
      simp
  rcases hts with hts | hts
  · exact key _ hts
  · have hxt := key _ hts
    have hl : (v.take (EB - 1)).length + 1 < EB := by rw [← hxt]; exact hx1
    rw [hxt]
    apply List.take_of_length_le
    simp only [List.length_take] at hl
    omega
/-- The loop on a template made of well-formed pieces: when it ends with
`ret` below `EXPAND_BUFFER`, it has written what the pieces stand for. -/
theorem loop_items (EB : Nat) (ep : envelope) :
    ∀ (items : List item) (fuel ret : Nat) (tmp : List Char) (r : Nat) (t : List Char),
      (∀ i ∈ items, i.wf ep) → (render_items items).length ≤ fuel →
      lka_expand_format_loop EB ep fuel (render_items items) ret tmp = some (r, t) →
      r < EB →
      t = tmp ++ expected_items ep items ∧ r = ret + (expected_items ep items).length := by
  intro items
  induction items with
  | nil =>
    intro fuel ret tmp r t _ _ h _
    simp only [render_items, loop_nil, Option.some.injEq, Prod.mk.injEq] at h
    simp [expected_items, h.1.symm, h.2.symm]
  | cons i rest ih =>
    intro fuel ret tmp r t hwf hfuel h hr
    have hwf' : ∀ j ∈ rest, j.wf ep := fun j hj => hwf j (List.mem_cons_of_mem _ hj)
    have hi : i.wf ep := hwf i (List.mem_cons_self _ _)
    have hret : ret < EB := by
      by_contra hc
      rw [loop_full _ _ _ _ _ _ hc] at h
      simp only [Option.some.injEq, Prod.mk.injEq] at h
      omega
    cases i with
    | lit c =>
      simp only [item.wf] at hi
      simp only [render_items, item.render, List.singleton_append, List.length_cons] at h hfuel
      obtain ⟨f, rfl⟩ : ∃ f, fuel = f + 1 := ⟨fuel - 1, by omega⟩
      rw [loop_step _ _ _ _ _ _ _ hret,
        step_literal EB ep c _ (fun hc => hi hc.1) (Or.inl hi)] at h
      obtain ⟨h1, h2⟩ := ih f _ _ _ _ hwf' (by omega) h hr
      simp only [expected_items, item.expected, List.singleton_append, List.length_cons]
      exact ⟨by rw [h1]; simp, by rw [h2]; simp; omega⟩
    | percent =>
      simp only [render_items, item.render, List.cons_append, List.nil_append,
        List.length_cons] at h hfuel
      obtain ⟨f, rfl⟩ : ∃ f, fuel = f + 1 := ⟨fuel - 1, by omega⟩
      rw [loop_step _ _ _ _ _ _ _ hret, step_percent] at h
      obtain ⟨h1, h2⟩ := ih f _ _ _ _ hwf' (by omega) h hr
      simp only [expected_items, item.expected, List.singleton_append, List.length_cons]
      exact ⟨by rw [h1]; simp, by rw [h2]; simp; omega⟩
    | token name =>
      simp only [item.wf] at hi
      obtain ⟨v, hv⟩ := Option.ne_none_iff_exists'.mp hi
      have hbr : '}' ∉ name := by
        rcases token_string_vs_spec EB ep name with ⟨v0, -, hts | hts⟩ | ⟨hnone, -⟩
        · exact (token_name_no_special EB ep name _ hts).2.2
        · exact (token_name_no_special EB ep name _ hts).2.2
        · exact absurd hnone hi
      simp only [render_items, item.render, List.cons_append, List.append_assoc,
        List.singleton_append, List.length_cons, List.length_append] at h hfuel
      obtain ⟨f, rfl⟩ : ∃ f, fuel = f + 1 := ⟨fuel - 1, by omega⟩
      rw [loop_step _ _ _ _ _ _ _ hret, step_token EB ep name _ hbr] at h
      split_ifs at h
      cases hx : lka_expand_token EB EB name ep with
      | none => rw [hx] at h; cases h
      | some x =>
        rw [hx] at h
        obtain ⟨hx0, hx1⟩ := lka_expand_token_length EB EB name x ep hx
        have hxv := lka_expand_token_whole EB ep name v x hv hx
        have hlow : lowercase x EB = some (x.map tolower) := by
          unfold lowercase
          rw [if_neg (by omega), if_neg (by omega)]
        simp only [hlow] at h
        obtain ⟨h1, h2⟩ := ih f _ _ _ _ hwf' (by omega) h hr
        simp only [expected_items, item.expected, hv, Option.getD_some, List.length_append,
          List.length_map]
        subst hxv
        exact ⟨by rw [h1]; simp, by rw [h2]; simp; omega⟩

/-- C6, amended. For a template made of literal characters other than `%`,
of `%%` pairs and of `%{NAME}` tokens with a name of the table, and not
starting with `~/`: whenever `lka_expand_format` succeeds, the buffer holds
each literal unchanged, one `%` for each `%%` and the whole lower-cased
value for each token, left to right, and the value returned is the length
of that text. -/
theorem lka_expand_format_plain (EB len : Nat) (ep : envelope) (items : List item)
    (ret : Nat) (buf : List Char)
    (hlen : EB ≤ len) (hwf : ∀ i ∈ items, i.wf ep)
    (hhome : (render_items items).take 2 ≠ ['~', '/'])
    (h : lka_expand_format EB (render_items items) len ep = some (ret, buf))
    (hret : ret ≠ 0) :
    buf = expected_items ep items ∧ ret = buf.length := by
  unfold lka_expand_format at h
  rw [if_neg (by omega)] at h
  simp only [hhome, if_false] at h
  cases hloop : lka_expand_format_loop EB ep (render_items items).length (render_items items) 0 []
    with
  | none =>
    rw [hloop] at h
    simp only [Option.some.injEq, Prod.mk.injEq] at h
    exact absurd h.1.symm hret
  | some p =>
    obtain ⟨r, t⟩ := p
    rw [hloop] at h
    dsimp only at h
    by_cases hr : r ≥ EB
    · rw [if_pos hr] at h
      simp only [Option.some.injEq, Prod.mk.injEq] at h
      exact absurd h.1.symm hret
    · rw [if_neg hr] at h
      obtain ⟨h1, h2⟩ := loop_items EB ep items _ 0 [] r t hwf (le_refl _) hloop (by omega)
      simp only [List.nil_append, Nat.zero_add] at h1 h2
      have htl : ¬ t.length ≥ len := by rw [h1, ← h2]; omega
      rw [if_neg htl] at h
      simp only [Option.some.injEq, Prod.mk.injEq] at h
      have hcp : strlcpy (render_items items) t len = t := by
        unfold strlcpy
        rw [if_neg (by omega)]
        exact List.take_of_length_le (by omega)
      rw [hcp] at h
      rw [← h.2, ← h.1]
      exact ⟨h1, rfl⟩

/-- Witness of C6: `/var/mail/%{user.username}%%` for the user `alice`
expands to `/var/mail/alice%`, of length 16. -/
theorem lka_expand_format_plain_witness :
    render_items (lits "/var/mail/" ++ [item.token (cs "user.username"), item.percent])
      = cs "/var/mail/%{user.username}%%" ∧
    lka_expand_format 1024
        (render_items (lits "/var/mail/" ++ [item.token (cs "user.username"), item.percent]))
        1024 ex_alice
      = some (16, cs "/var/mail/alice%") ∧
    cs "/var/mail/alice%"
      = expected_items ex_alice
          (lits "/var/mail/" ++ [item.token (cs "user.username"), item.percent]) ∧
    16 = (cs "/var/mail/alice%").length :=
  ⟨by decide, by decide,
    lka_expand_format_plain 1024 1024 ex_alice
      (lits "/var/mail/" ++ [item.token (cs "user.username"), item.percent]) 16
      (cs "/var/mail/alice%") (by decide) (by decide) (by decide) (by decide) (by decide)⟩

/-- C6 as stated fails on the template `~/x`, three literal characters:
with the home directory `/home/alice` the expansion succeeds and yields
`/home/alice/x`, of length 13, not the three literals. -/
theorem lka_expand_format_plain_counterexample :
    render_items (lits "~/x") = cs "~/x" ∧
    (∀ i ∈ lits "~/x", i.wf ex_alice) ∧
    expected_items ex_alice (lits "~/x") = cs "~/x" ∧
    lka_expand_format 1024 (render_items (lits "~/x")) 1024 ex_alice
      = some (13, cs "/home/alice/x") := by
  decide
/-! ## The leading `~/` -/

/-- Starting the loop with `k` more bytes already written changes nothing
but the count and the prefix, as long as the count stays below
`EXPAND_BUFFER`. -/
theorem loop_shift (EB : Nat) (ep : envelope) (k : Nat) (pre : List Char) :
    ∀ (fuel : Nat) (p : List Char) (r0 : Nat) (t0 : List Char) (r : Nat) (t : List Char),
      lka_expand_format_loop EB ep fuel p r0 t0 = some (r, t) → r + k < EB →
      lka_expand_format_loop EB ep fuel p (r0 + k) (pre ++ t0) = some (r + k, pre ++ t) := by
  intro fuel
  induction fuel with
  | zero =>
    intro p r0 t0 r t h hr
    cases p with
    | nil => rw [loop_nil] at h ⊢; cases h; rfl
    | cons c rest =>
      obtain ⟨x, -, hx⟩ := loop_lockstep _ _ _ _ _ _ _ _ h
      rw [loop_zero _ _ _ _ _ _ (by omega)] at h
      cases h
  | succ fuel ih =>
    intro p r0 t0 r t h hr
    cases p with
    | nil => rw [loop_nil] at h ⊢; cases h; rfl
    | cons c rest =>
      obtain ⟨x, -, hx⟩ := loop_lockstep _ _ _ _ _ _ _ _ h
      rw [loop_step _ _ _ _ _ _ _ (by omega)] at h ⊢
      cases hs : lka_expand_format_step EB ep c rest with
      | none => rw [hs] at h; cases h
      | some pw =>
        obtain ⟨p', w⟩ := pw
        rw [hs] at h
        dsimp only at h ⊢
        have := ih p' (r0 + w.length) (t0 ++ w) r t h hr
        rw [show r0 + k + w.length = r0 + w.length + k by omega, List.append_assoc]
        exact this

/-- Conversely, a run that started with `k` more bytes and stayed below
`EXPAND_BUFFER` is the shifted image of the run without them. -/
theorem loop_unshift (EB : Nat) (ep : envelope) (k : Nat) (pre : List Char) :
    ∀ (fuel : Nat) (p : List Char) (r0 : Nat) (t0 : List Char) (r' : Nat) (t' : List Char),
      lka_expand_format_loop EB ep fuel p (r0 + k) (pre ++ t0) = some (r', t') → r' < EB →
      ∃ r t, lka_expand_format_loop EB ep fuel p r0 t0 = some (r, t) ∧
        r' = r + k ∧ t' = pre ++ t := by
  intro fuel
  induction fuel with
  | zero =>
    intro p r0 t0 r' t' h hr
    cases p with
    | nil => rw [loop_nil] at h ⊢; cases h; exact ⟨_, _, rfl, rfl, rfl⟩
    | cons c rest =>
      obtain ⟨x, -, hx⟩ := loop_lockstep _ _ _ _ _ _ _ _ h
      rw [loop_zero _ _ _ _ _ _ (by omega)] at h
      cases h
  | succ fuel ih =>
    intro p r0 t0 r' t' h hr
    cases p with
    | nil => rw [loop_nil] at h ⊢; cases h; exact ⟨_, _, rfl, rfl, rfl⟩
    | cons c rest =>
      obtain ⟨x, -, hx⟩ := loop_lockstep _ _ _ _ _ _ _ _ h
      rw [loop_step _ _ _ _ _ _ _ (by omega)] at h
      rw [loop_step _ _ _ _ _ _ _ (by omega)]
      cases hs : lka_expand_format_step EB ep c rest with
      | none => rw [hs] at h; cases h
      | some pw =>
        obtain ⟨p', w⟩ := pw
        rw [hs] at h
        dsimp only at h ⊢
        rw [show r0 + k + w.length = r0 + w.length + k by omega, List.append_assoc] at h
        exact ih p' (r0 + w.length) (t0 ++ w) r' t' h hr

/-- C7. For a template `~/rest` and an envelope with MDA home directory
`d`, let `X` be what the expansion loop writes when it scans `rest` on its
own. `lka_expand_format` succeeds exactly when `d`, `/` and `X` together
are shorter than `EXPAND_BUFFER`, and the buffer then holds `d`, `/` and
`X`, with `d` copied as it is; it returns 0 when the scan of `rest` returns
0. Wherever the loop stands at the characters `~/`, it copies the two
characters and goes on after them. -/
theorem lka_expand_format_home (EB len : Nat) (ep : envelope) (rest : List Char)
    (hlen : EB ≤ len) :
    (∀ (r : Nat) (X : List Char),
      lka_expand_format_loop EB ep rest.length rest 0 [] = some (r, X) →
      (ep.mda.user.directory.length + 1 + X.length < EB →
        lka_expand_format EB ('~' :: '/' :: rest) len ep
          = some ((ep.mda.user.directory ++ '/' :: X).length,
                  ep.mda.user.directory ++ '/' :: X)) ∧
      (¬ ep.mda.user.directory.length + 1 + X.length < EB →
        lka_expand_format EB ('~' :: '/' :: rest) len ep = some (0, '~' :: '/' :: rest))) ∧
    (lka_expand_format_loop EB ep rest.length rest 0 [] = none →
      lka_expand_format EB ('~' :: '/' :: rest) len ep = some (0, '~' :: '/' :: rest)) ∧
    (∀ (fuel ret : Nat) (q tmp : List Char), ret + 1 < EB →
      lka_expand_format_loop EB ep (fuel + 2) ('~' :: '/' :: q) ret tmp
        = lka_expand_format_loop EB ep fuel q (ret + 2) (tmp ++ ['~', '/'])) := by
  have hfmt : lka_expand_format EB ('~' :: '/' :: rest) len ep =
      if ep.mda.user.directory.length + 1 ≥ EB then some (0, '~' :: '/' :: rest)
      else
        match lka_expand_format_loop EB ep rest.length rest (0 + (ep.mda.user.directory.length + 1))
            ((ep.mda.user.directory ++ ['/']) ++ []) with
        | none => some (0, '~' :: '/' :: rest)
        | some (ret, tmpbuf) =>
          if ret ≥ EB then some (0, '~' :: '/' :: rest)
          else if tmpbuf.length ≥ len then some (0, strlcpy ('~' :: '/' :: rest) tmpbuf len)
          else some (tmpbuf.length, strlcpy ('~' :: '/' :: rest) tmpbuf len) := by
    unfold lka_expand_format
    rw [if_neg (by omega)]
    simp only [List.take, if_true, List.drop]
    by_cases hd : ep.mda.user.directory.length + 1 ≥ EB
    · simp only [hd, if_true]
    · simp only [hd, if_false]
      rw [List.take_of_length_le (by simp; omega)]
      simp only [Nat.zero_add, List.append_nil]
  have hbad : ∀ o : Option (Nat × List Char),
      (∀ r' t', o = some (r', t') → EB ≤ r') →
      (match o with
        | none => some (0, '~' :: '/' :: rest)
        | some (ret, tmpbuf) =>
          if ret ≥ EB then some (0, '~' :: '/' :: rest)
          else if tmpbuf.length ≥ len then some (0, strlcpy ('~' :: '/' :: rest) tmpbuf len)
          else some (tmpbuf.length, strlcpy ('~' :: '/' :: rest) tmpbuf len))
        = some (0, '~' :: '/' :: rest) := by
    intro o ho
    cases o with
    | none => rfl
    | some p =>
      obtain ⟨r', t'⟩ := p
      dsimp only
      rw [if_pos (ho r' t' rfl)]
  refine ⟨?_, ?_, ?_⟩
  · intro r X hX
    obtain ⟨x, hx1, hx2⟩ := loop_lockstep _ _ _ _ _ _ _ _ hX
    simp only [List.nil_append, Nat.zero_add] at hx1 hx2
    subst hx1
    constructor
    · intro hfit
      rw [hfmt, if_neg (by omega),
        loop_shift EB ep _ _ _ _ _ _ _ _ hX (by omega)]
      dsimp only
      have hl : (ep.mda.user.directory ++ ['/'] ++ X).length
          = r + (ep.mda.user.directory.length + 1) := by
        simp only [List.length_append, List.length_cons, List.length_nil]; omega
      rw [if_neg (by omega), hl, if_neg (by omega)]
      have hcp : strlcpy ('~' :: '/' :: rest) (ep.mda.user.directory ++ ['/'] ++ X) len
          = ep.mda.user.directory ++ ['/'] ++ X := by
        unfold strlcpy
        rw [if_neg (by omega)]
        exact List.take_of_length_le (by omega)
      rw [hcp]
      simp only [List.append_assoc, List.singleton_append, List.length_append, List.length_cons]
      congr 2
      omega
    · intro hfit
      rw [hfmt]
      by_cases hd : ep.mda.user.directory.length + 1 ≥ EB
      · rw [if_pos hd]
      · rw [if_neg hd]
        apply hbad
        intro r' t' hs
        by_contra hc
        obtain ⟨r2, t2, h2, h3, -⟩ := loop_unshift EB ep _ _ _ _ _ _ _ _ hs (by omega)
        rw [hX] at h2
        cases h2
        omega
  · intro hnone
    rw [hfmt]
    by_cases hd : ep.mda.user.directory.length + 1 ≥ EB
    · rw [if_pos hd]
    · rw [if_neg hd]
      apply hbad
      intro r' t' hs
      by_contra hc
      obtain ⟨r2, t2, h2, -, -⟩ := loop_unshift EB ep _ _ _ _ _ _ _ _ hs (by omega)
      rw [hnone] at h2
      cases h2
  · intro fuel ret q tmp hret
    rw [loop_step _ _ _ _ _ _ _ (by omega),
      step_literal EB ep '~' _ (fun h => absurd h.1 (by decide)) (Or.inl (by decide))]
    dsimp only
    rw [loop_step _ _ _ _ _ _ _ (by simpa using hret),
      step_literal EB ep '/' _ (fun h => absurd h.1 (by decide)) (Or.inl (by decide))]
    simp

/-- Witness of C7: `~/Maildir` for the home directory `/home/alice` expands
to `/home/alice/Maildir`, and `a~/b` keeps its `~/`. -/
theorem lka_expand_format_home_witness :
    lka_expand_format_loop 1024 ex_alice (cs "Maildir").length (cs "Maildir") 0 []
      = some (7, cs "Maildir") ∧
    lka_expand_format 1024 ('~' :: '/' :: cs "Maildir") 1024 ex_alice
      = some (19, cs "/home/alice/Maildir") ∧
    lka_expand_format 1024 (cs "a~/b") 1024 ex_alice = some (4, cs "a~/b") :=
  ⟨by decide,
   ((lka_expand_format_home 1024 1024 ex_alice (cs "Maildir") (by decide)).1 7 (cs "Maildir")
      (by decide)).1 (by decide),
   by decide⟩
/-! ## The budget of the expansion loop -/

/-- An iteration of the loop leaves fewer characters to scan. -/
theorem step_length (EB : Nat) (ep : envelope) (c : Char) (rest p w : List Char)
    (h : lka_expand_format_step EB ep c rest = some (p, w)) : p.length ≤ rest.length := by
  unfold lka_expand_format_step at h
  split_ifs at h
  · cases h; simp
  · cases h; exact le_refl _
  · split at h
    · cases h
    · split_ifs at h
      dsimp only at h
      split at h
      · cases h
      · split at h
        · cases h
        · cases h; simp

/-- The result of the loop does not depend on its budget once the budget
covers the characters to scan: the budget `pbuf.length` that
`lka_expand_format` gives it is never exhausted. -/
theorem loop_fuel_irrelevant (EB : Nat) (ep : envelope) :
    ∀ (n : Nat) (p : List Char), p.length ≤ n → ∀ (f1 f2 ret : Nat) (tmp : List Char),
      n ≤ f1 → n ≤ f2 →
      lka_expand_format_loop EB ep f1 p ret tmp = lka_expand_format_loop EB ep f2 p ret tmp := by
  intro n
  induction n with
  | zero =>
    intro p hp f1 f2 ret tmp _ _
    have : p = [] := List.length_eq_zero.mp (by omega)
    subst this
    rw [loop_nil, loop_nil]
  | succ n ih =>
    intro p hp f1 f2 ret tmp h1 h2
    cases p with
    | nil => rw [loop_nil, loop_nil]
    | cons c rest =>
      by_cases hret : ret < EB
      · obtain ⟨g1, rfl⟩ : ∃ g, f1 = g + 1 := ⟨f1 - 1, by omega⟩
        obtain ⟨g2, rfl⟩ : ∃ g, f2 = g + 1 := ⟨f2 - 1, by omega⟩
        rw [loop_step _ _ _ _ _ _ _ hret, loop_step _ _ _ _ _ _ _ hret]
        cases hs : lka_expand_format_step EB ep c rest with
        | none => rfl
        | some pw =>
          obtain ⟨p', w⟩ := pw
          have hl := step_length EB ep c rest p' w hs
          simp only [List.length_cons] at hp
          exact ih p' (by omega) g1 g2 _ _ (by omega) (by omega)
      · rw [loop_full _ _ _ _ _ _ hret, loop_full _ _ _ _ _ _ hret]

/-! ## The address normaliser -/

theorem ofNat_toNat_small (n : Nat) (h : n < 55296) : (Char.ofNat n).toNat = n := by
  have hv : n.isValidChar := Or.inl h
  simp only [Char.ofNat, hv, dite_true]
  rfl

/-- The value of `tolower` is never an upper-case letter. -/
theorem tolower_not_upper (c : Char) :
    ¬ (65 ≤ (tolower c).toNat ∧ (tolower c).toNat ≤ 90) := by
  unfold tolower
  split_ifs with h
  · rw [ofNat_toNat_small _ (by omega)]
    omega
  · exact h

/-- Only `+` is mapped to `+` by `tolower`. -/
theorem tolower_eq_plus (c : Char) : tolower c = '+' ↔ c = '+' := by
  unfold tolower
  split_ifs with h
  · constructor
    · intro hc
      have := congrArg Char.toNat hc
      rw [ofNat_toNat_small _ (by omega)] at this
      have h43 : ('+' : Char).toNat = 43 := by decide
      omega
    · intro hc
      subst hc
      revert h
      decide
  · exact Iff.rfl

/-- A string that holds a character splits at its first occurrence. -/
theorem first_split (c : Char) : ∀ s : List Char, c ∈ s →
    ∃ a b, s = a ++ c :: b ∧ c ∉ a := by
  intro s
  induction s with
  | nil => intro hm; simp at hm
  | cons x xs ih =>
    intro hm
    by_cases hx : x = c
    · exact ⟨[], xs, by simp [hx], by simp⟩
    · have hm' : c ∈ xs := by
        rcases List.mem_cons.mp hm with h1 | h1
        · exact absurd h1.symm hx
        · exact h1
      obtain ⟨a, b, hab, ha⟩ := ih hm'
      exact ⟨x :: a, b, by simp [hab], by
        intro hc
        rcases List.mem_cons.mp hc with h1 | h1
        · exact hx h1.symm
        · exact ha h1⟩

theorem strchr_none_iff (c : Char) (s : List Char) : strchr s c = none ↔ c ∉ s := by
  constructor
  · intro h hm
    obtain ⟨a, b, hab, ha⟩ := first_split c s hm
    rw [hab, strchr_append c b a ha] at h
    cases h
  · exact strchr_none_of_not_mem c s

/-- What follows the first occurrence of a character. -/
theorem drop_after (c : Char) (a b : List Char) : (a ++ c :: b).drop (a.length + 1) = b := by
  have e : a ++ c :: b = (a ++ [c]) ++ b := by simp
  rw [e]
  exact List.drop_left' (by simp)

theorem not_mem_map_tolower_plus (a : List Char) (ha : '+' ∉ a) : '+' ∉ a.map tolower := by
  intro hm
  obtain ⟨x, hx, hxe⟩ := List.mem_map.mp hm
  exact ha (((tolower_eq_plus x).mp hxe) ▸ hx)

/-- C11. For a mail address whose local-part fits a user buffer of `len`
bytes, `mailaddr_to_username` yields the lower-cased local-part cut just
before its first `+`, the whole lower-cased local-part when it has none;
the result holds no `+` and no upper-case ASCII letter. -/
theorem mailaddr_to_username_spec (maddr : mailaddr) (len : Nat)
    (hfit : maddr.user.length < len) :
    (∀ a b : List Char, maddr.user = a ++ '+' :: b → '+' ∉ a →
      mailaddr_to_username maddr len = .ok (a.map tolower)) ∧
    ('+' ∉ maddr.user → mailaddr_to_username maddr len = .ok (maddr.user.map tolower)) ∧
    (∃ r, mailaddr_to_username maddr len = .ok r) ∧
    (∀ r, mailaddr_to_username maddr len = .ok r →
      '+' ∉ r ∧ ∀ c ∈ r, ¬ (65 ≤ c.toNat ∧ c.toNat ≤ 90)) := by
  have hlow : lowercase maddr.user len = some (maddr.user.map tolower) := by
    unfold lowercase
    rw [if_neg (by omega), if_neg (by omega)]
  have h1 : ∀ a b : List Char, maddr.user = a ++ '+' :: b → '+' ∉ a →
      mailaddr_to_username maddr len = .ok (a.map tolower) := by
    intro a b hab ha
    have hm : maddr.user.map tolower = a.map tolower ++ '+' :: b.map tolower := by
      rw [hab, List.map_append, List.map_cons]
      rfl
    unfold mailaddr_to_username xlowercase
    rw [hlow]
    dsimp only
    rw [hm, strchr_append '+' _ _ (not_mem_map_tolower_plus a ha)]
    dsimp only
    rw [List.take_left' rfl]
  have h2 : '+' ∉ maddr.user → mailaddr_to_username maddr len = .ok (maddr.user.map tolower) := by
    intro hp
    unfold mailaddr_to_username xlowercase
    rw [hlow]
    dsimp only
    rw [strchr_none_of_not_mem _ _ (not_mem_map_tolower_plus _ hp)]
  have hup : ∀ s : List Char, ∀ c ∈ s.map tolower, ¬ (65 ≤ c.toNat ∧ c.toNat ≤ 90) := by
    intro s c hc
    obtain ⟨x, -, hxe⟩ := List.mem_map.mp hc
    rw [← hxe]
    exact tolower_not_upper x
  have h4 : ∀ r, mailaddr_to_username maddr len = .ok r →
      '+' ∉ r ∧ ∀ c ∈ r, ¬ (65 ≤ c.toNat ∧ c.toNat ≤ 90) := by
    intro r hr
    by_cases hp : '+' ∈ maddr.user
    · obtain ⟨a, b, hab, ha⟩ := first_split '+' _ hp
      rw [h1 a b hab ha] at hr
      cases hr
      exact ⟨not_mem_map_tolower_plus a ha, hup a⟩
    · rw [h2 hp] at hr
      cases hr
      exact ⟨not_mem_map_tolower_plus _ hp, hup _⟩
  refine ⟨h1, h2, ?_, h4⟩
  by_cases hp : '+' ∈ maddr.user
  · obtain ⟨a, b, hab, ha⟩ := first_split '+' _ hp
    exact ⟨_, h1 a b hab ha⟩
  · exact ⟨_, h2 hp⟩

/-- Witness of C11: `Gilles+Hackers` gives `gilles`. -/
theorem mailaddr_to_username_spec_witness :
    (cs "Gilles+Hackers").length < 128 ∧
    mailaddr_to_username ⟨cs "Gilles+Hackers", cs "ex"⟩ 128 = .ok (cs "gilles") :=
  ⟨by decide,
    (mailaddr_to_username_spec ⟨cs "Gilles+Hackers", cs "ex"⟩ 128 (by decide)).1
      (cs "Gilles") (cs "Hackers") rfl (by decide)⟩

/-- C12. `mailaddr_tag` returns NULL exactly when the local-part holds no
`+`; otherwise it returns what follows the first `+`, without its leading
`.` characters and in its original case, possibly empty. -/
theorem mailaddr_tag_spec (maddr : mailaddr) :
    (mailaddr_tag maddr = none ↔ '+' ∉ maddr.user) ∧
    (∀ a b : List Char, maddr.user = a ++ '+' :: b → '+' ∉ a →
      mailaddr_tag maddr = some (b.dropWhile (fun c => decide (c = '.')))) ∧
    mailaddr_tag ⟨cs "u+.work", maddr.domain⟩ = some (cs "work") ∧
    mailaddr_tag ⟨cs "u", maddr.domain⟩ = none ∧
    mailaddr_tag ⟨cs "u+...", maddr.domain⟩ = some [] := by
  have h2 : ∀ a b : List Char, maddr.user = a ++ '+' :: b → '+' ∉ a →
      mailaddr_tag maddr = some (b.dropWhile (fun c => decide (c = '.'))) := by
    intro a b hab ha
    unfold mailaddr_tag
    rw [hab, strchr_append '+' b a ha]
    dsimp only
    rw [drop_after]
  refine ⟨?_, h2, rfl, rfl, rfl⟩
  constructor
  · intro h hp
    obtain ⟨a, b, hab, ha⟩ := first_split '+' _ hp
    rw [h2 a b hab ha] at h
    cases h
  · intro hp
    unfold mailaddr_tag
    rw [strchr_none_of_not_mem _ _ hp]

/-- Witness of C12: the tag of `bob+.Work.x` is `Work.x`. -/
theorem mailaddr_tag_spec_witness :
    mailaddr_tag ⟨cs "bob+.Work.x", cs "example.com"⟩ = some (cs "Work.x") :=
  ((mailaddr_tag_spec ⟨cs "bob+.Work.x", cs "example.com"⟩).2.1
    (cs "bob") (cs ".Work.x") rfl (by decide)).trans (by decide)

/-! ## Single indexes -/

/-- A template `%{token}` whose token has no room in the token buffer
makes `lka_expand_format` return 0. -/
theorem lka_expand_format_long_token (EB len : Nat) (ep : envelope) (token : List Char)
    (hlen : EB ≤ len) (h1 : '}' ∉ token) (h2 : token.length + 1 ≥ MAXTOKENLEN) :
    lka_expand_format EB ('%' :: '{' :: (token ++ ['}'])) len ep
      = some (0, '%' :: '{' :: (token ++ ['}'])) := by
  unfold lka_expand_format
  rw [if_neg (by omega)]
  have ht : ('%' :: '{' :: (token ++ ['}'])).take 2 ≠ ['~', '/'] := by simp
  simp only [ht, if_false]
  have hl : ('%' :: '{' :: (token ++ ['}'])).length = (token.length + 2) + 1 := by simp
  rw [hl]
  by_cases hEB : 0 < EB
  · rw [loop_step EB ep _ 0 _ _ [] hEB, step_token EB ep token [] h1, if_pos h2]
  · rw [loop_full EB ep _ 0 _ [] (by omega)]
    dsimp only
    rw [if_pos (by omega)]

/-- The slice rules on a single negative index: `begin` becomes `N + L`
and `end` becomes `N + L - 1`, so the expansion fails. -/
theorem spec_slice_negative_index (L N : Int) (hL : 0 ≤ L) (hN : N < 0) :
    spec_slice L N N = none := by
  rw [spec_slice_closed L N N hL]
  simp only [hN, if_true]
  rw [if_neg]
  intro h
  have := min_le_right (L - 1) (N + L - 1)
  omega

/-- The slice rules on a single index inside the value. -/
theorem spec_slice_index (L N : Int) (h0 : 0 ≤ N) (h1 : N < L) :
    spec_slice L N N = some (N, N) := by
  rw [spec_slice_closed L N N (by omega)]
  have hn : ¬ N < 0 := by omega
  simp only [hn, if_false]
  have hm : min (L - 1) N = N := min_eq_right (by omega)
  rw [hm, if_pos ⟨h0, le_refl _⟩]

/-- One character of a string as a substring. -/
theorem substring_one (v : List Char) (N : Int) (h0 : 0 ≤ N) (h1 : N < v.length) :
    ∃ c, v[N.toNat]? = some c ∧ substring v N N = [c] := by
  have hlt : N.toNat < v.length := by omega
  refine ⟨v[N.toNat], by simp [hlt], ?_⟩
  unfold substring
  have e : (N - N + 1).toNat = 1 := by simp
  rw [e, List.drop_eq_getElem_cons hlt]
  rfl

/-- C20. For a name of the table with value `v` of length `L` and a single
index whose text `strtonum` reads as `N`: when `N` is negative the
expansion of `NAME[N]` fails, in `lka_expand_token` and in
`lka_expand_format`, because `begin` becomes `N + L` and `end` becomes
`N + L - 1`; when `0 <= N < L`, the token is shorter than `MAXTOKENLEN` and
the destination has room for one character and a terminator, the expansion
is exactly the character at position `N`. -/
theorem lka_expand_token_index (EB len : Nat) (ep : envelope) (name ns v : List Char)
    (N : Int) (hname : token_string EB ep name = some v)
    (hn : strtonum ns (-EB) EB = (N, none)) :
    (N < 0 →
      lka_expand_token EB len (name ++ (slice.index ns).render) ep = none ∧
      (EB ≤ len →
        lka_expand_format EB ('%' :: '{' :: (name ++ (slice.index ns).render ++ ['}'])) len ep
          = some (0, '%' :: '{' :: (name ++ (slice.index ns).render ++ ['}']))) ∧
      ((if N < 0 then N + (v.length : Int) else N) = N + v.length ∧
        (if N < 0 then N + ((v.length : Int) - 1) else N) = N + v.length - 1 ∧
        token_substring len v N N = none)) ∧
    (0 ≤ N → N < v.length → (name ++ (slice.index ns).render).length < MAXTOKENLEN →
      2 < len →
      ∃ c, v[N.toNat]? = some c ∧
        lka_expand_token EB len (name ++ (slice.index ns).render) ep = some [c]) := by
  have hsl : (slice.index ns).offsets EB = some (N, N) := by
    simp [slice.offsets, slice_int, hn]
  obtain ⟨-, -, n3⟩ := token_name_no_special EB ep name v hname
  have hns := (strtonum_no_special _ _ _ _ hn).2.2.2
  have hbr : '}' ∉ name ++ (slice.index ns).render := by
    simp [slice.render, n3, hns]
  constructor
  · intro hneg
    have htok : lka_expand_token EB len (name ++ (slice.index ns).render) ep = none := by
      by_cases hl : (name ++ (slice.index ns).render).length < MAXTOKENLEN
      · rw [lka_expand_token_rendered EB len ep name _ v N N hname hsl hl,
          spec_slice_negative_index _ _ (by omega) hneg]
      · unfold lka_expand_token
        rw [if_pos (by omega)]
    refine ⟨htok, ?_, ?_⟩
    · intro hlen
      by_cases hl : (name ++ (slice.index ns).render).length + 1 < MAXTOKENLEN
      · rw [lka_expand_format_one_token EB len ep _ hlen hbr hl,
          lka_expand_token_rendered EB EB ep name _ v N N hname hsl (by omega),
          spec_slice_negative_index _ _ (by omega) hneg]
      · exact lka_expand_format_long_token EB len ep _ hlen hbr (by omega)
    · refine ⟨by rw [if_pos hneg], by rw [if_pos hneg]; omega, ?_⟩
      rw [token_substring_spec, spec_slice_negative_index _ _ (by omega) hneg]
  · intro h0 h1 hl hlen
    obtain ⟨c, hc, hsub⟩ := substring_one v N h0 h1
    refine ⟨c, hc, ?_⟩
    rw [lka_expand_token_rendered EB len ep name _ v N N hname hsl hl,
      spec_slice_index _ _ h0 h1]
    dsimp only
    have e : (N - N + 1).toNat = 1 := by simp
    rw [e, if_neg (by omega), hsub]

/-- Witness of C20: with `dest.user = "alice"`, `dest.user[-1]` fails and
`dest.user[4]` is `e`. -/
theorem lka_expand_token_index_witness :
    lka_expand_token 1024 1024 (cs "dest.user[-1]") ex_alice = none ∧
    lka_expand_format 1024 (cs "%{dest.user[-1]}") 1024 ex_alice
      = some (0, cs "%{dest.user[-1]}") ∧
    (∃ c, (cs "alice")[(4 : Int).toNat]? = some c ∧
      lka_expand_token 1024 1024 (cs "dest.user[4]") ex_alice = some [c]) ∧
    lka_expand_token 1024 1024 (cs "dest.user[4]") ex_alice = some (cs "e") :=
  ⟨((lka_expand_token_index 1024 1024 ex_alice (cs "dest.user") (cs "-1") (cs "alice") (-1)
      (by decide) (by decide)).1 (by decide)).1,
   ((lka_expand_token_index 1024 1024 ex_alice (cs "dest.user") (cs "-1") (cs "alice") (-1)
      (by decide) (by decide)).1 (by decide)).2.1 (by decide),
   (lka_expand_token_index 1024 1024 ex_alice (cs "dest.user") (cs "4") (cs "alice") 4
      (by decide) (by decide)).2 (by decide) (by decide) (by decide) (by decide),
   by decide⟩

/-! ## Submission -/

theorem strlcpy_fit (dst src : List Char) (size : Nat) (h : src.length < size) :
    strlcpy dst src size = src := by
  unfold strlcpy
  rw [if_neg (by omega)]
  exact List.take_of_length_le (by omega)

/-- C13. For a rule with action relay or relay-via and an Address node,
`lka_submit` appends exactly one envelope at the tail of the delivery list
and changes nothing else of the session. The envelope is the template with
type MTA, the node's address as `dest`, the rule's relay host and the
rule's expiration; `sender.user` is the rule's "as" user when the rule has
an "as" identity with a non-empty user and the template's otherwise, and
likewise and independently for `sender.domain`. The "as" fields are copied
by `strlcpy`, whole when they fit the sender's buffers. -/
theorem lka_submit_relay (e : env) (lks : lka_session) (r : rule) (xn : expandnode)
    (hact : r.r_action = action_type.A_RELAY ∨ r.r_action = action_type.A_RELAYVIA)
    (htype : xn.type = expand_type.EXPAND_ADDRESS) :
    lka_submit e lks (some r) (some xn)
      = .ok { lks with deliverylist := lks.deliverylist ++
          [{ lks.envelope with
              expire := r.r_qexpire
              type := delivery_type.D_MTA
              dest := xn.u.mailaddr
              mta := { relay := r.r_value_relayhost }
              sender :=
                { user :=
                    match r.r_as with
                    | some a =>
                      if a.user ≠ [] then
                        strlcpy lks.envelope.sender.user a.user e.sizeof_sender_user
                      else lks.envelope.sender.user
                    | none => lks.envelope.sender.user
                  domain :=
                    match r.r_as with
                    | some a =>
                      if a.domain ≠ [] then
                        strlcpy lks.envelope.sender.domain a.domain e.sizeof_sender_domain
                      else lks.envelope.sender.domain
                    | none => lks.envelope.sender.domain } }] } ∧
    (∀ a : mailaddr, r.r_as = some a →
      (a.user.length < e.sizeof_sender_user →
        strlcpy lks.envelope.sender.user a.user e.sizeof_sender_user = a.user) ∧
      (a.domain.length < e.sizeof_sender_domain →
        strlcpy lks.envelope.sender.domain a.domain e.sizeof_sender_domain = a.domain)) := by
  constructor
  · have henv : lka_submit_envelope e lks (some r) (some xn) = .ok (some
        { lks.envelope with
              expire := r.r_qexpire
              type := delivery_type.D_MTA
              dest := xn.u.mailaddr
              mta := { relay := r.r_value_relayhost }
              sender :=
                { user :=
                    match r.r_as with
                    | some a =>
                      if a.user ≠ [] then
                        strlcpy lks.envelope.sender.user a.user e.sizeof_sender_user
                      else lks.envelope.sender.user
                    | none => lks.envelope.sender.user
                  domain :=
                    match r.r_as with
                    | some a =>
                      if a.domain ≠ [] then
                        strlcpy lks.envelope.sender.domain a.domain e.sizeof_sender_domain
                      else lks.envelope.sender.domain
                    | none => lks.envelope.sender.domain } }) := by
      unfold lka_submit_envelope
      dsimp only
      rcases hact with hact | hact <;> rw [hact] <;> dsimp only <;>
        rw [if_neg (by rw [htype]; simp)] <;>
        (cases r.r_as with
         | none => rfl
         | some a =>
           dsimp only
           by_cases hu : a.user = [] <;> by_cases hd : a.domain = [] <;> simp [hu, hd])
    unfold lka_submit
    rw [henv]
  · intro a _
    exact ⟨strlcpy_fit _ _ _, strlcpy_fit _ _ _⟩

/-- Witness of C13: relaying `ann@relay.example` as `noreply` appends one
envelope whose sender is `noreply@openbsd.org`. -/
theorem lka_submit_relay_witness :
    (ex_rule_relay_as.r_action = action_type.A_RELAY ∨
      ex_rule_relay_as.r_action = action_type.A_RELAYVIA) ∧
    ex_ann_node.type = expand_type.EXPAND_ADDRESS ∧
    lka_submit ex_env (lka_session_init ex_env (ex_ss "list" "virt.example"))
        (some ex_rule_relay_as) (some ex_ann_node)
      = .ok { lka_session_init ex_env (ex_ss "list" "virt.example") with
          deliverylist :=
            [{ ex_relayed "ann" with sender := ⟨cs "noreply", cs "openbsd.org"⟩ }] } :=
  ⟨Or.inr rfl, rfl,
    (lka_submit_relay ex_env (lka_session_init ex_env (ex_ss "list" "virt.example"))
      ex_rule_relay_as ex_ann_node (Or.inr rfl) rfl).1.trans rfl⟩

/-- The local branch of `lka_submit` in terms of its pieces. -/
theorem lka_submit_envelope_local (e : env) (lks : lka_session) (r : rule) (xn : expandnode)
    (hact : local_action r.r_action) :
    lka_submit_envelope e lks (some r) (some xn) =
      match find_ancestor xn expand_type.EXPAND_ADDRESS with
      | none => .error Fault.fatalx
      | some anc =>
        match submit_username e lks xn with
        | none => .error Fault.fatalx
        | some key =>
          if (e.table_lookup (e.table_findbyname "<getpwnam>".toList) key).1 ≤ 0 then .ok none
          else
            match (e.table_lookup (e.table_findbyname "<getpwnam>".toList) key).2 with
            | none => .error Fault.null_deref
            | some tu =>
              match submit_filled e lks r xn anc tu with
              | none => .error Fault.fatalx
              | some ep =>
                match lka_expand_format e.EXPAND_BUFFER ep.mda.buffer e.sizeof_mda_buffer ep with
                | none => .error Fault.fatalx
                | some (ret, buffer) =>
                  if ret = 0 then .ok none
                  else .ok (some { ep with mda := { ep.mda with buffer := buffer } }) := by
  unfold lka_submit_envelope lka_find_ancestor submit_username submit_filled
  dsimp only
  cases hfa : find_ancestor xn expand_type.EXPAND_ADDRESS with
  | none => rcases hact with h | h | h | h <;> rw [h]
  | some anc =>
    rcases hact with h | h | h | h <;> rw [h] <;> dsimp only <;>
      by_cases hal : (xn.type = expand_type.EXPAND_FILTER ∨ xn.type = expand_type.EXPAND_FILENAME) ∧
            xn.n.alias_ ≠ 0 <;>
      [simp only [if_pos hal]; simp only [if_neg hal];
       simp only [if_pos hal]; simp only [if_neg hal];
       simp only [if_pos hal]; simp only [if_neg hal];
       simp only [if_pos hal]; simp only [if_neg hal]]
    all_goals
      cases hu : find_ancestor xn expand_type.EXPAND_USERNAME <;> try rfl
    all_goals try simp only [Option.map_some']
    all_goals
      by_cases h1 : xn.type = expand_type.EXPAND_FILENAME <;>
      by_cases h2 : xn.type = expand_type.EXPAND_FILTER <;>
      by_cases h3 : xn.type = expand_type.EXPAND_USERNAME <;>
      simp only [h1, h2, h3, if_true, if_false] <;> try rfl

/-! ## Local deliveries -/

/-- The loop of `lka_find_ancestor` finds the nearest node of the type on
the parent chain. -/
theorem find_ancestor_nearest (t : expand_type) :
    ∀ xn : expandnode, find_ancestor xn t = nearest xn t := by
  intro xn
  induction xn with
  | root n =>
    unfold find_ancestor nearest expandnode.chain
    by_cases h : n.type = t
    · simp [h, expandnode.type, expandnode.n]
    · simp [h, expandnode.type, expandnode.n]
  | child n p ih =>
    unfold find_ancestor nearest expandnode.chain
    by_cases h : n.type = t
    · simp [h, expandnode.type, expandnode.n]
    · have ih2 : find_ancestor p t = List.find? (fun n => decide (n.type = t)) p.chain := ih
      simp [h, expandnode.type, expandnode.n, ih2]

/-- A call of `lka_submit` that appends an envelope has built it. -/
theorem lka_submit_appended (e : env) (lks : lka_session) (rule : Option rule)
    (xn : Option expandnode) (ep : envelope)
    (h : lka_submit e lks rule xn
      = .ok { lks with deliverylist := lks.deliverylist ++ [ep] }) :
    lka_submit_envelope e lks rule xn = .ok (some ep) := by
  unfold lka_submit at h
  split at h
  · cases h
  · have h2 := congrArg lka_session.deliverylist (Except.ok.inj h)
    have h3 := congrArg List.length h2
    simp [set_error] at h3
  · rename_i ep2 heq
    have h2 := congrArg lka_session.deliverylist (Except.ok.inj h)
    simp only [List.append_cancel_left_eq, List.cons.injEq, and_true] at h2
    rw [heq, h2]

/-- C17. A local-action call of `lka_submit` that has found its Address
node and the name to look up: when the `<getpwnam>` lookup returns 0 or
less, and when the format expansion of the MDA buffer returns 0, the
session afterwards is the session before with `F_ERROR` set and code 451,
its delivery list as it was; otherwise it is the session before with one
envelope appended at the tail of the delivery list, flags and code as they
were. -/
theorem lka_submit_local_outcome (e : env) (lks : lka_session) (r : rule)
    (xn anc : expandnode) (key : List Char)
    (hact : local_action r.r_action)
    (hanc : find_ancestor xn expand_type.EXPAND_ADDRESS = some anc)
    (hkey : submit_username e lks xn = some key) :
    ((e.table_lookup (e.table_findbyname "<getpwnam>".toList) key).1 ≤ 0 →
      lka_submit e lks (some r) (some xn) = .ok (set_error lks 451)) ∧
    (∀ (tu : userinfo) (ep : envelope) (buffer : List Char),
      0 < (e.table_lookup (e.table_findbyname "<getpwnam>".toList) key).1 →
      (e.table_lookup (e.table_findbyname "<getpwnam>".toList) key).2 = some tu →
      submit_filled e lks r xn anc tu = some ep →
      lka_expand_format e.EXPAND_BUFFER ep.mda.buffer e.sizeof_mda_buffer ep = some (0, buffer) →
      lka_submit e lks (some r) (some xn) = .ok (set_error lks 451)) ∧
    (∀ (tu : userinfo) (ep : envelope) (ret : Nat) (buffer : List Char),
      0 < (e.table_lookup (e.table_findbyname "<getpwnam>".toList) key).1 →
      (e.table_lookup (e.table_findbyname "<getpwnam>".toList) key).2 = some tu →
      submit_filled e lks r xn anc tu = some ep →
      lka_expand_format e.EXPAND_BUFFER ep.mda.buffer e.sizeof_mda_buffer ep
        = some (ret, buffer) →
      ret ≠ 0 →
      lka_submit e lks (some r) (some xn)
        = .ok { lks with deliverylist := lks.deliverylist ++
            [{ ep with mda := { ep.mda with buffer := buffer } }] }) ∧
    ((set_error lks 451).flags &&& F_ERROR ≠ 0 ∧ (set_error lks 451).ss.code = 451 ∧
      (set_error lks 451).deliverylist = lks.deliverylist) ∧
    (∀ lks', lka_submit e lks (some r) (some xn) = .ok lks' →
      lks' = set_error lks 451 ∨
        ∃ ep, lks' = { lks with deliverylist := lks.deliverylist ++ [ep] }) := by
  have hl := lka_submit_envelope_local e lks r xn hact
  rw [hanc] at hl
  simp only [hkey] at hl
  refine ⟨?_, ?_, ?_, ⟨or_error_and_error _, rfl, rfl⟩, ?_⟩
  · intro h
    rw [if_pos h] at hl
    unfold lka_submit
    rw [hl]
  · intro tu ep buffer h1 h2 h3 h4
    rw [if_neg (by omega)] at hl
    simp only [h2, h3, h4] at hl
    unfold lka_submit
    rw [hl]
    rfl
  · intro tu ep ret buffer h1 h2 h3 h4 h5
    rw [if_neg (by omega)] at hl
    simp only [h2, h3, h4, if_neg h5] at hl
    unfold lka_submit
    rw [hl]
  · intro lks' h
    exact lka_submit_cases _ _ _ _ _ h

/-- Witness of C17: the example session delivers to the maildir of `bob`. -/
theorem lka_submit_local_outcome_witness :
    local_action ex_rule_maildir.r_action ∧
    find_ancestor ex_bob_node expand_type.EXPAND_ADDRESS = some ex_bob_address ∧
    submit_username ex_env ex_waiting_session ex_bob_node = some (cs "bob") ∧
    lka_submit ex_env ex_waiting_session (some ex_rule_maildir) (some ex_bob_node)
      = .ok { ex_waiting_session with deliverylist := [ex_bob_delivery] } :=
  ⟨Or.inr (Or.inl rfl), rfl, rfl,
    ((lka_submit_local_outcome ex_env ex_waiting_session ex_rule_maildir ex_bob_node
      ex_bob_address (cs "bob") (Or.inr (Or.inl rfl)) rfl rfl).2.2.1
        ⟨cs "bob", cs "/home/bob"⟩
        { ex_bob_delivery with mda := { ex_bob_delivery.mda with buffer := cs "~/Maildir/.work" } }
        23 (cs "/home/bob/Maildir/.work") (by decide) rfl rfl rfl (by decide)).trans rfl⟩


/-- The name looked up by the local branch is the delivery name as
`strlcpy` leaves it in the username buffer. -/
theorem submit_username_name (e : env) (lks : lka_session) (xn : expandnode) :
    submit_username e lks xn
      = (delivery_name e xn).map
          (fun name => strlcpy lks.envelope.mda.user.username name e.sizeof_mda_username) := by
  unfold submit_username delivery_name
  rw [find_ancestor_nearest]
  split_ifs
  · rfl
  · cases nearest xn expand_type.EXPAND_USERNAME <;> rfl

/-- The envelope filled by the local branch has type MDA, the address of
the Address node as destination and the looked-up record as MDA user. -/
theorem submit_filled_fields (e : env) (lks : lka_session) (r : rule) (xn anc : expandnode)
    (tu : userinfo) (ep : envelope) (h : submit_filled e lks r xn anc tu = some ep) :
    ep.type = delivery_type.D_MDA ∧ ep.dest = anc.u.mailaddr ∧ ep.mda.user = tu := by
  unfold submit_filled at h
  dsimp only at h
  split_ifs at h <;> cases h <;> exact ⟨rfl, rfl, rfl⟩

/-- What the source does for a rule with a local action and a node for
which `lka_submit` appends an envelope: the envelope has type MDA, its dest
is the address of the nearest Address node on the parent chain starting at
the node itself, and its MDA user is the record that the `<getpwnam>`
lookup returned for the delivery name as `strlcpy` leaves it in the
username buffer, the delivery name being `SMTPD_USER` when the node is a
Filename or Filter node with the alias flag set and otherwise the user of
the nearest Username node on the parent chain starting at the node itself.
When the delivery name fits the username buffer the record is the one
returned for the delivery name itself; when it does not, the lookup is made
for another name (lines 392-405 do not test the value of `strlcpy`). -/
theorem lka_submit_local_fields (e : env) (lks : lka_session) (r : rule) (xn : expandnode)
    (ep : envelope) (hact : local_action r.r_action)
    (h : lka_submit e lks (some r) (some xn)
      = .ok { lks with deliverylist := lks.deliverylist ++ [ep] }) :
    ep.type = delivery_type.D_MDA ∧
    (∃ anc, nearest xn expand_type.EXPAND_ADDRESS = some anc ∧ ep.dest = anc.u.mailaddr) ∧
    (∃ name rc, delivery_name e xn = some name ∧ 0 < rc ∧
      e.table_lookup (e.table_findbyname "<getpwnam>".toList)
          (strlcpy lks.envelope.mda.user.username name e.sizeof_mda_username)
        = (rc, some ep.mda.user) ∧
      (name.length < e.sizeof_mda_username →
        e.table_lookup (e.table_findbyname "<getpwnam>".toList) name
          = (rc, some ep.mda.user))) := by
  have h1 := lka_submit_appended e lks (some r) (some xn) ep h
  rw [lka_submit_envelope_local e lks r xn hact, find_ancestor_nearest,
    submit_username_name] at h1
  cases hanc : nearest xn expand_type.EXPAND_ADDRESS with
  | none => rw [hanc] at h1; cases h1
  | some anc =>
    rw [hanc] at h1
    cases hname : delivery_name e xn with
    | none => rw [hname] at h1; cases h1
    | some name =>
      rw [hname] at h1
      simp only [Option.map_some'] at h1
      generalize hlook : e.table_lookup (e.table_findbyname "<getpwnam>".toList)
        (strlcpy lks.envelope.mda.user.username name e.sizeof_mda_username) = look at h1
      obtain ⟨rc, tu⟩ := look
      dsimp only at h1
      by_cases hrc : rc ≤ 0
      · rw [if_pos hrc] at h1; cases h1
      · rw [if_neg hrc] at h1
        cases tu with
        | none => cases h1
        | some tu =>
          dsimp only at h1
          cases hf : submit_filled e lks r xn anc tu with
          | none => rw [hf] at h1; cases h1
          | some ep0 =>
            rw [hf] at h1
            dsimp only at h1
            obtain ⟨f1, f2, f3⟩ := submit_filled_fields e lks r xn anc tu ep0 hf
            cases hx : lka_expand_format e.EXPAND_BUFFER ep0.mda.buffer e.sizeof_mda_buffer ep0 with
            | none => rw [hx] at h1; cases h1
            | some rb =>
              obtain ⟨ret, buffer⟩ := rb
              rw [hx] at h1
              dsimp only at h1
              by_cases hret : ret = 0
              · rw [if_pos hret] at h1; cases h1
              · rw [if_neg hret] at h1
                have h2 := Option.some.inj (Except.ok.inj h1)
                subst h2
                refine ⟨f1, ⟨anc, rfl, f2⟩, name, rc, rfl, by omega, ?_, ?_⟩
                · rw [hlook]; exact congrArg (fun u => (rc, some u)) f3.symm
                · intro hfit
                  rw [strlcpy_fit _ _ _ hfit] at hlook
                  rw [hlook]; exact congrArg (fun u => (rc, some u)) f3.symm

/-- The envelope of the example session for `bob` has type MDA and the
address of the root node as dest. -/
theorem lka_submit_local_fields_bob :
    local_action ex_rule_maildir.r_action ∧
    lka_submit ex_env ex_waiting_session (some ex_rule_maildir) (some ex_bob_node)
      = .ok { ex_waiting_session with
          deliverylist := ex_waiting_session.deliverylist ++ [ex_bob_delivery] } ∧
    ex_bob_delivery.type = delivery_type.D_MDA ∧
    (∃ anc, nearest ex_bob_node expand_type.EXPAND_ADDRESS = some anc ∧
      ex_bob_delivery.dest = anc.u.mailaddr) :=
  ⟨Or.inr (Or.inl rfl), rfl,
    (lka_submit_local_fields ex_env ex_waiting_session ex_rule_maildir ex_bob_node
      ex_bob_delivery (Or.inr (Or.inl rfl)) rfl).1,
    (lka_submit_local_fields ex_env ex_waiting_session ex_rule_maildir ex_bob_node
      ex_bob_delivery (Or.inr (Or.inl rfl)) rfl).2.1⟩

set_option maxRecDepth 100000 in
/-- C14, evaluated. A Username node with the same-user flag whose user is
40 letters `a`, a username buffer of 32 bytes, and a `<getpwnam>` table
that knows the one user whose name is 31 letters `a`. The node is not a
Filename or Filter node and is itself the nearest Username node on its
chain, yet `lka_submit` appends an envelope whose MDA username is the name
of 31 letters, not the user of the node: `strlcpy` has cut the name and the
lookup found another user. With the same-user flag clear `lka_expand`
refuses the same name with `F_ERROR` and code 530 before any lookup. -/
theorem lka_submit_truncated_name :
    local_action ex_rule_maildir.r_action ∧
    ¬ ((ex_long_node.type = expand_type.EXPAND_FILTER ∨
        ex_long_node.type = expand_type.EXPAND_FILENAME) ∧ ex_long_node.n.alias_ ≠ 0) ∧
    nearest ex_long_node expand_type.EXPAND_USERNAME = some ex_long_node ∧
    ex_long_node.u.user = List.replicate 40 'a' ∧
    ex_env_long.sizeof_mda_username = 32 ∧
    (∃ ep, lka_submit ex_env_long ex_long_session (some ex_rule_maildir) (some ex_long_node)
        = .ok { ex_long_session with deliverylist := ex_long_session.deliverylist ++ [ep] } ∧
      ep.mda.user.username = List.replicate 31 'a' ∧
      ep.mda.user.username ≠ ex_long_node.u.user) ∧
    (∃ lks, lka_expand ex_env_long ex_long_session (some ex_rule_maildir) ex_long_fresh
        = .ok (lks, []) ∧
      lks.flags &&& F_ERROR ≠ 0 ∧ lks.ss.code = 530 ∧
      lks.deliverylist = ex_long_session.deliverylist) :=
  ⟨Or.inr (Or.inl rfl), by decide, by decide, rfl, rfl, ⟨_, rfl, rfl, by decide⟩,
    ⟨_, rfl, by decide, rfl, rfl⟩⟩

/-! ## Expansion of a user name -/

/-- C18. For a Username node below the depth cap whose same-user flag is
clear, and a rule, `lka_expand` returns. With `a` the value of the alias
lookup, it sets `F_WAITING` exactly when the rule has no alias table or
`a = 0`, the user name is shorter than the `as_user` field of a forward
request, and the `<getpwnam>` lookup returns more than 0: then it composes
exactly one forward-open request with the session id and the user name,
records the rule and the node on the session, and leaves `F_ERROR`, the
submit status and the delivery list as they were. In every other case it
composes no message and leaves `F_WAITING` as it was. The code is 451 with
`F_ERROR` set when the alias lookup returns -1, and 530 with `F_ERROR` set
when the name is too long or the `<getpwnam>` lookup returns 0 or less; an
alias lookup that finds aliases changes neither flags nor status. -/
theorem lka_expand_username (e : env) (lks : lka_session) (r : rule) (xn : expandnode)
    (a : Int)
    (hdepth : xn.depth < EXPAND_DEPTH) (htype : xn.type = expand_type.EXPAND_USERNAME)
    (hsame : xn.n.sameuser = 0)
    (ha : a = (e.aliases_get r.r_atable (set_expand lks (some r) (some xn) 1).expand xn.u.user).1) :
    ∃ lks' msgs, lka_expand e lks (some r) xn = .ok (lks', msgs) ∧
      (((r.r_atable = none ∨ a = 0) ∧ xn.u.user.length < e.sizeof_as_user ∧
          0 < (e.table_lookup (e.table_findbyname "<getpwnam>".toList) xn.u.user).1) →
        msgs = [⟨proc.PROC_PARENT, imsg.IMSG_PARENT_FORWARD_OPEN lks.id xn.u.user⟩] ∧
        lks'.flags = lks.flags ||| F_WAITING ∧ lks'.flags &&& F_WAITING ≠ 0 ∧
        lks'.rule = some r ∧ lks'.node = some xn ∧
        lks'.flags &&& F_ERROR = lks.flags &&& F_ERROR ∧ lks'.ss = lks.ss ∧
        lks'.deliverylist = lks.deliverylist) ∧
      (¬ ((r.r_atable = none ∨ a = 0) ∧ xn.u.user.length < e.sizeof_as_user ∧
          0 < (e.table_lookup (e.table_findbyname "<getpwnam>".toList) xn.u.user).1) →
        msgs = [] ∧ lks'.flags &&& F_WAITING = lks.flags &&& F_WAITING ∧
        lks'.deliverylist = lks.deliverylist) ∧
      (lks.flags &&& F_WAITING = 0 →
        (lks'.flags &&& F_WAITING ≠ 0 ↔
          ((r.r_atable = none ∨ a = 0) ∧ xn.u.user.length < e.sizeof_as_user ∧
            0 < (e.table_lookup (e.table_findbyname "<getpwnam>".toList) xn.u.user).1))) ∧
      (r.r_atable ≠ none → a = -1 → lks'.flags &&& F_ERROR ≠ 0 ∧ lks'.ss.code = 451) ∧
      ((r.r_atable = none ∨ a = 0) →
        (e.sizeof_as_user ≤ xn.u.user.length ∨
          (e.table_lookup (e.table_findbyname "<getpwnam>".toList) xn.u.user).1 ≤ 0) →
        lks'.flags &&& F_ERROR ≠ 0 ∧ lks'.ss.code = 530) ∧
      (r.r_atable ≠ none → a ≠ 0 → a ≠ -1 →
        lks'.flags = lks.flags ∧ lks'.ss = lks.ss) := by
  unfold lka_expand
  rw [if_neg (by omega)]
  rw [htype]
  dsimp only
  rw [if_neg (by simpa using hsame)]
  rw [← ha]
  generalize (e.aliases_get r.r_atable (set_expand lks (some r) (some xn) 1).expand xn.u.user).2 = ex2
  generalize (e.table_lookup (e.table_findbyname "<getpwnam>".toList) xn.u.user).1 = L
  have w1 := or_waiting_and_waiting lks.flags
  have w2 := or_waiting_and_error lks.flags
  have w3 := or_error_and_waiting lks.flags
  have w4 := or_error_and_error lks.flags
  by_cases hat : r.r_atable = none
  · simp only [hat, ne_eq, not_true_eq_false, if_false]
    by_cases hlen : xn.u.user.length ≥ e.sizeof_as_user
    · rw [if_pos hlen]
      refine ⟨_, _, rfl, ?_⟩
      have hlen2 : ¬ xn.u.user.length < e.sizeof_as_user := by omega
      simp [set_error, set_expand, w3, w4, hlen2]
    · rw [if_neg hlen]
      by_cases hL : L ≤ 0
      · rw [if_pos hL]
        refine ⟨_, _, rfl, ?_⟩
        have hL2 : ¬ 0 < L := by omega
        simp [set_error, set_expand, w3, w4, hL2]
      · rw [if_neg hL]
        refine ⟨_, _, rfl, ?_⟩
        have hL2 : 0 < L := by omega
        have hlen2 : xn.u.user.length < e.sizeof_as_user := by omega
        have hfit := strlcpy_fit [] xn.u.user e.sizeof_as_user hlen2
        simp [set_error, set_expand, w1, w2, hL2, hlen2, hfit]
  · simp only [hat, ne_eq, not_false_eq_true, if_true]
    by_cases h1 : a = -1
    · simp only [h1, if_true]
      refine ⟨_, _, rfl, ?_⟩
      simp [set_error, set_expand, w3, w4]
    · simp only [h1, if_false]
      by_cases h0 : a = 0
      · simp only [h0, ne_eq, not_true_eq_false, if_false]
        by_cases hlen : xn.u.user.length ≥ e.sizeof_as_user
        · rw [if_pos hlen]
          refine ⟨_, _, rfl, ?_⟩
          have hlen2 : ¬ xn.u.user.length < e.sizeof_as_user := by omega
          simp [set_error, set_expand, w3, w4, hlen2]
        · rw [if_neg hlen]
          by_cases hL : L ≤ 0
          · rw [if_pos hL]
            refine ⟨_, _, rfl, ?_⟩
            have hL2 : ¬ 0 < L := by omega
            simp [set_error, set_expand, w3, w4, hL2]
          · rw [if_neg hL]
            refine ⟨_, _, rfl, ?_⟩
            have hL2 : 0 < L := by omega
            have hlen2 : xn.u.user.length < e.sizeof_as_user := by omega
            have hfit := strlcpy_fit [] xn.u.user e.sizeof_as_user hlen2
            simp [set_error, set_expand, w1, w2, hL2, hlen2, hfit]
      · simp only [ne_eq, h0, not_false_eq_true, if_true]
        refine ⟨_, _, rfl, ?_⟩
        simp [set_error, set_expand, w3, w4, hat, h0]

/-- Witness of C18: the example environment asks for the forward file of
`bob`. -/
theorem lka_expand_username_witness :
    ex_bob_node.depth < EXPAND_DEPTH ∧ ex_bob_node.type = expand_type.EXPAND_USERNAME ∧
    ex_bob_node.n.sameuser = 0 ∧
    ∃ lks' msgs,
      lka_expand ex_env (lka_session_init ex_env (ex_ss "bob+work" "example.com"))
        (some ex_rule_maildir) ex_bob_node = .ok (lks', msgs) ∧
      msgs = [⟨proc.PROC_PARENT, imsg.IMSG_PARENT_FORWARD_OPEN 1 (cs "bob")⟩] ∧
      lks'.flags &&& F_WAITING ≠ 0 ∧ lks'.node = some ex_bob_node :=
  ⟨by decide, rfl, rfl,
    let ⟨lks', msgs, h, hc, _⟩ :=
      lka_expand_username ex_env (lka_session_init ex_env (ex_ss "bob+work" "example.com"))
        ex_rule_maildir ex_bob_node 0 (by decide) rfl rfl rfl
    ⟨lks', msgs, h, (hc ⟨Or.inl rfl, by decide, by decide⟩).1,
      (hc ⟨Or.inl rfl, by decide, by decide⟩).2.2.1,
      (hc ⟨Or.inl rfl, by decide, by decide⟩).2.2.2.2.1⟩⟩

/-! ## Exclusion of the two flags -/

/-- The call `lka_session_forward_reply` is `lka_resume` on the session
that the reply leaves. -/
theorem lka_session_forward_reply_eq (e : env) (fuel : Nat) (lks : lka_session)
    (fwreq : forward_req) (fd : Int) :
    lka_session_forward_reply e fuel lks fwreq fd
      = match forward_reply_session e lks fwreq fd with
        | .error f => .error f
        | .ok lks => lka_resume e fuel lks := by
  unfold lka_session_forward_reply forward_reply_session
  dsimp only
  split_ifs <;> try rfl

/-- A call of `lka_expand` on a session with neither flag leaves at most
one of them set. -/
theorem lka_expand_flags (e : env) (lks lks' : lka_session) (rule : Option rule)
    (xn : expandnode) (msgs : List imsg_event)
    (h : lka_expand e lks rule xn = .ok (lks', msgs))
    (hw : lks.flags &&& F_WAITING = 0) (he : lks.flags &&& F_ERROR = 0) :
    ¬ (lks'.flags &&& F_ERROR ≠ 0 ∧ lks'.flags &&& F_WAITING ≠ 0) := by
  unfold lka_expand at h
  dsimp only at h
  repeat' split at h
  all_goals (cases h)
  all_goals first
    | (simp [set_error, set_expand, hw, he, or_waiting_and_error, or_error_and_waiting]; done)
    | (rename_i hs
       rcases lka_submit_cases _ _ _ _ _ hs with hc | ⟨ep, hc⟩ <;> subst hc <;>
         simp [set_error, set_expand, hw, he, or_waiting_and_error, or_error_and_waiting])
    | simp_all [set_error, set_expand, or_waiting_and_error, or_error_and_waiting]

/-- A call of `lka_expand` that sets `F_ERROR` composes no message and
leaves the delivery list as it was. -/
theorem lka_expand_error (e : env) (lks lks' : lka_session) (rule : Option rule)
    (xn : expandnode) (msgs : List imsg_event)
    (h : lka_expand e lks rule xn = .ok (lks', msgs))
    (he : lks.flags &&& F_ERROR = 0) (he' : lks'.flags &&& F_ERROR ≠ 0) :
    msgs = [] ∧ lks'.deliverylist = lks.deliverylist := by
  unfold lka_expand at h
  dsimp only at h
  repeat' split at h
  all_goals (cases h)
  all_goals first
    | (simp [set_error, set_expand, he, or_waiting_and_error] at he' ⊢; done)
    | (rename_i hs
       rcases lka_submit_cases _ _ _ _ _ hs with hc | ⟨ep, hc⟩ <;> subst hc <;>
         simp [set_error, set_expand, he, or_waiting_and_error] at he' ⊢)
    | simp_all [set_error, set_expand, or_waiting_and_error]

/-- The session that a forward reply leaves has `F_WAITING` clear, and
`F_ERROR` set only if it was set before or the reply set it without
touching the delivery list. -/
theorem forward_reply_session_flags (e : env) (lks lks' : lka_session)
    (fwreq : forward_req) (fd : Int)
    (h : forward_reply_session e lks fwreq fd = .ok lks') :
    lks'.flags &&& F_WAITING = 0 ∧
    (lks.flags &&& F_ERROR = 0 → lks'.flags &&& F_ERROR ≠ 0 →
      lks'.deliverylist = lks.deliverylist) := by
  unfold forward_reply_session at h
  dsimp only at h
  split_ifs at h
  · rcases lka_submit_cases _ _ _ _ _ h with hc | ⟨ep, hc⟩ <;> subst hc <;>
      simp [set_error, or_error_and_waiting, clear_waiting_and_waiting, clear_waiting_and_error]
  · cases h
    simp [set_error, or_error_and_waiting, clear_waiting_and_waiting]
  · cases h
    simp [set_error, or_error_and_waiting, clear_waiting_and_waiting]
  · cases h
    simp [set_error, or_error_and_waiting, clear_waiting_and_waiting]

theorem step_entry (e : env) (fwreq : forward_req) (fd : Int) (lks : lka_session) :
    step e fwreq fd point.entry lks
      = if lks.flags &&& F_ERROR ≠ 0 then .ok (some (point.terminal, lks, []))
        else .ok (some (point.loop, lks, [])) := rfl

theorem step_loop (e : env) (fwreq : forward_req) (fd : Int) (lks : lka_session) :
    step e fwreq fd point.loop lks
      = match lks.expand.queue with
        | [] => .ok (some (point.terminal, lka_resume_reject lks, []))
        | xn :: rest =>
          match lka_expand e { lks with expand := { lks.expand with queue := rest } }
              xn.rule xn with
          | .error f => .error f
          | .ok (lks, msgs) => .ok (some (point.expanded, lks, msgs)) := rfl

theorem step_expanded (e : env) (fwreq : forward_req) (fd : Int) (lks : lka_session) :
    step e fwreq fd point.expanded lks
      = if lks.flags &&& F_WAITING ≠ 0 then .ok (some (point.waiting, lks, []))
        else if lks.flags &&& F_ERROR ≠ 0 then .ok (some (point.terminal, lks, []))
        else .ok (some (point.loop, lks, [])) := rfl

theorem step_waiting (e : env) (fwreq : forward_req) (fd : Int) (lks : lka_session) :
    step e fwreq fd point.waiting lks
      = match forward_reply_session e lks fwreq fd with
        | .error f => .error f
        | .ok lks => .ok (some (point.entry, lks, [])) := rfl

theorem step_terminal (e : env) (fwreq : forward_req) (fd : Int) (lks : lka_session) :
    step e fwreq fd point.terminal lks = .ok none := rfl

/-- What holds of the flags at each point of a session. -/
theorem reach_flags (e : env) (p : point) (lks : lka_session) (h : reach e p lks) :
    (p = point.entry → lks.flags &&& F_WAITING = 0) ∧
    (p = point.loop → lks.flags &&& F_WAITING = 0 ∧ lks.flags &&& F_ERROR = 0) ∧
    (p = point.expanded → ¬ (lks.flags &&& F_ERROR ≠ 0 ∧ lks.flags &&& F_WAITING ≠ 0)) ∧
    (p = point.waiting → lks.flags &&& F_WAITING ≠ 0 ∧ lks.flags &&& F_ERROR = 0) ∧
    (p = point.terminal → lks.flags &&& F_WAITING = 0) := by
  induction h with
  | init ss =>
    refine ⟨fun _ => ?_, fun h => (by cases h), fun h => (by cases h), fun h => (by cases h),
      fun h => (by cases h)⟩
    rw [(lka_session_init_flags e ss).1]; rfl
  | next fwreq fd p lks p' lks' msgs hr hs ih =>
    obtain ⟨i1, i2, i3, i4, i5⟩ := ih
    cases p with
    | entry =>
      rw [step_entry] at hs
      split_ifs at hs with he
      · cases hs
        simp [i1 rfl]
      · cases hs
        have he2 : lks.flags &&& F_ERROR = 0 := by simpa using he
        simp [i1 rfl, he2]
    | loop =>
      obtain ⟨hw, he⟩ := i2 rfl
      rw [step_loop] at hs
      split at hs
      · cases hs
        unfold lka_resume_reject
        split_ifs <;> simp [hw, or_error_and_waiting]
      · split at hs
        · cases hs
        · cases hs
          rename_i hx
          have := lka_expand_flags _ _ _ _ _ _ hx hw he
          simpa using this
    | expanded =>
      have i3 := i3 rfl
      rw [step_expanded] at hs
      split_ifs at hs with hw he
      · cases hs
        have : lks.flags &&& F_ERROR = 0 := by
          by_contra hne
          exact i3 ⟨hne, hw⟩
        simp [hw, this]
      · cases hs
        have hw2 : lks.flags &&& F_WAITING = 0 := by simpa using hw
        simp [hw2]
      · cases hs
        have hw2 : lks.flags &&& F_WAITING = 0 := by simpa using hw
        have he2 : lks.flags &&& F_ERROR = 0 := by simpa using he
        simp [hw2, he2]
    | waiting =>
      rw [step_waiting] at hs
      split at hs
      · cases hs
      · cases hs
        rename_i hx
        have := (forward_reply_session_flags _ _ _ _ _ hx).1
        simp [this]
    | terminal =>
      rw [step_terminal] at hs
      cases hs

/-- The loop of `lka_resume` goes through the points by steps: from the
point `loop` it is left at the point of its exit. -/
theorem reach_resume_while (e : env) :
    ∀ (fuel : Nat) (lks lks' : lka_session) (x : loop_exit) (m : List imsg_event),
      reach e point.loop lks → lka_resume_while e fuel lks = .ok (x, lks', m) →
      reach e x.point lks' := by
  intro fuel
  induction fuel with
  | zero =>
    intro lks lks' x m hr h
    unfold lka_resume_while at h
    split at h
    · cases h; exact hr
    · cases h
  | succ fuel ih =>
    intro lks lks' x m hr h
    unfold lka_resume_while at h
    split at h
    · cases h; exact hr
    · rename_i xn rest hq
      dsimp only at h
      split at h
      · cases h
      · rename_i lks1 msgs hx
        have hexp : reach e point.expanded lks1 := by
          refine reach.next ⟨0, [], 0⟩ 0 point.loop lks point.expanded lks1 msgs hr ?_
          rw [step_loop, hq]
          dsimp only
          rw [hx]
        split_ifs at h with hw he
        · cases h
          refine reach.next ⟨0, [], 0⟩ 0 point.expanded lks' point.waiting lks' [] hexp ?_
          rw [step_expanded, if_pos hw]
        · cases h
          refine reach.next ⟨0, [], 0⟩ 0 point.expanded lks' point.terminal lks' [] hexp ?_
          rw [step_expanded, if_neg hw, if_pos he]
        · have hloop : reach e point.loop lks1 := by
            refine reach.next ⟨0, [], 0⟩ 0 point.expanded lks1 point.loop lks1 [] hexp ?_
            rw [step_expanded, if_neg hw, if_neg he]
          split at h
          · cases h
          · rename_i x2 lks2 more hrec
            cases h
            exact ih _ _ _ _ hloop hrec

/-- A session that `lka_resume` leaves in `sessions` is at the point
`waiting`. -/
theorem reach_resume (e : env) (fuel : Nat) (lks lks' : lka_session) (m : List imsg_event)
    (hr : reach e point.entry lks)
    (h : lka_resume e fuel lks = .ok { lks := some lks', msgs := m }) :
    reach e point.waiting lks' := by
  unfold lka_resume at h
  split_ifs at h with he
  · unfold lka_resume_end at h
    split_ifs at h
    cases h
  · have hloop : reach e point.loop lks := by
      refine reach.next ⟨0, [], 0⟩ 0 point.entry lks point.loop lks [] hr ?_
      rw [step_entry, if_neg he]
    split at h
    · cases h
    · rename_i lks1 msgs hw
      cases h
      exact reach_resume_while e fuel lks lks' loop_exit.returned m hloop hw
    · cases h
    · cases h

/-- A session that `lka_session` leaves in `sessions` is at the point
`waiting`. -/
theorem reach_session_start (e : env) (fuel : Nat) (ss : submit_status) (lks : lka_session)
    (m : List imsg_event) (h : lka_session_start e fuel ss = .ok { lks := some lks, msgs := m }) :
    reach e point.waiting lks :=
  reach_resume e fuel _ lks m (reach.init ss) h

/-- A session that `lka_session_forward_reply` leaves in `sessions` is at
the point `waiting` again. -/
theorem reach_forward_reply (e : env) (fuel : Nat) (lks lks' : lka_session)
    (fwreq : forward_req) (fd : Int) (m : List imsg_event)
    (hr : reach e point.waiting lks)
    (h : lka_session_forward_reply e fuel lks fwreq fd = .ok { lks := some lks', msgs := m }) :
    reach e point.waiting lks' := by
  rw [lka_session_forward_reply_eq] at h
  split at h
  · cases h
  · rename_i lks1 hx
    refine reach_resume e fuel lks1 lks' m ?_ h
    refine reach.next fwreq fd point.waiting lks point.entry lks1 [] hr ?_
    rw [step_waiting, hx]

/-- C19. In every state that a session reaches from `lka_session` by the
steps of `lka_resume`, `lka_expand`, `lka_submit` and
`lka_session_forward_reply`, the flags do not hold `F_ERROR` and
`F_WAITING` together. A state with `F_ERROR` set is at the call of
`lka_resume`, at the return of `lka_expand` in the loop, or at the label
`error`; its only step leads to the label `error` with the session as it
is and no message composed, so that no node is popped, no envelope
appended and no forward-open request sent, and the terminal step composes
the one reply to the MFA. The step that sets `F_ERROR` composes no message
and leaves the delivery list as it was. -/
theorem flags_exclusive (e : env) (p : point) (lks : lka_session) (h : reach e p lks) :
    ¬ (lks.flags &&& F_ERROR ≠ 0 ∧ lks.flags &&& F_WAITING ≠ 0) ∧
    (lks.flags &&& F_ERROR ≠ 0 →
      (p = point.entry ∨ p = point.expanded ∨ p = point.terminal) ∧
      (∀ fwreq fd, p ≠ point.terminal →
        step e fwreq fd p lks = .ok (some (point.terminal, lks, []))) ∧
      (∀ fwreq fd, step e fwreq fd point.terminal lks = .ok none) ∧
      (∀ fuel, lka_resume e fuel lks = .ok (lka_resume_end lks)) ∧
      lka_resume_end lks
        = { lks := none, msgs := [⟨proc.PROC_MFA, imsg.IMSG_LKA_RCPT lks.ss⟩] }) ∧
    (∀ fwreq fd p' lks' msgs, step e fwreq fd p lks = .ok (some (p', lks', msgs)) →
      lks.flags &&& F_ERROR = 0 → lks'.flags &&& F_ERROR ≠ 0 →
      msgs = [] ∧ lks'.deliverylist = lks.deliverylist) := by
  obtain ⟨i1, i2, i3, i4, i5⟩ := reach_flags e p lks h
  have excl : ¬ (lks.flags &&& F_ERROR ≠ 0 ∧ lks.flags &&& F_WAITING ≠ 0) := by
    intro ⟨he, hw⟩
    cases p with
    | entry => exact hw (i1 rfl)
    | loop => exact hw (i2 rfl).1
    | expanded => exact i3 rfl ⟨he, hw⟩
    | waiting => exact he (i4 rfl).2
    | terminal => exact hw (i5 rfl)
  refine ⟨excl, ?_, ?_⟩
  · intro he
    have hw : lks.flags &&& F_WAITING = 0 := by
      by_contra hne
      exact excl ⟨he, hne⟩
    refine ⟨?_, ?_, fun _ _ => rfl, ?_, ?_⟩
    · cases p with
      | entry => exact Or.inl rfl
      | loop => exact absurd (i2 rfl).2 he
      | expanded => exact Or.inr (Or.inl rfl)
      | waiting => exact absurd (i4 rfl).2 he
      | terminal => exact Or.inr (Or.inr rfl)
    · intro fwreq fd hp
      cases p with
      | entry => rw [step_entry, if_pos he]
      | loop => exact absurd (i2 rfl).2 he
      | expanded => rw [step_expanded, if_neg (by simpa using hw), if_pos he]
      | waiting => exact absurd (i4 rfl).2 he
      | terminal => exact absurd rfl hp
    · intro fuel
      unfold lka_resume
      rw [if_pos he]
    · unfold lka_resume_end
      rw [if_pos he]
  · intro fwreq fd p' lks' msgs hs he he'
    cases p with
    | entry =>
      rw [step_entry] at hs
      split_ifs at hs <;> cases hs <;> exact absurd he he'
    | loop =>
      rw [step_loop] at hs
      split at hs
      · cases hs
        unfold lka_resume_reject
        split_ifs <;> exact ⟨rfl, rfl⟩
      · split at hs
        · cases hs
        · cases hs
          rename_i hx
          have hh := lka_expand_error _ _ _ _ _ _ hx he he'
          exact hh
    | expanded =>
      rw [step_expanded] at hs
      split_ifs at hs <;> cases hs <;> exact absurd he he'
    | waiting =>
      rw [step_waiting] at hs
      split at hs
      · cases hs
      · cases hs
        rename_i hx
        exact ⟨rfl, (forward_reply_session_flags _ _ _ _ _ hx).2 he he'⟩
    | terminal =>
      rw [step_terminal] at hs
      cases hs

/-- Witness of C19: the example session while it waits for the forward
file of `bob`. -/
theorem flags_exclusive_witness :
    reach ex_env point.waiting ex_waiting_session ∧
    ¬ (ex_waiting_session.flags &&& F_ERROR ≠ 0 ∧ ex_waiting_session.flags &&& F_WAITING ≠ 0) :=
  ⟨reach_session_start ex_env 10 (ex_ss "bob+work" "example.com") ex_waiting_session _ rfl,
    (flags_exclusive ex_env point.waiting ex_waiting_session
      (reach_session_start ex_env 10 (ex_ss "bob+work" "example.com") ex_waiting_session _
        rfl)).1⟩

/-! ## Expansion of a template followed by literal text -/

theorem peek_append (a b : List Char) (h : a ≠ []) : peek (a ++ b) = peek a := by
  cases a with
  | nil => exact absurd rfl h
  | cons x xs => rfl

theorem strchr_lt (c : Char) : ∀ (s : List Char) (i : Nat), strchr s c = some i → i < s.length := by
  intro s
  induction s with
  | nil => intro i h; cases h
  | cons x xs ih =>
    intro i h
    unfold strchr at h
    split_ifs at h
    · cases h; simp
    · cases hx : strchr xs c with
      | none => rw [hx] at h; cases h
      | some j =>
        rw [hx] at h
        cases h
        have := ih j hx
        simp only [List.length_cons]
        omega

theorem strchr_append_left (c : Char) (b : List Char) :
    ∀ (s : List Char) (i : Nat), strchr s c = some i → strchr (s ++ b) c = some i := by
  intro s
  induction s with
  | nil => intro i h; cases h
  | cons x xs ih =>
    intro i h
    unfold strchr at h
    rw [List.cons_append]
    unfold strchr
    split_ifs at h ⊢
    · exact h
    · cases hx : strchr xs c with
      | none => rw [hx] at h; cases h
      | some j =>
        rw [hx] at h
        rw [ih j hx]
        exact h

/-- A step of the expansion loop does not look past the text it consumes:
text appended to the template is left for later, provided it does not
start with `%` or `{`. -/
theorem step_append (EB : Nat) (ep : envelope) (c : Char) (rest p w S : List Char)
    (h1 : peek S ≠ '%') (h2 : peek S ≠ '{')
    (h : lka_expand_format_step EB ep c rest = some (p, w)) :
    lka_expand_format_step EB ep c (rest ++ S) = some (p ++ S, w) := by
  cases rest with
  | nil =>
    unfold lka_expand_format_step at h
    have hp : peek ([] : List Char) = NUL := rfl
    have n1 : NUL ≠ '%' := by decide
    have n2 : NUL ≠ '{' := by decide
    rw [hp, if_neg (fun hh => n1 hh.2), if_pos (Or.inr n2)] at h
    cases h
    rw [List.nil_append]
    exact step_literal EB ep c S (fun hh => h1 hh.2) (Or.inr h2)
  | cons x xs =>
    have hpk : peek ((x :: xs) ++ S) = peek (x :: xs) := rfl
    unfold lka_expand_format_step at h ⊢
    rw [hpk]
    split_ifs at h ⊢ with g1 g2 g3
    · cases h; rfl
    · cases h; rfl
    · have hlt : ∀ i, strchr (x :: xs) '}' = some i → i < (x :: xs).length :=
        fun i hi => strchr_lt '}' _ i hi
      cases hs : strchr (x :: xs) '}' with
      | none => rw [hs] at h; cases h
      | some ebuf =>
        rw [hs] at h
        rw [strchr_append_left '}' S _ ebuf hs]
        dsimp only at h ⊢
        have hl := hlt ebuf hs
        rw [List.take_append_of_le_length (by omega)]
        split_ifs at h ⊢
        cases ht : lka_expand_token EB EB (List.drop 1 (List.take ebuf (x :: xs))) ep with
        | none => rw [ht] at h; cases h
        | some exptok =>
          rw [ht] at h
          dsimp only at h ⊢
          cases hlow : lowercase exptok EB with
          | none => rw [hlow] at h; cases h
          | some low =>
            rw [hlow] at h
            cases h
            dsimp only
            rw [List.drop_append_of_le_length (by omega)]

/-- The loop on a template followed by text that holds no token: once the
template is consumed the loop goes on with the text. -/
theorem loop_append (EB : Nat) (ep : envelope) (S : List Char)
    (h1 : peek S ≠ '%') (h2 : peek S ≠ '{') :
    ∀ (n : Nat) (P : List Char), P.length ≤ n →
      ∀ (f1 f2 ret : Nat) (tmp : List Char) (r : Nat) (t : List Char),
      n ≤ f1 → n + S.length ≤ f2 →
      lka_expand_format_loop EB ep f1 P ret tmp = some (r, t) → r < EB →
      lka_expand_format_loop EB ep f2 (P ++ S) ret tmp
        = lka_expand_format_loop EB ep S.length S r t := by
  intro n
  induction n with
  | zero =>
    intro P hP f1 f2 ret tmp r t _ hf2 h _
    have : P = [] := List.length_eq_zero.mp (by omega)
    subst this
    rw [loop_nil] at h
    cases h
    rw [List.nil_append]
    exact loop_fuel_irrelevant EB ep S.length S (le_refl _) f2 S.length ret tmp (by omega)
      (le_refl _)
  | succ n ih =>
    intro P hP f1 f2 ret tmp r t hf1 hf2 h hr
    cases P with
    | nil =>
      rw [loop_nil] at h
      cases h
      rw [List.nil_append]
      exact loop_fuel_irrelevant EB ep S.length S (le_refl _) f2 S.length ret tmp (by omega)
        (le_refl _)
    | cons c rest =>
      by_cases hret : ret < EB
      · obtain ⟨g1, rfl⟩ : ∃ g, f1 = g + 1 := ⟨f1 - 1, by omega⟩
        obtain ⟨g2, rfl⟩ : ∃ g, f2 = g + 1 := ⟨f2 - 1, by omega⟩
        rw [loop_step _ _ _ _ _ _ _ hret] at h
        rw [List.cons_append, loop_step _ _ _ _ _ _ _ hret]
        cases hs : lka_expand_format_step EB ep c rest with
        | none => rw [hs] at h; cases h
        | some pw =>
          obtain ⟨p', w⟩ := pw
          rw [hs] at h
          rw [step_append EB ep c rest p' w S h1 h2 hs]
          dsimp only at h ⊢
          have hl := step_length EB ep c rest p' w hs
          simp only [List.length_cons] at hP
          exact ih p' (by omega) g1 g2 _ _ r t (by omega) (by omega) h hr
      · rw [loop_full _ _ _ _ _ _ hret] at h
        cases h
        exact absurd hr hret

/-- The loop on text without `%` copies it, as far as the scratch buffer
goes. -/
theorem loop_literal (EB : Nat) (ep : envelope) :
    ∀ (S : List Char) (fuel ret : Nat) (tmp : List Char), '%' ∉ S → S.length ≤ fuel →
      ret ≤ EB →
      lka_expand_format_loop EB ep fuel S ret tmp
        = some (ret + min S.length (EB - ret), tmp ++ S.take (EB - ret)) := by
  intro S
  induction S with
  | nil =>
    intro fuel ret tmp _ _ _
    rw [loop_nil]
    simp
  | cons c rest ih =>
    intro fuel ret tmp hS hf hret
    by_cases hlt : ret < EB
    · obtain ⟨g, rfl⟩ : ∃ g, fuel = g + 1 := ⟨fuel - 1, by simp only [List.length_cons] at hf; omega⟩
      have hc : c ≠ '%' := fun hh => hS (by simp [hh])
      have hrest : '%' ∉ rest := fun hh => hS (by simp [hh])
      rw [loop_step _ _ _ _ _ _ _ hlt,
        step_literal EB ep c rest (fun hh => hc hh.1) (Or.inl hc)]
      dsimp only
      simp only [List.length_cons] at hf
      rw [ih g (ret + [c].length) (tmp ++ [c]) hrest (by omega) (by simp; omega)]
      obtain ⟨k, hk⟩ : ∃ k, EB - ret = k + 1 := ⟨EB - ret - 1, by omega⟩
      have hk2 : EB - (ret + 1) = k := by omega
      simp only [List.length_cons, List.length_nil, zero_add, hk, hk2, List.take_succ_cons,
        List.append_assoc, List.singleton_append, Option.some.injEq, Prod.mk.injEq, and_true]
      omega
    · rw [loop_full _ _ _ _ _ _ hlt]
      have : EB - ret = 0 := by omega
      simp [this]

/-- A step of the expansion does not read the MDA buffer of the envelope. -/
theorem step_buffer (EB : Nat) (ep : envelope) (b : List Char) (c : Char) (rest : List Char) :
    lka_expand_format_step EB { ep with mda := { ep.mda with buffer := b } } c rest
      = lka_expand_format_step EB ep c rest := rfl

theorem loop_buffer (EB : Nat) (ep : envelope) (b : List Char) :
    ∀ (fuel : Nat) (p : List Char) (ret : Nat) (tmp : List Char),
      lka_expand_format_loop EB { ep with mda := { ep.mda with buffer := b } } fuel p ret tmp
        = lka_expand_format_loop EB ep fuel p ret tmp := by
  intro fuel
  induction fuel with
  | zero =>
    intro p ret tmp
    cases p with
    | nil => rw [loop_nil, loop_nil]
    | cons c rest =>
      by_cases hret : ret < EB
      · rw [loop_zero _ _ _ _ _ _ hret, loop_zero _ _ _ _ _ _ hret]
      · rw [loop_full _ _ _ _ _ _ hret, loop_full _ _ _ _ _ _ hret]
  | succ fuel ih =>
    intro p ret tmp
    cases p with
    | nil => rw [loop_nil, loop_nil]
    | cons c rest =>
      by_cases hret : ret < EB
      · rw [loop_step _ _ _ _ _ _ _ hret, loop_step _ _ _ _ _ _ _ hret, step_buffer]
        cases lka_expand_format_step EB ep c rest with
        | none => rfl
        | some pw => exact ih _ _ _
      · rw [loop_full _ _ _ _ _ _ hret, loop_full _ _ _ _ _ _ hret]

/-- The expansion of a buffer does not depend on the MDA buffer recorded
in the envelope. -/
theorem lka_expand_format_buffer (EB : Nat) (buf : List Char) (len : Nat) (ep : envelope)
    (b : List Char) :
    lka_expand_format EB buf len { ep with mda := { ep.mda with buffer := b } }
      = lka_expand_format EB buf len ep := by
  unfold lka_expand_format
  simp only [loop_buffer]

/-- The `~/` test on a template followed by text. -/
theorem home_append (EB : Nat) (dir P S : List Char) (hP : P ≠ ['~']) (hne : P ≠ []) :
    (if P.take 2 = ['~', '/'] then
        if dir.length + 1 ≥ EB then none
        else some (dir.length + 1, (dir ++ ['/']).take (EB - 1), P.drop 2)
      else some (0, [], P) : Option (Nat × List Char × List Char)) = none ∨
    ∃ ret0 tmp0 P', ret0 = tmp0.length ∧ P'.length ≤ P.length ∧
      (if P.take 2 = ['~', '/'] then
          if dir.length + 1 ≥ EB then none
          else some (dir.length + 1, (dir ++ ['/']).take (EB - 1), P.drop 2)
        else some (0, [], P) : Option (Nat × List Char × List Char)) = some (ret0, tmp0, P') ∧
      (if (P ++ S).take 2 = ['~', '/'] then
          if dir.length + 1 ≥ EB then none
          else some (dir.length + 1, (dir ++ ['/']).take (EB - 1), (P ++ S).drop 2)
        else some (0, [], P ++ S) : Option (Nat × List Char × List Char))
        = some (ret0, tmp0, P' ++ S) := by
  match P, hP, hne with
  | [c], hP, _ =>
    right
    have hc : c ≠ '~' := fun h => hP (by rw [h])
    refine ⟨0, [], [c], rfl, le_refl _, ?_, ?_⟩
    · rw [if_neg (by simp)]
    · rw [if_neg]
      cases S with
      | nil => simp
      | cons s S' => simp [hc]
  | c1 :: c2 :: P', _, _ =>
    have e1 : (c1 :: c2 :: P').take 2 = [c1, c2] := rfl
    have e2 : (c1 :: c2 :: P' ++ S).take 2 = [c1, c2] := rfl
    have e3 : (c1 :: c2 :: P').drop 2 = P' := rfl
    have e4 : (c1 :: c2 :: P' ++ S).drop 2 = P' ++ S := rfl
    rw [e1, e2, e3, e4]
    by_cases h : [c1, c2] = ['~', '/']
    · rw [if_pos h, if_pos h]
      by_cases hd : dir.length + 1 ≥ EB
      · left; rw [if_pos hd]
      · right
        rw [if_neg hd, if_neg hd]
        refine ⟨_, _, P', ?_, by simp only [List.length_cons]; omega, rfl, rfl⟩
        rw [List.take_of_length_le (by simp; omega)]
        simp
    · right
      rw [if_neg h, if_neg h]
      exact ⟨0, [], _, rfl, le_refl _, rfl, rfl⟩

/-- The expansion of a template followed by text that holds no `%` and
does not start with `{`: when the template alone expands to `R`, the whole
expands to `R` followed by the text if that fits the scratch buffer, and
fails otherwise. -/
theorem lka_expand_format_append (EB len : Nat) (ep : envelope) (P S : List Char) (n : Nat)
    (R : List Char) (hP : P ≠ ['~']) (hS : '%' ∉ S) (h2 : peek S ≠ '{')
    (hfmt : lka_expand_format EB P len ep = some (n, R)) (hn : n ≠ 0) :
    (R.length + S.length < EB →
      lka_expand_format EB (P ++ S) len ep = some (R.length + S.length, R ++ S)) ∧
    (EB ≤ R.length + S.length →
      ∃ b, lka_expand_format EB (P ++ S) len ep = some (0, b)) := by
  have h1 : peek S ≠ '%' := by
    cases S with
    | nil => decide
    | cons s S' => exact fun h => hS (by simp [peek] at h; simp [h])
  unfold lka_expand_format at hfmt ⊢
  by_cases hlen : len < EB
  · rw [if_pos hlen] at hfmt; cases hfmt
  rw [if_neg hlen] at hfmt ⊢
  dsimp only at hfmt ⊢
  have hne : P ≠ [] := by
    intro h
    subst h
    simp [loop_nil, strlcpy] at hfmt
    exact hn hfmt.1.symm
  rcases home_append EB ep.mda.user.directory P S hP hne with hnone | ⟨ret0, tmp0, P', h0, hP', hh, hhS⟩
  · rw [hnone] at hfmt
    simp at hfmt
    exact absurd hfmt.1.symm hn
  rw [hh] at hfmt
  rw [hhS]
  dsimp only at hfmt ⊢
  cases hl : lka_expand_format_loop EB ep P'.length P' ret0 tmp0 with
  | none =>
    rw [hl] at hfmt
    simp at hfmt
    exact absurd hfmt.1.symm hn
  | some rt =>
    obtain ⟨ret, tmp⟩ := rt
    rw [hl] at hfmt
    dsimp only at hfmt
    by_cases hret : ret ≥ EB
    · rw [if_pos hret] at hfmt
      simp at hfmt
      exact absurd hfmt.1.symm hn
    rw [if_neg hret] at hfmt
    by_cases htl : tmp.length ≥ len
    · rw [if_pos htl] at hfmt
      simp at hfmt
      exact absurd hfmt.1.symm hn
    rw [if_neg htl] at hfmt
    have hR : R = tmp := by
      have := (Prod.mk.inj (Option.some.inj hfmt)).2
      rw [← this]
      exact strlcpy_fit _ _ _ (by omega)
    subst hR
    obtain ⟨x, hx1, hx2⟩ := loop_lockstep _ _ _ _ _ _ _ _ hl
    have hrl : ret = R.length := by rw [hx1, hx2, h0]; simp
    rw [loop_append EB ep S h1 h2 P'.length P' (le_refl _) P'.length (P' ++ S).length ret0 tmp0
      ret R (le_refl _) (by simp) hl (by omega),
      loop_literal EB ep S S.length ret R hS (le_refl _) (by omega)]
    dsimp only
    constructor
    · intro hfit
      have hm : min S.length (EB - ret) = S.length := by omega
      have ht : S.take (EB - ret) = S := List.take_of_length_le (by omega)
      rw [hm, ht, if_neg (by omega), if_neg (by simp; omega)]
      rw [strlcpy_fit _ _ _ (by simp; omega)]
      simp
    · intro hbig
      have hm : min S.length (EB - ret) = EB - ret := by omega
      rw [hm, if_pos (by omega)]
      exact ⟨_, rfl⟩

/-! ## Tag routing -/

/-- What a local-action call of `lka_submit_envelope` has gone through
when it has built an envelope. -/
theorem lka_submit_envelope_built (e : env) (lks : lka_session) (r : rule) (xn : expandnode)
    (ep : envelope) (hact : local_action r.r_action)
    (h : lka_submit_envelope e lks (some r) (some xn) = .ok (some ep)) :
    ∃ (anc : expandnode) (key : List Char) (rc : Int) (tu : userinfo) (ep0 : envelope)
        (ret : Nat) (buffer : List Char),
      nearest xn expand_type.EXPAND_ADDRESS = some anc ∧
      submit_username e lks xn = some key ∧
      e.table_lookup (e.table_findbyname "<getpwnam>".toList) key = (rc, some tu) ∧ 0 < rc ∧
      submit_filled e lks r xn anc tu = some ep0 ∧
      lka_expand_format e.EXPAND_BUFFER ep0.mda.buffer e.sizeof_mda_buffer ep0
        = some (ret, buffer) ∧
      ret ≠ 0 ∧ ep = { ep0 with mda := { ep0.mda with buffer := buffer } } := by
  rw [lka_submit_envelope_local e lks r xn hact, find_ancestor_nearest] at h
  cases hanc : nearest xn expand_type.EXPAND_ADDRESS with
  | none => rw [hanc] at h; cases h
  | some anc =>
    rw [hanc] at h
    cases hkey : submit_username e lks xn with
    | none => rw [hkey] at h; cases h
    | some key =>
      rw [hkey] at h
      dsimp only at h
      generalize hlook : e.table_lookup (e.table_findbyname "<getpwnam>".toList) key = look at h
      obtain ⟨rc, tu⟩ := look
      dsimp only at h
      by_cases hrc : rc ≤ 0
      · rw [if_pos hrc] at h; cases h
      · rw [if_neg hrc] at h
        cases tu with
        | none => cases h
        | some tu =>
          dsimp only at h
          cases hf : submit_filled e lks r xn anc tu with
          | none => rw [hf] at h; cases h
          | some ep0 =>
            rw [hf] at h
            dsimp only at h
            cases hx : lka_expand_format e.EXPAND_BUFFER ep0.mda.buffer e.sizeof_mda_buffer ep0 with
            | none => rw [hx] at h; cases h
            | some rb =>
              obtain ⟨ret, buffer⟩ := rb
              rw [hx] at h
              dsimp only at h
              by_cases hret : ret = 0
              · rw [if_pos hret] at h; cases h
              · rw [if_neg hret] at h
                have h2 := Option.some.inj (Except.ok.inj h)
                exact ⟨anc, key, rc, tu, ep0, ret, buffer, rfl, rfl, hlook, by omega, hf, hx,
                  hret, h2.symm⟩

/-- The tag of an address whose local part is `u+t`, `u` without `+`. -/
theorem mailaddr_tag_split (u t d : List Char) (hu : '+' ∉ u) :
    mailaddr_tag ⟨u ++ '+' :: t, d⟩ = some (t.dropWhile (fun c => decide (c = '.'))) := by
  unfold mailaddr_tag
  dsimp only
  rw [strchr_append '+' t u hu]
  dsimp only
  rw [drop_after]

theorem strlcat_fit (dst src : List Char) (size : Nat) (h : dst.length + src.length < size) :
    strlcat dst src size = dst ++ src := by
  unfold strlcat
  rw [if_neg (by omega), List.take_of_length_le (by omega)]

/-- C15, amended. For every user `u` without `+`, every tag `t` that is
not empty once its leading `.` characters are removed and then holds no
`%`, every domain `d` and every maildir rule with a path `P` other than
`~`: when `P`, `/.` and the tag fit the MDA buffer and `lka_submit` appends
an envelope for a Username node whose nearest Address node is `u+t@d`,
the MDA buffer of the envelope is `R` followed by `/.` followed by `t`
without its leading `.` characters, where `R` is the result of the `~/`
resolution and format expansion applied to `P` alone. -/
theorem lka_submit_maildir_tag (e : env) (lks : lka_session) (r : rule)
    (xn anc : expandnode) (u t d R : List Char) (n : Nat) (ep : envelope)
    (hact : r.r_action = action_type.A_MAILDIR)
    (htype : xn.type = expand_type.EXPAND_USERNAME)
    (hanc : nearest xn expand_type.EXPAND_ADDRESS = some anc)
    (hdest : anc.u.mailaddr = ⟨u ++ '+' :: t, d⟩)
    (hu : '+' ∉ u)
    (htag : t.dropWhile (fun c => decide (c = '.')) ≠ [])
    (hpct : '%' ∉ t.dropWhile (fun c => decide (c = '.')))
    (hP : r.r_value_buffer ≠ ['~'])
    (hfit : r.r_value_buffer.length + 2 + (t.dropWhile (fun c => decide (c = '.'))).length
      < e.sizeof_mda_buffer)
    (hR : lka_expand_format e.EXPAND_BUFFER r.r_value_buffer e.sizeof_mda_buffer ep
      = some (n, R))
    (hn : n ≠ 0)
    (h : lka_submit e lks (some r) (some xn)
      = .ok { lks with deliverylist := lks.deliverylist ++ [ep] }) :
    ep.mda.buffer = R ++ '/' :: '.' :: t.dropWhile (fun c => decide (c = '.')) := by
  have h1 := lka_submit_appended e lks (some r) (some xn) ep h
  obtain ⟨anc2, key, rc, tu, ep0, ret, buffer, ha, -, -, -, hf, hx, hret, hep⟩ :=
    lka_submit_envelope_built e lks r xn ep (Or.inr (Or.inl hact)) h1
  rw [hanc] at ha
  cases ha
  generalize htg : t.dropWhile (fun c => decide (c = '.')) = tag at *
  have hbuf : ep0.mda.buffer = r.r_value_buffer ++ '/' :: '.' :: tag ∧
      ep = { ep0 with mda := { ep0.mda with buffer := buffer } } := by
    refine ⟨?_, hep⟩
    unfold submit_filled at hf
    dsimp only at hf
    rw [htype, hdest, mailaddr_tag_split u t d hu, htg, hact] at hf
    simp only [reduceCtorEq, if_false, if_true, true_and, ne_eq, htag, not_false_eq_true] at hf
    have := Option.some.inj hf
    rw [← this]
    dsimp only
    have hs : "/.".toList = ['/', '.'] := rfl
    rw [strlcpy_fit _ _ _ (by omega), hs,
      strlcat_fit r.r_value_buffer ['/', '.'] _ (by simp; omega),
      strlcat_fit _ _ _ (by simp; omega)]
    simp
  obtain ⟨hb0, hep⟩ := hbuf
  rw [hep, lka_expand_format_buffer] at hR
  rw [hb0] at hx
  have hS : '%' ∉ '/' :: '.' :: tag := by
    simp only [List.mem_cons, not_or]
    exact ⟨by decide, by decide, hpct⟩
  obtain ⟨a1, a2⟩ := lka_expand_format_append e.EXPAND_BUFFER e.sizeof_mda_buffer ep0
    r.r_value_buffer ('/' :: '.' :: tag) n R hP hS
    (fun hh => absurd (show '/' = '{' from hh) (by decide)) hR hn
  rw [hep]
  dsimp only
  by_cases hall : R.length + ('/' :: '.' :: tag).length < e.EXPAND_BUFFER
  · rw [a1 hall] at hx
    exact ((Prod.mk.inj (Option.some.inj hx)).2).symm
  · obtain ⟨b, hb⟩ := a2 (by omega)
    rw [hb] at hx
    exact absurd ((Prod.mk.inj (Option.some.inj hx)).1).symm hret

/-- Witness of C15: `bob+work@example.com` through the maildir rule of
the example environment. -/
theorem lka_submit_maildir_tag_witness :
    ex_rule_maildir.r_action = action_type.A_MAILDIR ∧
    nearest ex_bob_node expand_type.EXPAND_ADDRESS = some ex_bob_address ∧
    lka_expand_format ex_env.EXPAND_BUFFER ex_rule_maildir.r_value_buffer
      ex_env.sizeof_mda_buffer ex_bob_delivery = some (17, cs "/home/bob/Maildir") ∧
    lka_submit ex_env ex_waiting_session (some ex_rule_maildir) (some ex_bob_node)
      = .ok { ex_waiting_session with
          deliverylist := ex_waiting_session.deliverylist ++ [ex_bob_delivery] } ∧
    ex_bob_delivery.mda.buffer = cs "/home/bob/Maildir" ++ cs "/.work" :=
  ⟨rfl, rfl, rfl, rfl,
    lka_submit_maildir_tag ex_env ex_waiting_session ex_rule_maildir ex_bob_node ex_bob_address
      (cs "bob") (cs "work") (cs "example.com") (cs "/home/bob/Maildir") 17 ex_bob_delivery
      rfl rfl rfl rfl (by decide) (by decide) (by decide) (by decide) (by decide) rfl
      (by decide) rfl⟩

/-- C15 as stated fails on a tag that starts with `.`: for
`bob+.work@example.com` the tag `.work` is not empty, `~/Maildir` alone
expands to `/home/bob/Maildir`, and the MDA buffer is
`/home/bob/Maildir/.work`, which does not start with `/home/bob/Maildir`
followed by `/.` followed by `.work`. -/
theorem lka_submit_maildir_tag_counterexample :
    ex_rule_maildir.r_action = action_type.A_MAILDIR ∧
    nearest ex_dot_node expand_type.EXPAND_ADDRESS = some ex_dot_address ∧
    ex_dot_address.u.mailaddr = ⟨cs "bob" ++ '+' :: cs ".work", cs "example.com"⟩ ∧
    ∃ ep, lka_submit ex_env ex_dot_session (some ex_rule_maildir) (some ex_dot_node)
        = .ok { ex_dot_session with deliverylist := ex_dot_session.deliverylist ++ [ep] } ∧
      lka_expand_format ex_env.EXPAND_BUFFER ex_rule_maildir.r_value_buffer
        ex_env.sizeof_mda_buffer ep = some (17, cs "/home/bob/Maildir") ∧
      ep.mda.buffer = cs "/home/bob/Maildir/.work" ∧
      ¬ (cs "/home/bob/Maildir" ++ cs "/." ++ cs ".work") <+: ep.mda.buffer :=
  ⟨rfl, rfl, rfl, _, rfl, rfl, rfl, by decide⟩

/-! ## Delivery to the maildir of `bob` -/

/-- The expansion of `~/Maildir/.work` for a user whose directory is
`/home/bob`. -/
theorem lka_expand_format_bob (EB len : Nat) (ep : envelope)
    (hdir : ep.mda.user.directory = cs "/home/bob") (hEB : 23 < EB) (hlen : EB ≤ len) :
    lka_expand_format EB (cs "~/Maildir/.work") len ep
      = some (23, cs "/home/bob/Maildir/.work") := by
  unfold lka_expand_format
  rw [if_neg (by omega)]
  have h1 : (cs "~/Maildir/.work").take 2 = ['~', '/'] := rfl
  have h2 : (cs "~/Maildir/.work").drop 2 = cs "Maildir/.work" := rfl
  have h3 : (cs "/home/bob").length = 9 := rfl
  dsimp only
  rw [if_pos h1, hdir, h2, h3, if_neg (by omega)]
  dsimp only
  rw [loop_literal EB ep (cs "Maildir/.work") _ _ _ (by decide) (le_refl _) (by omega)]
  have h4 : (cs "Maildir/.work").length = 13 := rfl
  have h5 : (cs "/home/bob" ++ ['/']).length = 10 := rfl
  have h6 : (List.take (EB - 1) (cs "/home/bob" ++ ['/'])) = cs "/home/bob/" :=
    List.take_of_length_le (by rw [h5]; omega)
  have h7 : List.take (EB - (9 + 1)) (cs "Maildir/.work") = cs "Maildir/.work" :=
    List.take_of_length_le (by rw [h4]; omega)
  have h8 : (cs "/home/bob/" ++ cs "Maildir/.work") = cs "/home/bob/Maildir/.work" := rfl
  have h9 : (cs "/home/bob/Maildir/.work").length = 23 := rfl
  rw [h4, h6, h7, h8]
  dsimp only
  rw [if_neg (by omega), h9, if_neg (by omega), strlcpy_fit _ _ _ (by rw [h9]; omega)]

/-- C16, amended. For every environment whose `<getpwnam>` table returns
for `bob` the user `bob` with directory `/home/bob`, every rule with
action maildir and buffer `~/Maildir`, and every Username node whose
nearest Username node has the user `bob` and whose nearest Address node is
`bob+work@example.com`, `lka_submit` appends exactly one envelope to the
delivery list and its MDA buffer is `/home/bob/Maildir/.work`: the
directory of the user replaces `~`, and the text of the rule keeps its
case. The buffers are taken to hold these strings: the username buffer
more than 3 bytes, the scratch buffer more than 23, the MDA buffer no less
than the scratch buffer. -/
theorem lka_submit_bob (e : env) (lks : lka_session) (r : rule) (xn anc : expandnode)
    (hact : r.r_action = action_type.A_MAILDIR)
    (hbuf : r.r_value_buffer = cs "~/Maildir")
    (htype : xn.type = expand_type.EXPAND_USERNAME)
    (hanc : nearest xn expand_type.EXPAND_ADDRESS = some anc)
    (hdest : anc.u.mailaddr = ⟨cs "bob+work", cs "example.com"⟩)
    (hname : delivery_name e xn = some (cs "bob"))
    (hlook : e.table_lookup (e.table_findbyname "<getpwnam>".toList) (cs "bob")
      = (1, some ⟨cs "bob", cs "/home/bob"⟩))
    (hsz : 3 < e.sizeof_mda_username) (hEB : 23 < e.EXPAND_BUFFER)
    (hlen : e.EXPAND_BUFFER ≤ e.sizeof_mda_buffer) :
    lka_submit e lks (some r) (some xn)
      = .ok { lks with deliverylist := lks.deliverylist ++
          [{ lks.envelope with
              expire := r.r_qexpire, type := delivery_type.D_MDA,
              dest := ⟨cs "bob+work", cs "example.com"⟩,
              mda := { method := action_type.A_MAILDIR, user := ⟨cs "bob", cs "/home/bob"⟩,
                       buffer := cs "/home/bob/Maildir/.work" } }] } := by
  have hl := lka_submit_envelope_local e lks r xn (Or.inr (Or.inl hact))
  rw [find_ancestor_nearest, hanc, submit_username_name, hname] at hl
  simp only [Option.map_some'] at hl
  rw [strlcpy_fit _ _ _ (by exact hsz), hlook] at hl
  dsimp only at hl
  rw [if_neg (by decide)] at hl
  have hf : submit_filled e lks r xn anc ⟨cs "bob", cs "/home/bob"⟩
      = some { lks.envelope with
          expire := r.r_qexpire, type := delivery_type.D_MDA,
          dest := ⟨cs "bob+work", cs "example.com"⟩,
          mda := { method := action_type.A_MAILDIR, user := ⟨cs "bob", cs "/home/bob"⟩,
                   buffer := cs "~/Maildir/.work" } } := by
    unfold submit_filled
    dsimp only
    have ht : mailaddr_tag ⟨cs "bob+work", cs "example.com"⟩ = some (cs "work") := rfl
    have hs : "/.".toList = ['/', '.'] := rfl
    rw [htype, hdest, ht, hact, hbuf]
    simp only [reduceCtorEq, if_false, if_true, true_and, ne_eq]
    rw [if_pos (by decide), hs, strlcpy_fit _ _ _ (by rw [show (cs "~/Maildir").length = 9 from rfl]; omega),
      strlcat_fit (cs "~/Maildir") ['/', '.'] _
        (by rw [show (cs "~/Maildir").length = 9 from rfl]; simp; omega),
      strlcat_fit _ _ _
        (by rw [show (cs "~/Maildir" ++ ['/', '.']).length = 11 from rfl,
              show (cs "work").length = 4 from rfl]; omega)]
    rfl
  rw [hf] at hl
  dsimp only at hl
  rw [lka_expand_format_bob _ _ _ rfl hEB hlen] at hl
  dsimp only at hl
  rw [if_neg (by decide)] at hl
  unfold lka_submit
  rw [hl]

/-- Witness of C16: the example session for `bob+work@example.com`. -/
theorem lka_submit_bob_witness :
    ex_rule_maildir.r_action = action_type.A_MAILDIR ∧
    ex_rule_maildir.r_value_buffer = cs "~/Maildir" ∧
    nearest ex_bob_node expand_type.EXPAND_ADDRESS = some ex_bob_address ∧
    ex_waiting_session.node = some ex_bob_node ∧
    lka_submit ex_env ex_waiting_session (some ex_rule_maildir) (some ex_bob_node)
      = .ok { ex_waiting_session with deliverylist := [ex_bob_delivery] } :=
  ⟨rfl, rfl, rfl, rfl,
    (lka_submit_bob ex_env ex_waiting_session ex_rule_maildir ex_bob_node ex_bob_address
      rfl rfl rfl rfl rfl rfl rfl (by decide) (by decide) (by decide)).trans rfl⟩

/-- C16 as stated fails: in the example environment, whose `<getpwnam>`
table knows `bob` with directory `/home/bob`, the one envelope that
`lka_submit` appends for the Username node `bob` derived from
`bob+work@example.com` has the MDA buffer `/home/bob/Maildir/.work`, not
`/home/bob/maildir/.work`. -/
theorem lka_submit_bob_counterexample :
    ex_waiting_session.node = some ex_bob_node ∧
    ex_waiting_session.rule = some ex_rule_maildir ∧
    ∃ ep, lka_submit ex_env ex_waiting_session (some ex_rule_maildir) (some ex_bob_node)
        = .ok { ex_waiting_session with deliverylist := [ep] } ∧
      lka_session_forward_reply ex_env 10 ex_waiting_session ⟨1, cs "bob", 1⟩ (-1)
        = .ok { lks := none,
                msgs := [⟨proc.PROC_QUEUE, imsg.IMSG_QUEUE_SUBMIT_ENVELOPE ep⟩,
                         ⟨proc.PROC_QUEUE, imsg.IMSG_QUEUE_COMMIT_ENVELOPES
                            (ex_envelope "bob+work" "example.com")⟩] } ∧
      ep.mda.buffer = cs "/home/bob/Maildir/.work" ∧
      ep.mda.buffer ≠ cs "/home/bob/maildir/.work" :=
  ⟨rfl, rfl, ex_bob_delivery, rfl, rfl, rfl, by decide⟩

end LkaSession
